import Mathlib

/-! Background removal by colour-distance region growing.

A shallow embedding of `src/utils/imageProcess.js` (`removeBackground`,
`removeColorGlobal`, `floodFill`, `resizeCanvas`, `encodeAPNG`) together with
the properties proved about it.

Modelling conventions.

* An `ImageData` is its `width`, its `height` and the flat RGBA byte list `data`.
* Coordinates and array indices are integers (`Int`): the source computes
  `x - 1`, `y - 1` and `(y * width + x) * 4` without any guard of its own.
* Reading a typed array outside its bounds gives `undefined` (here `none`);
  writing outside its bounds is ignored.
* Numbers are IEEE 754 doubles, each represented by the rational it denotes.
  `Math.sqrt(d)` is `sqrtDouble d`, the double nearest to `√d`, and
  `Math.sqrt(d) <= tolerance` compares it with the tolerance. Channel values
  and target channels are integers, so the sum of squares under the root is an
  integer, at most `195075` for byte channels, and a double holds it exactly.
  A rational `tolerance` stands for the double nearest to it. Arithmetic on
  `undefined` gives `NaN`, and a comparison with `NaN` is false.
* The `while` loops are run with an explicit iteration budget (`fuel`); the
  result is `none` when the budget is used up before the frontier is empty.
  For well-formed inputs a budget of `4 * width * height + 1` always suffices.
-/

namespace ImageProcess

/-! ## Data model -/

/-- An image buffer: `width`, `height` and the flat byte sequence `data`
(four bytes per pixel, row-major). -/
structure ImageData where
  width : Nat
  height : Nat
  data : List Nat
deriving DecidableEq, Repr

/-- Typed-array read `arr[i]`; `none` stands for `undefined`. -/
def readAt (arr : List Nat) (i : Int) : Option Nat :=
  if 0 ≤ i then arr[i.toNat]? else none

/-- Typed-array write `arr[i] = v`; a write outside the array is ignored. -/
def writeAt (arr : List Nat) (i : Int) (v : Nat) : List Nat :=
  if 0 ≤ i then arr.set i.toNat v else arr

/-- Truthiness of an array element used as a condition: `undefined` and `0` are falsy. -/
def truthy : Option Nat → Bool
  | some v => v != 0
  | none => false

/-- The argument of `Math.sqrt`: sum of the squared channel differences. -/
def distSq (r g b targetR targetG targetB : Int) : Int :=
  (r - targetR) ^ 2 + (g - targetG) ^ 2 + (b - targetB) ^ 2

/-! ### Double-precision numbers

JavaScript numbers are IEEE 754 doubles. A finite double is represented by the
rational it denotes; the results of `/`, `*`, `-` and `Math.sqrt` are the exact
results rounded to the nearest double, ties to even. The exponent range is not
bounded here: all values that occur (colour distances, canvas dimensions and
their quotients) are far from overflow and underflow. -/

/-- Integer square root by halving: `isqrtFuel fuel n` is `⌊√n⌋` when `n ≤ fuel`. -/
def isqrtFuel : Nat → Nat → Nat
  | 0, _ => 0
  | fuel + 1, n =>
    if n = 0 then 0
    else
      let r := 2 * isqrtFuel fuel (n / 4)
      if (r + 1) * (r + 1) ≤ n then r + 1 else r

/-- The integer square root `⌊√n⌋`. -/
def isqrt (n : Nat) : Nat := isqrtFuel n n

/-- Binary logarithm by halving: `log2Fuel fuel n` is `⌊log₂ n⌋` when `n ≤ fuel`. -/
def log2Fuel : Nat → Nat → Nat
  | 0, _ => 0
  | fuel + 1, n => if n < 2 then 0 else log2Fuel fuel (n / 2) + 1

/-- The binary logarithm `⌊log₂ n⌋` of a positive integer (`0` for `0`). -/
def natLog2 (n : Nat) : Nat := log2Fuel n n

/-- The binary exponent of a non-zero rational: the `e` with `2^e ≤ |x| < 2^(e+1)`. -/
def exponent (x : ℚ) : Int :=
  let c : Int := (natLog2 x.num.natAbs : Int) - (natLog2 x.den : Int)
  if (2 : ℚ) ^ c ≤ |x| then c else c - 1

/-- Rounding to the nearest integer, a tie going to the even one. -/
def roundHalfEven (x : ℚ) : Int :=
  if x - ⌊x⌋ < 1 / 2 then ⌊x⌋
  else if 1 / 2 < x - ⌊x⌋ then ⌊x⌋ + 1
  else if ⌊x⌋ % 2 = 0 then ⌊x⌋ else ⌊x⌋ + 1

/-- The double nearest to a rational, ties to even: for `x ≠ 0` with
`2^e ≤ |x| < 2^(e+1)` it is `N * 2^(e-52)`, where `N` is the integer nearest
to `x * 2^(52-e)`, so that `2^52 ≤ |N| ≤ 2^53`. -/
def roundDouble (x : ℚ) : ℚ :=
  if x = 0 then 0
  else (roundHalfEven (x * (2 : ℚ) ^ (52 - exponent x)) : ℚ) * (2 : ℚ) ^ (exponent x - 52)

/-- `Math.sqrt(d)` for a non-negative integer `d`: the double nearest to `√d`.
With `k` such that `n = d * 4^k` lies in `[2^104, 2^106)`, it is `M / 2^k`
where `M` is the integer nearest to `√n`: `⌊√n⌋`, or `⌊√n⌋ + 1` when
`(⌊√n⌋ + 1/2)² < n`. A tie cannot occur, `(m + 1/2)²` not being an integer. -/
def sqrtDouble (d : Nat) : ℚ :=
  let k := 52 - natLog2 d / 2
  let n := d * 4 ^ k
  let m := isqrt n
  let M := if m * m + m < n then m + 1 else m
  (M : ℚ) / (2 : ℚ) ^ k

/-- The test `Math.sqrt(d2) <= tolerance`. `Math.sqrt` of a negative number is
`NaN`, and a comparison with `NaN` is false. The tolerance is a JavaScript
number, hence a double: a rational `tolerance` stands for the double nearest to
it, which is `tolerance` itself when it is a double. -/
def withinTol (d2 : Int) (tolerance : ℚ) : Bool :=
  decide (0 ≤ d2 ∧ sqrtDouble d2.toNat ≤ roundDouble tolerance)

/-- The test `distance <= tolerance` on channel values that were read from
arrays: when any operand is `undefined` the distance is `NaN` and the test fails. -/
def colorMatch (r g b : Option Nat) (targetR targetG targetB : Option Int)
    (tolerance : ℚ) : Bool :=
  match r, g, b, targetR, targetG, targetB with
  | some r, some g, some b, some tR, some tG, some tB =>
      withinTol (distSq r g b tR tG tB) tolerance
  | _, _, _, _, _, _ => false

/-- The mutable state of a region-growing loop: the pixel bytes, the visited
array and the frontier (head of the list = the element `pop()` returns). -/
structure FillState where
  data : List Nat
  visited : List Nat
  frontier : List (Int × Int)
deriving DecidableEq, Repr

/-! ## removeBackground -/

/-- One iteration of the `while` loop of `removeBackground`, after
`[x, y] = queue.pop()`; `queue` is the rest of the frontier. -/
def removeBackgroundBody (width height : Nat) (targetR targetG targetB : Option Int)
    (tolerance : ℚ) (x y : Int) (data visited : List Nat) (queue : List (Int × Int)) :
    FillState :=
  let idx := (y * width + x) * 4
  if truthy (readAt visited (y * width + x)) then ⟨data, visited, queue⟩
  else
    let visited := writeAt visited (y * width + x) 1
    if colorMatch (readAt data idx) (readAt data (idx + 1)) (readAt data (idx + 2))
        targetR targetG targetB tolerance then
      let data := writeAt data (idx + 3) 0
      let queue := if x > 0 then (x - 1, y) :: queue else queue
      let queue := if x < (width : Int) - 1 then (x + 1, y) :: queue else queue
      let queue := if y > 0 then (x, y - 1) :: queue else queue
      let queue := if y < (height : Int) - 1 then (x, y + 1) :: queue else queue
      ⟨data, visited, queue⟩
    else ⟨data, visited, queue⟩

/-- The `while (queue.length > 0)` loop of `removeBackground`, run for at most
`fuel` iterations. -/
def removeBackgroundLoop (width height : Nat) (targetR targetG targetB : Option Int)
    (tolerance : ℚ) : Nat → FillState → Option FillState
  | _, ⟨data, visited, []⟩ => some ⟨data, visited, []⟩
  | 0, ⟨_, _, _ :: _⟩ => none
  | fuel + 1, ⟨data, visited, (x, y) :: queue⟩ =>
      removeBackgroundLoop width height targetR targetG targetB tolerance fuel
        (removeBackgroundBody width height targetR targetG targetB tolerance x y
          data visited queue)

/-- The state `removeBackground` enters its loop with. -/
def removeBackgroundInit (imageData : ImageData) (startX startY : Int) : FillState :=
  ⟨imageData.data, List.replicate (imageData.width * imageData.height) 0,
    [(startX, startY)]⟩

/-- The function `removeBackground(imageData, startX, startY, tolerance)`. -/
def removeBackground (fuel : Nat) (imageData : ImageData) (startX startY : Int)
    (tolerance : ℚ) : Option ImageData :=
  let width := imageData.width
  let height := imageData.height
  let data := imageData.data
  let targetIdx := (startY * width + startX) * 4
  let targetR := (readAt data targetIdx).map Int.ofNat
  let targetG := (readAt data (targetIdx + 1)).map Int.ofNat
  let targetB := (readAt data (targetIdx + 2)).map Int.ofNat
  (removeBackgroundLoop width height targetR targetG targetB tolerance fuel
    (removeBackgroundInit imageData startX startY)).map
    fun s => { imageData with data := s.data }

/-! ## removeColorGlobal -/

/-- One iteration of the `for` loop of `removeColorGlobal`, at offset `i`. -/
def removeColorGlobalBody (targetR targetG targetB : Int) (tolerance : ℚ)
    (data : List Nat) (i : Nat) : List Nat :=
  if colorMatch (readAt data i) (readAt data (i + 1)) (readAt data (i + 2))
      (some targetR) (some targetG) (some targetB) tolerance then
    writeAt data (i + 3) 0
  else data

/-- The function `removeColorGlobal(imageData, targetR, targetG, targetB, tolerance)`.
The loop `for (i = 0; i < data.length; i += 4)` visits the offsets `4 * k` with
`4 * k < data.length`; the length of `data` does not change during the loop. -/
def removeColorGlobal (imageData : ImageData) (targetR targetG targetB : Int)
    (tolerance : ℚ) : ImageData :=
  { imageData with
    data := (List.range ((imageData.data.length + 3) / 4)).foldl
      (fun data k => removeColorGlobalBody targetR targetG targetB tolerance data (4 * k))
      imageData.data }

/-! ## floodFill -/

/-- One iteration of the `while` loop of `floodFill`, after
`[x, y] = stack.pop()`; `stack` is the rest of the frontier. -/
def floodFillBody (width height : Nat) (targetR targetG targetB : Option Int)
    (tolerance : ℚ) (x y : Int) (data visited : List Nat) (stack : List (Int × Int)) :
    FillState :=
  let idx := (y * width + x) * 4
  if x < 0 ∨ x ≥ width ∨ y < 0 ∨ y ≥ height then ⟨data, visited, stack⟩
  else if truthy (readAt visited (y * width + x)) then ⟨data, visited, stack⟩
  else if colorMatch (readAt data idx) (readAt data (idx + 1)) (readAt data (idx + 2))
      targetR targetG targetB tolerance then
    let data := writeAt data (idx + 3) 0
    let visited := writeAt visited (y * width + x) 1
    ⟨data, visited, (x, y - 1) :: (x, y + 1) :: (x - 1, y) :: (x + 1, y) :: stack⟩
  else ⟨data, visited, stack⟩

/-- The `while (stack.length > 0)` loop of `floodFill`, run for at most `fuel`
iterations. -/
def floodFillLoop (width height : Nat) (targetR targetG targetB : Option Int)
    (tolerance : ℚ) : Nat → FillState → Option FillState
  | _, ⟨data, visited, []⟩ => some ⟨data, visited, []⟩
  | 0, ⟨_, _, _ :: _⟩ => none
  | fuel + 1, ⟨data, visited, (x, y) :: stack⟩ =>
      floodFillLoop width height targetR targetG targetB tolerance fuel
        (floodFillBody width height targetR targetG targetB tolerance x y
          data visited stack)

/-- The function `floodFill(imageData, startX, startY, tolerance)`. -/
def floodFill (fuel : Nat) (imageData : ImageData) (startX startY : Int)
    (tolerance : ℚ) : Option ImageData :=
  let width := imageData.width
  let height := imageData.height
  let data := imageData.data
  let targetIdx := (startY * width + startX) * 4
  let targetR := (readAt data targetIdx).map Int.ofNat
  let targetG := (readAt data (targetIdx + 1)).map Int.ofNat
  let targetB := (readAt data (targetIdx + 2)).map Int.ofNat
  if readAt data (targetIdx + 3) = some 0 then some imageData
  else
    (floodFillLoop width height targetR targetG targetB tolerance fuel
      (removeBackgroundInit imageData startX startY)).map
      fun s => { imageData with data := s.data }

/-! ## Array accesses made by the two loops -/

/-- One array access: the array (`data` or `visited`) and the index used. -/
inductive Access where
  | data (i : Int)
  | visited (i : Int)
deriving DecidableEq, Repr

/-- The array accesses of one iteration of the loop of `removeBackground`, in
program order: the read of `visited`, then (when not skipped) the write of
`visited`, the three channel reads and, on a match, the alpha write. -/
def removeBackgroundBodyAccesses (width : Nat) (targetR targetG targetB : Option Int)
    (tolerance : ℚ) (x y : Int) (data visited : List Nat) : List Access :=
  let idx := (y * width + x) * 4
  if truthy (readAt visited (y * width + x)) then [Access.visited (y * width + x)]
  else
    [Access.visited (y * width + x), Access.visited (y * width + x),
      Access.data idx, Access.data (idx + 1), Access.data (idx + 2)] ++
    (if colorMatch (readAt data idx) (readAt data (idx + 1)) (readAt data (idx + 2))
        targetR targetG targetB tolerance then [Access.data (idx + 3)] else [])

/-- The array accesses of the first `fuel` iterations of the loop of
`removeBackground` from a given state. -/
def removeBackgroundLoopAccesses (width height : Nat) (targetR targetG targetB : Option Int)
    (tolerance : ℚ) : Nat → FillState → List Access
  | _, ⟨_, _, []⟩ => []
  | 0, ⟨_, _, _ :: _⟩ => []
  | fuel + 1, ⟨data, visited, (x, y) :: queue⟩ =>
      removeBackgroundBodyAccesses width targetR targetG targetB tolerance x y data visited ++
      removeBackgroundLoopAccesses width height targetR targetG targetB tolerance fuel
        (removeBackgroundBody width height targetR targetG targetB tolerance x y
          data visited queue)

/-- All array accesses of `removeBackground` up to its `fuel`-th loop iteration:
the three reads of the target colour, then those of the loop. -/
def removeBackgroundAccesses (fuel : Nat) (imageData : ImageData) (startX startY : Int)
    (tolerance : ℚ) : List Access :=
  let width := imageData.width
  let height := imageData.height
  let data := imageData.data
  let targetIdx := (startY * width + startX) * 4
  let targetR := (readAt data targetIdx).map Int.ofNat
  let targetG := (readAt data (targetIdx + 1)).map Int.ofNat
  let targetB := (readAt data (targetIdx + 2)).map Int.ofNat
  [Access.data targetIdx, Access.data (targetIdx + 1), Access.data (targetIdx + 2)] ++
    removeBackgroundLoopAccesses width height targetR targetG targetB tolerance fuel
      (removeBackgroundInit imageData startX startY)

/-- The array accesses of one iteration of the loop of `floodFill`, in program
order: none when the popped coordinate is outside the grid, otherwise the read
of `visited`, then (when not skipped) the three channel reads and, on a match,
the alpha write and the write of `visited`. -/
def floodFillBodyAccesses (width height : Nat) (targetR targetG targetB : Option Int)
    (tolerance : ℚ) (x y : Int) (data visited : List Nat) : List Access :=
  let idx := (y * width + x) * 4
  if x < 0 ∨ x ≥ width ∨ y < 0 ∨ y ≥ height then []
  else if truthy (readAt visited (y * width + x)) then [Access.visited (y * width + x)]
  else
    [Access.visited (y * width + x),
      Access.data idx, Access.data (idx + 1), Access.data (idx + 2)] ++
    (if colorMatch (readAt data idx) (readAt data (idx + 1)) (readAt data (idx + 2))
        targetR targetG targetB tolerance then
      [Access.data (idx + 3), Access.visited (y * width + x)] else [])

/-- The array accesses of the first `fuel` iterations of the loop of `floodFill`
from a given state. -/
def floodFillLoopAccesses (width height : Nat) (targetR targetG targetB : Option Int)
    (tolerance : ℚ) : Nat → FillState → List Access
  | _, ⟨_, _, []⟩ => []
  | 0, ⟨_, _, _ :: _⟩ => []
  | fuel + 1, ⟨data, visited, (x, y) :: stack⟩ =>
      floodFillBodyAccesses width height targetR targetG targetB tolerance x y data visited ++
      floodFillLoopAccesses width height targetR targetG targetB tolerance fuel
        (floodFillBody width height targetR targetG targetB tolerance x y
          data visited stack)

/-- All array accesses of `floodFill` up to its `fuel`-th loop iteration: the
four reads at the seed, then (unless the call returns at once) those of the loop. -/
def floodFillAccesses (fuel : Nat) (imageData : ImageData) (startX startY : Int)
    (tolerance : ℚ) : List Access :=
  let width := imageData.width
  let height := imageData.height
  let data := imageData.data
  let targetIdx := (startY * width + startX) * 4
  let targetR := (readAt data targetIdx).map Int.ofNat
  let targetG := (readAt data (targetIdx + 1)).map Int.ofNat
  let targetB := (readAt data (targetIdx + 2)).map Int.ofNat
  [Access.data targetIdx, Access.data (targetIdx + 1), Access.data (targetIdx + 2),
    Access.data (targetIdx + 3)] ++
  (if readAt data (targetIdx + 3) = some 0 then []
   else floodFillLoopAccesses width height targetR targetG targetB tolerance fuel
      (removeBackgroundInit imageData startX startY))

/-- An access is in bounds: a `data` index lies in `[0, width * height * 4)`,
a `visited` index in `[0, width * height)`. -/
def Access.InBounds (width height : Nat) : Access → Prop
  | Access.data i => 0 ≤ i ∧ i < (width * height * 4 : Nat)
  | Access.visited i => 0 ≤ i ∧ i < (width * height : Nat)

/-! ## Specification vocabulary -/

/-- A well-formed buffer: positive dimensions, `data` of length
`width * height * 4`, every byte in `0..255`. -/
def ImageData.WF (img : ImageData) : Prop :=
  0 < img.width ∧ 0 < img.height ∧ img.data.length = img.width * img.height * 4 ∧
    ∀ v ∈ img.data, v < 256

instance (img : ImageData) : Decidable img.WF := by
  unfold ImageData.WF; infer_instance

/-- The coordinate `p = (x, y)` lies inside the grid. -/
def InGrid (width height : Nat) (p : Int × Int) : Prop :=
  0 ≤ p.1 ∧ p.1 < width ∧ 0 ≤ p.2 ∧ p.2 < height

instance (width height : Nat) (p : Int × Int) : Decidable (InGrid width height p) := by
  unfold InGrid; infer_instance

/-- The flat pixel number `y * width + x` of `p = (x, y)`. -/
def pixelIdx (width : Nat) (p : Int × Int) : Int := p.2 * width + p.1

/-- The alpha byte of pixel `p` in a buffer of the given width. -/
def alphaAt (width : Nat) (data : List Nat) (p : Int × Int) : Option Nat :=
  readAt data (pixelIdx width p * 4 + 3)

/-- The pixel `q` is the left, right, upper or lower neighbour of `p`. -/
def Adj4 (p q : Int × Int) : Prop :=
  q = (p.1 - 1, p.2) ∨ q = (p.1 + 1, p.2) ∨ q = (p.1, p.2 - 1) ∨ q = (p.1, p.2 + 1)

instance (p q : Int × Int) : Decidable (Adj4 p q) := by
  unfold Adj4; infer_instance

/-- The RGB of pixel `p` passes the test `distance <= tolerance` of the code
against the given target colour. -/
def pixelMatch (img : ImageData) (targetR targetG targetB : Option Int) (tolerance : ℚ)
    (p : Int × Int) : Bool :=
  colorMatch (readAt img.data (pixelIdx img.width p * 4))
    (readAt img.data (pixelIdx img.width p * 4 + 1))
    (readAt img.data (pixelIdx img.width p * 4 + 2)) targetR targetG targetB tolerance

/-- The RGB of pixel `p` passes the test `distance <= tolerance` of the code
against the RGB of the pixel `seed`. -/
def nearSeed (img : ImageData) (seed : Int × Int) (tolerance : ℚ) (p : Int × Int) : Bool :=
  pixelMatch img
    ((readAt img.data (pixelIdx img.width seed * 4)).map Int.ofNat)
    ((readAt img.data (pixelIdx img.width seed * 4 + 1)).map Int.ofNat)
    ((readAt img.data (pixelIdx img.width seed * 4 + 2)).map Int.ofNat) tolerance p

/-- The pixel `p` is reachable from `seed` by a path of 4-connected pixels, all
of them inside the grid and all of them passing the test `distance <= tolerance`
of the code against the RGB of `seed`. The path starts at `seed` and ends at `p`. -/
def Connected (img : ImageData) (seed : Int × Int) (tolerance : ℚ) (p : Int × Int) : Prop :=
  ∃ path : List (Int × Int),
    path.head? = some seed ∧ path.getLast? = some p ∧ path.Chain' Adj4 ∧
    ∀ q ∈ path, InGrid img.width img.height q ∧ nearSeed img seed tolerance q = true

/-- Reachability from `seed` through 4-connected pixels inside the grid that
satisfy `M`, built one pixel at a time. -/
inductive Reach (width height : Nat) (M : Int × Int → Prop) (seed : Int × Int) :
    Int × Int → Prop
  | base : InGrid width height seed → M seed → Reach width height M seed seed
  | step {p q : Int × Int} : Reach width height M seed p → Adj4 p q →
      InGrid width height q → M q → Reach width height M seed q

/-- The number of entries of the visited array that are still `0`. -/
def unvisited (visited : List Nat) : Nat := visited.count 0

/-- The byte list `d'` is `d` with some alpha bytes (offsets `3 mod 4`) set to `0`:
same length, and every byte is either unchanged or an alpha byte that is now `0`. -/
def AlphaCleared (d d' : List Nat) : Prop :=
  d'.length = d.length ∧
    ∀ i : Int, readAt d' i = readAt d i ∨ (i % 4 = 3 ∧ readAt d' i = some 0)

/-- Pixel `p` has been marked visited and satisfies `M`. -/
def Done (width : Nat) (M : Int × Int → Prop) (visited : List Nat) (p : Int × Int) : Prop :=
  truthy (readAt visited (pixelIdx width p)) = true ∧ M p

/-- The loop invariant shared by the two region growers, relative to the
original buffer `img`, the match predicate `M` and the seed: pixels visited
and matching (`Done`) are exactly those cleared so far, they are reachable,
their matching neighbours are done or still in the frontier, and every
matching frontier entry inside the grid is reachable. -/
structure FillInv (img : ImageData) (M : Int × Int → Prop) (seed : Int × Int)
    (s : FillState) : Prop where
  frame : AlphaCleared img.data s.data
  vlen : s.visited.length = img.width * img.height
  alpha_done : ∀ p, InGrid img.width img.height p → Done img.width M s.visited p →
    Reach img.width img.height M seed p ∧ alphaAt img.width s.data p = some 0
  alpha_keep : ∀ p, InGrid img.width img.height p → ¬ Done img.width M s.visited p →
    alphaAt img.width s.data p = alphaAt img.width img.data p
  closed : ∀ p q, InGrid img.width img.height p → Done img.width M s.visited p →
    Adj4 p q → InGrid img.width img.height q → M q →
    Done img.width M s.visited q ∨ q ∈ s.frontier
  seed_ok : InGrid img.width img.height seed → M seed →
    Done img.width M s.visited seed ∨ seed ∈ s.frontier
  sound : ∀ q ∈ s.frontier, InGrid img.width img.height q → M q →
    Reach img.width img.height M seed q

/-- The seed's region: the pixels reachable from `seed` through 4-connected
pixels of the grid whose RGB passes the test `distance <= tolerance` of the
code against the RGB of `seed`. -/
def Region (img : ImageData) (seed : Int × Int) (tolerance : ℚ) (p : Int × Int) : Prop :=
  Reach img.width img.height (fun q => nearSeed img seed tolerance q = true) seed p

/-- The buffer `out` is `img` with the alpha of exactly the seed's region set
to `0`: same dimensions, only alpha bytes touched, alpha `0` on the region and
the original alpha elsewhere. -/
def IsRegionCleared (img : ImageData) (seed : Int × Int) (tolerance : ℚ)
    (out : ImageData) : Prop :=
  out.width = img.width ∧ out.height = img.height ∧ AlphaCleared img.data out.data ∧
  ∀ p, InGrid img.width img.height p →
    (Region img seed tolerance p → alphaAt img.width out.data p = some 0) ∧
    (¬ Region img seed tolerance p →
      alphaAt img.width out.data p = alphaAt img.width img.data p)

/-- The pixel `p` lies in the rectangle `[x0, x1) × [y0, y1)`. -/
def InRect (x0 y0 x1 y1 : Int) (p : Int × Int) : Prop :=
  x0 ≤ p.1 ∧ p.1 < x1 ∧ y0 ≤ p.2 ∧ p.2 < y1

instance (x0 y0 x1 y1 : Int) (p : Int × Int) : Decidable (InRect x0 y0 x1 y1 p) := by
  unfold InRect; infer_instance

/-- The pixel `p` of the buffer has the RGB colour `(r, g, b)`. -/
def HasColor (img : ImageData) (p : Int × Int) (r g b : Nat) : Prop :=
  readAt img.data (pixelIdx img.width p * 4) = some r ∧
  readAt img.data (pixelIdx img.width p * 4 + 1) = some g ∧
  readAt img.data (pixelIdx img.width p * 4 + 2) = some b

instance (img : ImageData) (p : Int × Int) (r g b : Nat) : Decidable (HasColor img p r g b) := by
  unfold HasColor; infer_instance

/-- The rule of the specification, in exact arithmetic: the Euclidean distance
between the RGB of `p` and the RGB of `seed` is at most `tolerance`, stated on
the squares. -/
def exactNear (img : ImageData) (seed : Int × Int) (tolerance : ℚ) (p : Int × Int) : Prop :=
  ∃ r g b sR sG sB : Nat, HasColor img p r g b ∧ HasColor img seed sR sG sB ∧
    ((distSq r g b sR sG sB : Int) : ℚ) ≤ tolerance * tolerance

/-- Reachability as in `Connected`, with the exact rule `exactNear` in place of
the test the code computes. -/
def ExactConnected (img : ImageData) (seed : Int × Int) (tolerance : ℚ) (p : Int × Int) :
    Prop :=
  ∃ path : List (Int × Int),
    path.head? = some seed ∧ path.getLast? = some p ∧ path.Chain' Adj4 ∧
    ∀ q ∈ path, InGrid img.width img.height q ∧ exactNear img seed tolerance q

/-- The buffer `out` has the dimensions and length of `img`, and every byte of
`out` that is not an alpha byte (offset `3 mod 4`) equals the byte of `img`. -/
def OnlyAlphaDiffers (img out : ImageData) : Prop :=
  out.width = img.width ∧ out.height = img.height ∧
  out.data.length = img.data.length ∧
  ∀ i : Nat, i % 4 ≠ 3 → out.data[i]? = img.data[i]?

/-- For every pixel number `k`, the alpha byte of `out` (offset `4 * k + 3`) is
the alpha byte of `img` or `0`; an alpha of `0` stays `0`, and no alpha is raised. -/
def AlphaLowered (img out : ImageData) : Prop :=
  ∀ k : Nat,
    (out.data[4 * k + 3]? = img.data[4 * k + 3]? ∨ out.data[4 * k + 3]? = some 0) ∧
    (img.data[4 * k + 3]? = some 0 → out.data[4 * k + 3]? = some 0) ∧
    ∀ u v, img.data[4 * k + 3]? = some u → out.data[4 * k + 3]? = some v → v ≤ u

/-- A 3×3 opaque buffer, black except for a white centre pixel. -/
def img3x3 : ImageData :=
  ⟨3, 3, [0, 0, 0, 255, 0, 0, 0, 255, 0, 0, 0, 255,
          0, 0, 0, 255, 255, 255, 255, 255, 0, 0, 0, 255,
          0, 0, 0, 255, 0, 0, 0, 255, 0, 0, 0, 255]⟩

/-- The buffer `img3x3` with the alpha of its eight border pixels set to `0`. -/
def img3x3Cleared : ImageData :=
  ⟨3, 3, [0, 0, 0, 0, 0, 0, 0, 0, 0, 0, 0, 0,
          0, 0, 0, 0, 255, 255, 255, 255, 0, 0, 0, 0,
          0, 0, 0, 0, 0, 0, 0, 0, 0, 0, 0, 0]⟩

/-- A 2×1 buffer of two black pixels: the left one transparent, the right one opaque. -/
def img2x1 : ImageData := ⟨2, 1, [0, 0, 0, 0, 0, 0, 0, 255]⟩

/-- A 1×1 opaque buffer. -/
def img1x1 : ImageData := ⟨1, 1, [10, 20, 30, 255]⟩

/-- A 3×1 opaque buffer: a grey pixel between two black pixels. -/
def img3x1 : ImageData := ⟨3, 1, [0, 0, 0, 255, 9, 9, 9, 255, 0, 0, 0, 255]⟩

/-! ## resizeCanvas and encodeAPNG

The canvas API and the PNG encoder are outside the repository. A canvas is
its `width`, its `height` and its pixel content. The calls `ctx.drawImage`,
`canvas.getContext('2d').getImageData` and `UPNG.encode` are parameters; each
of them either returns or raises an exception (`Outcome`), and an exception
raised by one of them ends the calling function, which raises it in turn.
Each function is modelled by its outcome together with the external calls it
makes, in program order. Numbers are doubles (`JsNum`); canvas dimensions and
resize targets are non-negative integers, which a double holds exactly. -/

/-- A canvas element: its dimensions and its pixel content. -/
structure Canvas where
  width : Nat
  height : Nat
  pixels : List Nat
deriving DecidableEq, Repr

/-- An exception raised by a call into the platform or the encoder. -/
inductive JsError where
  | indexSizeError
  | invalidStateError
  | other (name : String)
deriving DecidableEq, Repr

/-- The outcome of a call: it returns a value or it raises an exception. -/
inductive Outcome (α : Type) where
  | returned (value : α)
  | raised (error : JsError)
deriving DecidableEq, Repr

/-- The outcome of `const y = f(x)` followed by `return g(y)` with `g` a pure
function: an exception of `f` is passed on. -/
def Outcome.map {α β : Type} (g : α → β) : Outcome α → Outcome β
  | Outcome.returned a => Outcome.returned (g a)
  | Outcome.raised e => Outcome.raised e

/-- A JavaScript number: a finite double (the rational it denotes), an
infinity or `NaN`. -/
inductive JsNum where
  | fin (q : ℚ)
  | posInf
  | negInf
  | nan
deriving DecidableEq

/-- The quotient `a / b` of two non-negative integers: `0 / 0` is `NaN`,
`a / 0` is `Infinity` for `a > 0`, and otherwise the double nearest to the
exact quotient. -/
def JsNum.divNat (a b : Nat) : JsNum :=
  if b = 0 then (if a = 0 then JsNum.nan else JsNum.posInf)
  else JsNum.fin (roundDouble ((a : ℚ) / (b : ℚ)))

/-- `Math.min(x, y)`: `NaN` when an argument is `NaN`. -/
def JsNum.min : JsNum → JsNum → JsNum
  | JsNum.nan, _ => JsNum.nan
  | _, JsNum.nan => JsNum.nan
  | JsNum.negInf, _ => JsNum.negInf
  | _, JsNum.negInf => JsNum.negInf
  | JsNum.posInf, y => y
  | x, JsNum.posInf => x
  | JsNum.fin a, JsNum.fin b => JsNum.fin (Min.min a b)

/-- The product `w * x` with `w` a non-negative integer: `0 * Infinity` is
`NaN`, and a finite product is rounded to the nearest double. -/
def JsNum.mulNat (w : Nat) : JsNum → JsNum
  | JsNum.fin x => JsNum.fin (roundDouble ((w : ℚ) * x))
  | JsNum.posInf => if w = 0 then JsNum.nan else JsNum.posInf
  | JsNum.negInf => if w = 0 then JsNum.nan else JsNum.negInf
  | JsNum.nan => JsNum.nan

/-- The difference `t - x` with `t` a non-negative integer; a finite
difference is rounded to the nearest double. -/
def JsNum.natSub (t : Nat) : JsNum → JsNum
  | JsNum.fin x => JsNum.fin (roundDouble ((t : ℚ) - x))
  | JsNum.posInf => JsNum.negInf
  | JsNum.negInf => JsNum.posInf
  | JsNum.nan => JsNum.nan

/-- The quotient `x / 2`; a finite quotient is rounded to the nearest double. -/
def JsNum.half : JsNum → JsNum
  | JsNum.fin x => JsNum.fin (roundDouble (x / 2))
  | JsNum.posInf => JsNum.posInf
  | JsNum.negInf => JsNum.negInf
  | JsNum.nan => JsNum.nan

/-- The arguments of one call `ctx.drawImage(canvas, sx, sy, sw, sh, dx, dy, dw, dh)`. -/
structure DrawImageCall where
  source : Canvas
  sx : Nat
  sy : Nat
  sw : Nat
  sh : Nat
  dx : JsNum
  dy : JsNum
  dw : JsNum
  dh : JsNum
deriving DecidableEq

/-- What `resizeCanvas` does: the dimensions given to the canvas it creates,
the `drawImage` calls made on it, and the outcome: the canvas is returned
(`returned ()`) or an exception is raised. -/
structure ResizeRun where
  width : Nat
  height : Nat
  draws : List DrawImageCall
  result : Outcome Unit
deriving DecidableEq

/-- The function `resizeCanvas(canvas, targetW, targetH)`; `drawImage call`
is the outcome of `ctx.drawImage(...)` on the context of the new canvas. The
targets are non-negative integers, the values a canvas dimension can hold. -/
def resizeCanvas (drawImage : DrawImageCall → Outcome Unit) (canvas : Canvas)
    (targetW targetH : Nat) : ResizeRun :=
  let w := canvas.width
  let h := canvas.height
  let widthRatio := JsNum.divNat targetW w
  let heightRatio := JsNum.divNat targetH h
  let ratio := JsNum.min widthRatio heightRatio
  let newW := JsNum.mulNat w ratio
  let newH := JsNum.mulNat h ratio
  let dx := JsNum.half (JsNum.natSub targetW newW)
  let dy := JsNum.half (JsNum.natSub targetH newH)
  ⟨targetW, targetH, [⟨canvas, 0, 0, w, h, dx, dy, newW, newH⟩],
    drawImage ⟨canvas, 0, 0, w, h, dx, dy, newW, newH⟩⟩

/-- The arguments of one call `UPNG.encode(bufs, width, height, loop, delays)`. -/
structure EncodeCall where
  bufs : List (List Nat)
  width : Nat
  height : Nat
  loop : Nat
  delays : List ℚ
deriving DecidableEq

/-- One call `ctx.getImageData(0, 0, width, height)` on a canvas. -/
structure FrameRead where
  canvas : Canvas
  width : Nat
  height : Nat
deriving DecidableEq

/-- What `encodeAPNG` does: the frame reads and encoder calls it makes, in
program order, and its outcome: it returns `null` (`none`), it returns the
value of the encoder, or an exception is raised. -/
structure EncodeRun (β : Type) where
  reads : List FrameRead
  calls : List EncodeCall
  result : Outcome (Option β)

/-- The loop `canvases.map(canvas => canvas.getContext('2d').getImageData(0, 0,
width, height).data.buffer)`: the frames are read in order and the first read
that raises ends the loop. The result is the reads made, and the buffers or
the exception. -/
def readFrames (getImageData : Canvas → Nat → Nat → Outcome (List Nat)) (width height : Nat) :
    List Canvas → List FrameRead × Outcome (List (List Nat))
  | [] => ([], Outcome.returned [])
  | canvas :: rest =>
    match getImageData canvas width height with
    | Outcome.raised e => ([⟨canvas, width, height⟩], Outcome.raised e)
    | Outcome.returned buf =>
      match readFrames getImageData width height rest with
      | (reads, Outcome.raised e) => (⟨canvas, width, height⟩ :: reads, Outcome.raised e)
      | (reads, Outcome.returned bufs) =>
        (⟨canvas, width, height⟩ :: reads, Outcome.returned (buf :: bufs))

/-- The function `encodeAPNG(canvases, delay, loop)`; `getImageData canvas w h`
is the outcome of `canvas.getContext('2d').getImageData(0, 0, w, h).data.buffer`
and `encode call` the outcome of `UPNG.encode(...)`. -/
def encodeAPNG {β : Type} (getImageData : Canvas → Nat → Nat → Outcome (List Nat))
    (encode : EncodeCall → Outcome β) (canvases : List Canvas) (delay : ℚ) (loop : Nat) :
    EncodeRun β :=
  match canvases with
  | [] => ⟨[], [], Outcome.returned none⟩
  | first :: _ =>
    let width := first.width
    let height := first.height
    match readFrames getImageData width height canvases with
    | (reads, Outcome.raised e) => ⟨reads, [], Outcome.raised e⟩
    | (reads, Outcome.returned bufs) =>
      let delays := List.replicate bufs.length delay
      ⟨reads, [⟨bufs, width, height, loop, delays⟩],
        Outcome.map some (encode ⟨bufs, width, height, loop, delays⟩)⟩

/-- A frame read raises `IndexSizeError` when the requested width or height is
`0`, as `getImageData` does in the HTML standard. -/
def RaisesOnEmptyRead (getImageData : Canvas → Nat → Nat → Outcome (List Nat)) : Prop :=
  ∀ canvas sw sh, sw = 0 ∨ sh = 0 →
    getImageData canvas sw sh = Outcome.raised JsError.indexSizeError

/-- A draw call raises `InvalidStateError` when its source canvas has a width
or a height of `0`. -/
def RaisesOnEmptySource (drawImage : DrawImageCall → Outcome Unit) : Prop :=
  ∀ call : DrawImageCall, call.source.width = 0 ∨ call.source.height = 0 →
    drawImage call = Outcome.raised JsError.invalidStateError

/-- A frame read that raises `IndexSizeError` on a zero size and otherwise
returns the content of the canvas. -/
def sampleGetImageData (canvas : Canvas) (sw sh : Nat) : Outcome (List Nat) :=
  if sw = 0 ∨ sh = 0 then Outcome.raised JsError.indexSizeError
  else Outcome.returned canvas.pixels

/-- A draw call that raises `InvalidStateError` on a source of zero width or
height and otherwise returns. -/
def sampleDrawImage (call : DrawImageCall) : Outcome Unit :=
  if call.source.width = 0 ∨ call.source.height = 0 then
    Outcome.raised JsError.invalidStateError
  else Outcome.returned ()

/-- An encoder that returns its arguments. -/
def sampleEncode (call : EncodeCall) : Outcome EncodeCall := Outcome.returned call

/-- A 2×1 opaque buffer: a black pixel and a pixel of colour `(1, 1, 1)`, at
distance `√3` from black. -/
def img2x1Near : ImageData := ⟨2, 1, [0, 0, 0, 255, 1, 1, 1, 255]⟩

/-- A 1×1 opaque buffer of colour `(1, 1, 1)`. -/
def img1x1Near : ImageData := ⟨1, 1, [1, 1, 1, 255]⟩

/-- The double `Math.sqrt(3)`; its square is less than `3`. -/
def sqrt3Double : ℚ := 3900231685776981 / 2251799813685248

/-- A 1×1 opaque black buffer. -/
def imgBlack1x1 : ImageData := ⟨1, 1, [0, 0, 0, 255]⟩

/-! ## Iterations and expansions of the two loops -/

/-- The iteration of the loop of `removeBackground` that pops `(x, y)` takes the
branch `distance <= tolerance`: it clears the alpha and pushes the neighbours. -/
def removeBackgroundBodyExpands (width : Nat) (targetR targetG targetB : Option Int)
    (tolerance : ℚ) (x y : Int) (data visited : List Nat) : Bool :=
  let idx := (y * width + x) * 4
  if truthy (readAt visited (y * width + x)) then false
  else colorMatch (readAt data idx) (readAt data (idx + 1)) (readAt data (idx + 2))
    targetR targetG targetB tolerance

/-- The number of iterations the loop of `removeBackground` makes from a given
state, counted up to the budget. -/
def removeBackgroundLoopIters (width height : Nat) (targetR targetG targetB : Option Int)
    (tolerance : ℚ) : Nat → FillState → Nat
  | _, ⟨_, _, []⟩ => 0
  | 0, ⟨_, _, _ :: _⟩ => 0
  | fuel + 1, ⟨data, visited, (x, y) :: queue⟩ =>
      1 + removeBackgroundLoopIters width height targetR targetG targetB tolerance fuel
        (removeBackgroundBody width height targetR targetG targetB tolerance x y
          data visited queue)

/-- The coordinates at which the loop of `removeBackground` takes the branch
`distance <= tolerance`, in the order of the iterations. -/
def removeBackgroundLoopExpanded (width height : Nat) (targetR targetG targetB : Option Int)
    (tolerance : ℚ) : Nat → FillState → List (Int × Int)
  | _, ⟨_, _, []⟩ => []
  | 0, ⟨_, _, _ :: _⟩ => []
  | fuel + 1, ⟨data, visited, (x, y) :: queue⟩ =>
      (if removeBackgroundBodyExpands width targetR targetG targetB tolerance x y data visited
        then [(x, y)] else []) ++
      removeBackgroundLoopExpanded width height targetR targetG targetB tolerance fuel
        (removeBackgroundBody width height targetR targetG targetB tolerance x y
          data visited queue)

/-- The number of loop iterations of a call of `removeBackground`, counted up to
the budget. -/
def removeBackgroundIters (fuel : Nat) (imageData : ImageData) (startX startY : Int)
    (tolerance : ℚ) : Nat :=
  let width := imageData.width
  let height := imageData.height
  let data := imageData.data
  let targetIdx := (startY * width + startX) * 4
  let targetR := (readAt data targetIdx).map Int.ofNat
  let targetG := (readAt data (targetIdx + 1)).map Int.ofNat
  let targetB := (readAt data (targetIdx + 2)).map Int.ofNat
  removeBackgroundLoopIters width height targetR targetG targetB tolerance fuel
    (removeBackgroundInit imageData startX startY)

/-- The coordinates expanded by a call of `removeBackground`, in order. -/
def removeBackgroundExpanded (fuel : Nat) (imageData : ImageData) (startX startY : Int)
    (tolerance : ℚ) : List (Int × Int) :=
  let width := imageData.width
  let height := imageData.height
  let data := imageData.data
  let targetIdx := (startY * width + startX) * 4
  let targetR := (readAt data targetIdx).map Int.ofNat
  let targetG := (readAt data (targetIdx + 1)).map Int.ofNat
  let targetB := (readAt data (targetIdx + 2)).map Int.ofNat
  removeBackgroundLoopExpanded width height targetR targetG targetB tolerance fuel
    (removeBackgroundInit imageData startX startY)

/-- The iteration of the loop of `floodFill` that pops `(x, y)` takes the branch
`distance <= tolerance`: it clears the alpha, marks the pixel and pushes the
four neighbours. -/
def floodFillBodyExpands (width height : Nat) (targetR targetG targetB : Option Int)
    (tolerance : ℚ) (x y : Int) (data visited : List Nat) : Bool :=
  let idx := (y * width + x) * 4
  if x < 0 ∨ x ≥ width ∨ y < 0 ∨ y ≥ height then false
  else if truthy (readAt visited (y * width + x)) then false
  else colorMatch (readAt data idx) (readAt data (idx + 1)) (readAt data (idx + 2))
    targetR targetG targetB tolerance

/-- The number of iterations the loop of `floodFill` makes from a given state,
counted up to the budget. -/
def floodFillLoopIters (width height : Nat) (targetR targetG targetB : Option Int)
    (tolerance : ℚ) : Nat → FillState → Nat
  | _, ⟨_, _, []⟩ => 0
  | 0, ⟨_, _, _ :: _⟩ => 0
  | fuel + 1, ⟨data, visited, (x, y) :: stack⟩ =>
      1 + floodFillLoopIters width height targetR targetG targetB tolerance fuel
        (floodFillBody width height targetR targetG targetB tolerance x y
          data visited stack)

/-- The coordinates at which the loop of `floodFill` takes the branch
`distance <= tolerance`, in the order of the iterations. -/
def floodFillLoopExpanded (width height : Nat) (targetR targetG targetB : Option Int)
    (tolerance : ℚ) : Nat → FillState → List (Int × Int)
  | _, ⟨_, _, []⟩ => []
  | 0, ⟨_, _, _ :: _⟩ => []
  | fuel + 1, ⟨data, visited, (x, y) :: stack⟩ =>
      (if floodFillBodyExpands width height targetR targetG targetB tolerance x y data visited
        then [(x, y)] else []) ++
      floodFillLoopExpanded width height targetR targetG targetB tolerance fuel
        (floodFillBody width height targetR targetG targetB tolerance x y
          data visited stack)

/-- The number of loop iterations of a call of `floodFill`, counted up to the
budget; none when the call returns at its transparent-seed guard. -/
def floodFillIters (fuel : Nat) (imageData : ImageData) (startX startY : Int)
    (tolerance : ℚ) : Nat :=
  let width := imageData.width
  let height := imageData.height
  let data := imageData.data
  let targetIdx := (startY * width + startX) * 4
  let targetR := (readAt data targetIdx).map Int.ofNat
  let targetG := (readAt data (targetIdx + 1)).map Int.ofNat
  let targetB := (readAt data (targetIdx + 2)).map Int.ofNat
  if readAt data (targetIdx + 3) = some 0 then 0
  else floodFillLoopIters width height targetR targetG targetB tolerance fuel
    (removeBackgroundInit imageData startX startY)

/-- The coordinates expanded by a call of `floodFill`, in order. -/
def floodFillExpanded (fuel : Nat) (imageData : ImageData) (startX startY : Int)
    (tolerance : ℚ) : List (Int × Int) :=
  let width := imageData.width
  let height := imageData.height
  let data := imageData.data
  let targetIdx := (startY * width + startX) * 4
  let targetR := (readAt data targetIdx).map Int.ofNat
  let targetG := (readAt data (targetIdx + 1)).map Int.ofNat
  let targetB := (readAt data (targetIdx + 2)).map Int.ofNat
  if readAt data (targetIdx + 3) = some 0 then []
  else floodFillLoopExpanded width height targetR targetG targetB tolerance fuel
    (removeBackgroundInit imageData startX startY)

/-- A 1×2 opaque black buffer. -/
def img1x2 : ImageData := ⟨1, 2, [0, 0, 0, 255, 0, 0, 0, 255]⟩

/-! ## Array reads and writes -/

theorem length_writeAt (d : List Nat) (i : Int) (v : Nat) :
    (writeAt d i v).length = d.length := by
  unfold writeAt; split <;> simp

theorem readAt_writeAt_ne {d : List Nat} {i j : Int} {v : Nat} (h : i ≠ j) :
    readAt (writeAt d i v) j = readAt d j := by
  unfold readAt writeAt
  by_cases hi : 0 ≤ i <;> by_cases hj : 0 ≤ j <;> simp [hi, hj]
  apply List.getElem?_set_ne
  omega

theorem readAt_writeAt_self {d : List Nat} {i : Int} {v : Nat} (h0 : 0 ≤ i)
    (h1 : i < d.length) : readAt (writeAt d i v) i = some v := by
  unfold readAt writeAt
  simp only [h0, if_true]
  rw [List.getElem?_set]
  have : i.toNat < d.length := by omega
  simp [this]

theorem readAt_writeAt_cases (d : List Nat) (i j : Int) (v : Nat) :
    readAt (writeAt d i v) j = readAt d j ∨ (j = i ∧ readAt (writeAt d i v) j = some v) := by
  by_cases hij : i = j
  · subst hij
    by_cases h0 : 0 ≤ i
    · by_cases h1 : i < d.length
      · exact Or.inr ⟨rfl, readAt_writeAt_self h0 h1⟩
      · left
        unfold readAt writeAt
        simp only [h0, if_true]
        rw [List.set_eq_of_length_le (by omega)]
    · left
      unfold readAt
      simp [h0]
  · exact Or.inl (readAt_writeAt_ne hij)

theorem readAt_natCast (d : List Nat) (i : Nat) : readAt d (i : Int) = d[i]? := by
  unfold readAt
  simp

theorem readAt_isSome {d : List Nat} {i : Int} (h0 : 0 ≤ i) (h1 : i < d.length) :
    ∃ v, readAt d i = some v := by
  unfold readAt
  simp only [h0, if_true]
  have : i.toNat < d.length := by omega
  exact ⟨d[i.toNat], List.getElem?_eq_getElem this⟩

theorem readAt_eq_none_of_le {d : List Nat} {i : Int} (h : (d.length : Int) ≤ i) :
    readAt d i = none := by
  unfold readAt
  split
  · apply List.getElem?_eq_none
    omega
  · rfl

/-! ## The frame relation `AlphaCleared` -/

theorem alphaCleared_refl (d : List Nat) : AlphaCleared d d :=
  ⟨rfl, fun _ => Or.inl rfl⟩

theorem alphaCleared_trans {a b c : List Nat} (h1 : AlphaCleared a b) (h2 : AlphaCleared b c) :
    AlphaCleared a c := by
  refine ⟨h2.1.trans h1.1, fun i => ?_⟩
  rcases h2.2 i with h | h
  · rcases h1.2 i with h' | h'
    · exact Or.inl (h.trans h')
    · exact Or.inr ⟨h'.1, h.trans h'.2⟩
  · exact Or.inr h

theorem alphaCleared_writeAt (d : List Nat) (k : Int) :
    AlphaCleared d (writeAt d (k * 4 + 3) 0) := by
  refine ⟨length_writeAt _ _ _, fun i => ?_⟩
  rcases readAt_writeAt_cases d (k * 4 + 3) i 0 with h | ⟨h, h'⟩
  · exact Or.inl h
  · refine Or.inr ⟨?_, h'⟩
    subst h
    omega

theorem alphaCleared_rgb {d d' : List Nat} (h : AlphaCleared d d') {i : Int} (hi : i % 4 ≠ 3) :
    readAt d' i = readAt d i := by
  rcases h.2 i with h | h
  · exact h
  · exact absurd h.1 hi

/-! ## Induction rules for the two loops -/

/-- A property preserved by every iteration holds when the loop of
`removeBackground` exits, and the frontier is then empty. -/
theorem removeBackgroundLoop_inv (width height : Nat) (tR tG tB : Option Int) (tol : ℚ)
    (P : FillState → Prop)
    (hstep : ∀ d v x y q, P ⟨d, v, (x, y) :: q⟩ →
      P (removeBackgroundBody width height tR tG tB tol x y d v q)) :
    ∀ fuel s s', removeBackgroundLoop width height tR tG tB tol fuel s = some s' →
      P s → P s' ∧ s'.frontier = [] := by
  intro fuel
  induction fuel with
  | zero =>
    intro s s' h hP
    obtain ⟨d, v, f⟩ := s
    cases f with
    | nil =>
      simp only [removeBackgroundLoop, Option.some.injEq] at h
      subst h
      exact ⟨hP, rfl⟩
    | cons c f => simp [removeBackgroundLoop] at h
  | succ n ih =>
    intro s s' h hP
    obtain ⟨d, v, f⟩ := s
    cases f with
    | nil =>
      simp only [removeBackgroundLoop, Option.some.injEq] at h
      subst h
      exact ⟨hP, rfl⟩
    | cons c f =>
      obtain ⟨x, y⟩ := c
      simp only [removeBackgroundLoop] at h
      exact ih _ _ h (hstep _ _ _ _ _ hP)

/-- A property preserved by every iteration holds when the loop of `floodFill`
exits, and the frontier is then empty. -/
theorem floodFillLoop_inv (width height : Nat) (tR tG tB : Option Int) (tol : ℚ)
    (P : FillState → Prop)
    (hstep : ∀ d v x y q, P ⟨d, v, (x, y) :: q⟩ →
      P (floodFillBody width height tR tG tB tol x y d v q)) :
    ∀ fuel s s', floodFillLoop width height tR tG tB tol fuel s = some s' →
      P s → P s' ∧ s'.frontier = [] := by
  intro fuel
  induction fuel with
  | zero =>
    intro s s' h hP
    obtain ⟨d, v, f⟩ := s
    cases f with
    | nil =>
      simp only [floodFillLoop, Option.some.injEq] at h
      subst h
      exact ⟨hP, rfl⟩
    | cons c f => simp [floodFillLoop] at h
  | succ n ih =>
    intro s s' h hP
    obtain ⟨d, v, f⟩ := s
    cases f with
    | nil =>
      simp only [floodFillLoop, Option.some.injEq] at h
      subst h
      exact ⟨hP, rfl⟩
    | cons c f =>
      obtain ⟨x, y⟩ := c
      simp only [floodFillLoop] at h
      exact ih _ _ h (hstep _ _ _ _ _ hP)

/-- When every iteration keeps `P` and lowers the measure `μ`, the loop of
`removeBackground` exits within `μ s` iterations. -/
theorem removeBackgroundLoop_terminates (width height : Nat) (tR tG tB : Option Int)
    (tol : ℚ) (P : FillState → Prop) (μ : FillState → Nat)
    (hstep : ∀ d v x y q, P ⟨d, v, (x, y) :: q⟩ →
      P (removeBackgroundBody width height tR tG tB tol x y d v q) ∧
      μ (removeBackgroundBody width height tR tG tB tol x y d v q) < μ ⟨d, v, (x, y) :: q⟩) :
    ∀ fuel s, P s → μ s ≤ fuel →
      ∃ s', removeBackgroundLoop width height tR tG tB tol fuel s = some s' := by
  intro fuel
  induction fuel with
  | zero =>
    intro s hP hμ
    obtain ⟨d, v, f⟩ := s
    cases f with
    | nil => exact ⟨⟨d, v, []⟩, by simp only [removeBackgroundLoop]⟩
    | cons c f =>
      obtain ⟨x, y⟩ := c
      have := (hstep _ _ _ _ _ hP).2
      omega
  | succ n ih =>
    intro s hP hμ
    obtain ⟨d, v, f⟩ := s
    cases f with
    | nil => exact ⟨⟨d, v, []⟩, by simp only [removeBackgroundLoop]⟩
    | cons c f =>
      obtain ⟨x, y⟩ := c
      simp only [removeBackgroundLoop]
      have h := hstep _ _ _ _ _ hP
      exact ih _ h.1 (by omega)

/-- When every iteration keeps `P` and lowers the measure `μ`, the loop of
`floodFill` exits within `μ s` iterations. -/
theorem floodFillLoop_terminates (width height : Nat) (tR tG tB : Option Int)
    (tol : ℚ) (P : FillState → Prop) (μ : FillState → Nat)
    (hstep : ∀ d v x y q, P ⟨d, v, (x, y) :: q⟩ →
      P (floodFillBody width height tR tG tB tol x y d v q) ∧
      μ (floodFillBody width height tR tG tB tol x y d v q) < μ ⟨d, v, (x, y) :: q⟩) :
    ∀ fuel s, P s → μ s ≤ fuel →
      ∃ s', floodFillLoop width height tR tG tB tol fuel s = some s' := by
  intro fuel
  induction fuel with
  | zero =>
    intro s hP hμ
    obtain ⟨d, v, f⟩ := s
    cases f with
    | nil => exact ⟨⟨d, v, []⟩, by simp only [floodFillLoop]⟩
    | cons c f =>
      obtain ⟨x, y⟩ := c
      have := (hstep _ _ _ _ _ hP).2
      omega
  | succ n ih =>
    intro s hP hμ
    obtain ⟨d, v, f⟩ := s
    cases f with
    | nil => exact ⟨⟨d, v, []⟩, by simp only [floodFillLoop]⟩
    | cons c f =>
      obtain ⟨x, y⟩ := c
      simp only [floodFillLoop]
      have h := hstep _ _ _ _ _ hP
      exact ih _ h.1 (by omega)

/-- The result of the loop of `removeBackground` does not depend on the budget. -/
theorem removeBackgroundLoop_fuel (width height : Nat) (tR tG tB : Option Int) (tol : ℚ) :
    ∀ fuel fuel' s a b, removeBackgroundLoop width height tR tG tB tol fuel s = some a →
      removeBackgroundLoop width height tR tG tB tol fuel' s = some b → a = b := by
  intro fuel
  induction fuel with
  | zero =>
    intro fuel' s a b ha hb
    obtain ⟨d, v, f⟩ := s
    cases f with
    | nil =>
      cases fuel' <;> simp only [removeBackgroundLoop, Option.some.injEq] at ha hb <;>
        exact ha.symm.trans hb
    | cons c f => simp [removeBackgroundLoop] at ha
  | succ n ih =>
    intro fuel' s a b ha hb
    obtain ⟨d, v, f⟩ := s
    cases f with
    | nil =>
      cases fuel' <;> simp only [removeBackgroundLoop, Option.some.injEq] at ha hb <;>
        exact ha.symm.trans hb
    | cons c f =>
      obtain ⟨x, y⟩ := c
      cases fuel' with
      | zero => simp [removeBackgroundLoop] at hb
      | succ m =>
        simp only [removeBackgroundLoop] at ha hb
        exact ih _ _ _ _ ha hb

/-- The result of the loop of `floodFill` does not depend on the budget. -/
theorem floodFillLoop_fuel (width height : Nat) (tR tG tB : Option Int) (tol : ℚ) :
    ∀ fuel fuel' s a b, floodFillLoop width height tR tG tB tol fuel s = some a →
      floodFillLoop width height tR tG tB tol fuel' s = some b → a = b := by
  intro fuel
  induction fuel with
  | zero =>
    intro fuel' s a b ha hb
    obtain ⟨d, v, f⟩ := s
    cases f with
    | nil =>
      cases fuel' <;> simp only [floodFillLoop, Option.some.injEq] at ha hb <;>
        exact ha.symm.trans hb
    | cons c f => simp [floodFillLoop] at ha
  | succ n ih =>
    intro fuel' s a b ha hb
    obtain ⟨d, v, f⟩ := s
    cases f with
    | nil =>
      cases fuel' <;> simp only [floodFillLoop, Option.some.injEq] at ha hb <;>
        exact ha.symm.trans hb
    | cons c f =>
      obtain ⟨x, y⟩ := c
      cases fuel' with
      | zero => simp [floodFillLoop] at hb
      | succ m =>
        simp only [floodFillLoop] at ha hb
        exact ih _ _ _ _ ha hb

/-! ## The pixel grid -/

theorem pixelIdx_nonneg {width height : Nat} {p : Int × Int} (hp : InGrid width height p) :
    0 ≤ pixelIdx width p := by
  obtain ⟨h1, _, h3, _⟩ := hp
  unfold pixelIdx
  have : 0 ≤ p.2 * (width : Int) := mul_nonneg h3 (Int.ofNat_nonneg _)
  omega

theorem pixelIdx_lt {width height : Nat} {p : Int × Int} (hp : InGrid width height p) :
    pixelIdx width p < (width * height : Nat) := by
  obtain ⟨_, h2, _, h4⟩ := hp
  unfold pixelIdx
  have h5 : (p.2 + 1) * (width : Int) ≤ (height : Int) * (width : Int) :=
    mul_le_mul_of_nonneg_right (by omega) (Int.ofNat_nonneg _)
  push_cast
  nlinarith

theorem pixelIdx_inj {width height : Nat} {p q : Int × Int} (hp : InGrid width height p)
    (hq : InGrid width height q) (h : pixelIdx width p = pixelIdx width q) : p = q := by
  obtain ⟨p1, p2⟩ := p
  obtain ⟨q1, q2⟩ := q
  unfold InGrid at hp hq
  unfold pixelIdx at h
  simp only at hp hq h
  have hy : p2 = q2 := by
    rcases lt_trichotomy p2 q2 with hlt | heq | hgt
    · have : (p2 + 1) * (width : Int) ≤ q2 * (width : Int) :=
        mul_le_mul_of_nonneg_right (by omega) (Int.ofNat_nonneg _)
      nlinarith
    · exact heq
    · have : (q2 + 1) * (width : Int) ≤ p2 * (width : Int) :=
        mul_le_mul_of_nonneg_right (by omega) (Int.ofNat_nonneg _)
      nlinarith
  subst hy
  have hx : p1 = q1 := by omega
  subst hx
  rfl

/-- Every pixel number below `width * height` is the number of a pixel of the grid. -/
theorem exists_pixel_of_lt {width height : Nat} {k : Nat} (hk : k < width * height) :
    ∃ p, InGrid width height p ∧ pixelIdx width p = (k : Int) := by
  have hw : 0 < width := by
    rcases Nat.eq_zero_or_pos width with h | h
    · subst h; simp at hk
    · exact h
  refine ⟨(((k % width : Nat) : Int), ((k / width : Nat) : Int)), ⟨?_, ?_, ?_, ?_⟩, ?_⟩
  · exact Int.ofNat_nonneg _
  · show ((k % width : Nat) : Int) < (width : Int)
    exact_mod_cast Nat.mod_lt k hw
  · exact Int.ofNat_nonneg _
  · have : k / width < height := by
      apply Nat.div_lt_of_lt_mul
      exact hk
    show ((k / width : Nat) : Int) < (height : Int)
    exact_mod_cast this
  · unfold pixelIdx
    simp only
    have := Nat.div_add_mod k width
    have h2 : ((k / width * width + k % width : Nat) : Int) = (k : Int) := by
      congr 1
      rw [Nat.mul_comm]; exact this
    push_cast at h2
    exact h2

theorem alphaAt_in_range {img : ImageData} (hwf : img.WF) {p : Int × Int}
    (hp : InGrid img.width img.height p) :
    0 ≤ pixelIdx img.width p * 4 + 3 ∧ pixelIdx img.width p * 4 + 3 < (img.data.length : Int) := by
  have h0 := pixelIdx_nonneg hp
  have h1 := pixelIdx_lt hp
  rw [hwf.2.2.1]
  push_cast at h1 ⊢
  omega

/-! ## The shared loop invariant -/

theorem truthy_visited_write {width height : Nat} {v : List Nat}
    (hv : v.length = width * height) {c p : Int × Int} (hc : InGrid width height c)
    (hp : InGrid width height p) :
    truthy (readAt (writeAt v (pixelIdx width c) 1) (pixelIdx width p)) = true ↔
      p = c ∨ truthy (readAt v (pixelIdx width p)) = true := by
  by_cases hpc : p = c
  · subst hpc
    have h1 := pixelIdx_nonneg hp
    have h2 := pixelIdx_lt hp
    rw [readAt_writeAt_self h1 (by rw [hv]; exact h2)]
    simp [truthy]
  · have hne : pixelIdx width c ≠ pixelIdx width p := fun h => hpc (pixelIdx_inj hp hc h.symm)
    rw [readAt_writeAt_ne hne]
    simp [hpc]

theorem done_visited_write {width height : Nat} {M : Int × Int → Prop} {v : List Nat}
    (hv : v.length = width * height) {c p : Int × Int} (hc : InGrid width height c)
    (hp : InGrid width height p) :
    Done width M (writeAt v (pixelIdx width c) 1) p ↔ (p = c ∧ M c) ∨ Done width M v p := by
  unfold Done
  rw [truthy_visited_write hv hc hp]
  constructor
  · rintro ⟨h | h, hm⟩
    · subst h; exact Or.inl ⟨rfl, hm⟩
    · exact Or.inr ⟨h, hm⟩
  · rintro (⟨h, hm⟩ | ⟨h, hm⟩)
    · subst h; exact ⟨Or.inl rfl, hm⟩
    · exact ⟨Or.inr h, hm⟩

theorem reach_inGrid {width height : Nat} {M : Int × Int → Prop} {seed p : Int × Int}
    (h : Reach width height M seed p) : InGrid width height p := by
  cases h with
  | base hs _ => exact hs
  | step _ _ hq _ => exact hq

theorem reach_holds {width height : Nat} {M : Int × Int → Prop} {seed p : Int × Int}
    (h : Reach width height M seed p) : M p := by
  cases h with
  | base _ hm => exact hm
  | step _ _ _ hm => exact hm

theorem reach_mono {width height : Nat} {M N : Int × Int → Prop} {seed p : Int × Int}
    (hMN : ∀ q, InGrid width height q → M q → N q) (h : Reach width height M seed p) :
    Reach width height N seed p := by
  induction h with
  | base hs hm => exact Reach.base hs (hMN _ hs hm)
  | step _ ha hq hm ih => exact Reach.step ih ha hq (hMN _ hq hm)

/-- The invariant holds when a loop is entered. -/
theorem fillInv_init (img : ImageData) (M : Int × Int → Prop) (seed : Int × Int) :
    FillInv img M seed ⟨img.data, List.replicate (img.width * img.height) 0, [seed]⟩ := by
  have hnd : ∀ p, ¬ Done img.width M (List.replicate (img.width * img.height) 0) p := by
    intro p hd
    have h := hd.1
    unfold readAt at h
    split at h
    · rw [List.getElem?_replicate] at h
      split at h <;> simp [truthy] at h
    · simp [truthy] at h
  refine ⟨alphaCleared_refl _, by simp, ?_, ?_, ?_, ?_, ?_⟩
  · intro p _ hd; exact absurd hd (hnd p)
  · intro p _ _; rfl
  · intro p q _ hd; exact absurd hd (hnd p)
  · intro _ _; exact Or.inr (List.mem_singleton.mpr rfl)
  · intro q hq hg hm
    rw [List.mem_singleton.mp hq] at hg hm ⊢
    exact Reach.base hg hm

/-- Dropping the popped coordinate keeps the invariant when that coordinate,
if it is a matching pixel of the grid, is already visited. -/
theorem fillInv_drop {img : ImageData} {M : Int × Int → Prop} {seed c : Int × Int}
    {d v : List Nat} {f : List (Int × Int)} (hI : FillInv img M seed ⟨d, v, c :: f⟩)
    (hc : InGrid img.width img.height c → M c →
      truthy (readAt v (pixelIdx img.width c)) = true) :
    FillInv img M seed ⟨d, v, f⟩ := by
  refine ⟨hI.frame, hI.vlen, hI.alpha_done, hI.alpha_keep, ?_, ?_, ?_⟩
  · intro p q hp hd ha hq hm
    rcases hI.closed p q hp hd ha hq hm with h | h
    · exact Or.inl h
    · rcases List.mem_cons.mp h with h | h
      · subst h; exact Or.inl ⟨hc hq hm, hm⟩
      · exact Or.inr h
  · intro hs hm
    rcases hI.seed_ok hs hm with h | h
    · exact Or.inl h
    · rcases List.mem_cons.mp h with h | h
      · subst h; exact Or.inl ⟨hc hs hm, hm⟩
      · exact Or.inr h
  · intro q hq
    exact hI.sound q (List.mem_cons_of_mem _ hq)

/-- Marking a popped pixel that does not match as visited keeps the invariant. -/
theorem fillInv_mark {img : ImageData} {M : Int × Int → Prop} {seed c : Int × Int}
    {d v : List Nat} {f : List (Int × Int)} (hI : FillInv img M seed ⟨d, v, c :: f⟩)
    (hc : InGrid img.width img.height c) (hm : ¬ M c) :
    FillInv img M seed ⟨d, writeAt v (pixelIdx img.width c) 1, f⟩ := by
  have hv : v.length = img.width * img.height := hI.vlen
  have hD : ∀ p, InGrid img.width img.height p →
      (Done img.width M (writeAt v (pixelIdx img.width c) 1) p ↔ Done img.width M v p) := by
    intro p hp
    rw [done_visited_write hv hc hp]
    constructor
    · rintro (⟨_, h⟩ | h)
      · exact absurd h hm
      · exact h
    · exact Or.inr
  refine ⟨hI.frame, ?_, ?_, ?_, ?_, ?_, ?_⟩
  · show (writeAt v _ 1).length = _
    rw [length_writeAt]; exact hv
  · intro p hp hd
    exact hI.alpha_done p hp ((hD p hp).mp hd)
  · intro p hp hd
    exact hI.alpha_keep p hp (fun h => hd ((hD p hp).mpr h))
  · intro p q hp hd ha hq hmq
    rcases hI.closed p q hp ((hD p hp).mp hd) ha hq hmq with h | h
    · exact Or.inl ((hD q hq).mpr h)
    · rcases List.mem_cons.mp h with h | h
      · subst h; exact absurd hmq hm
      · exact Or.inr h
  · intro hs hms
    rcases hI.seed_ok hs hms with h | h
    · exact Or.inl ((hD seed hs).mpr h)
    · rcases List.mem_cons.mp h with h | h
      · subst h; exact absurd hms hm
      · exact Or.inr h
  · intro q hq
    exact hI.sound q (List.mem_cons_of_mem _ hq)

/-- Clearing the alpha of a popped matching pixel, marking it visited and
pushing (at least) its neighbours inside the grid keeps the invariant. -/
theorem fillInv_match {img : ImageData} (hwf : img.WF) {M : Int × Int → Prop}
    {seed c : Int × Int} {d v : List Nat} {f f' : List (Int × Int)}
    (hI : FillInv img M seed ⟨d, v, c :: f⟩)
    (hc : InGrid img.width img.height c) (hm : M c)
    (hpush : ∀ q, Adj4 c q → InGrid img.width img.height q → q ∈ f')
    (hsub : ∀ q ∈ f, q ∈ f') (hnew : ∀ q ∈ f', q ∈ f ∨ Adj4 c q) :
    FillInv img M seed
      ⟨writeAt d (pixelIdx img.width c * 4 + 3) 0, writeAt v (pixelIdx img.width c) 1, f'⟩ := by
  have hv : v.length = img.width * img.height := hI.vlen
  have hfr : AlphaCleared img.data d := hI.frame
  have hD : ∀ p, InGrid img.width img.height p →
      (Done img.width M (writeAt v (pixelIdx img.width c) 1) p ↔ p = c ∨ Done img.width M v p) := by
    intro p hp
    rw [done_visited_write hv hc hp]
    constructor
    · rintro (⟨h, _⟩ | h)
      · exact Or.inl h
      · exact Or.inr h
    · rintro (h | h)
      · exact Or.inl ⟨h, hm⟩
      · exact Or.inr h
  have hrc : Reach img.width img.height M seed c := hI.sound c (List.mem_cons_self _ _) hc hm
  have hother : ∀ p, InGrid img.width img.height p → p ≠ c →
      alphaAt img.width (writeAt d (pixelIdx img.width c * 4 + 3) 0) p = alphaAt img.width d p := by
    intro p hp hpc
    unfold alphaAt
    apply readAt_writeAt_ne
    intro h
    have : pixelIdx img.width c = pixelIdx img.width p := by omega
    exact hpc (pixelIdx_inj hp hc this.symm)
  refine ⟨alphaCleared_trans hfr (alphaCleared_writeAt _ _), ?_, ?_, ?_, ?_, ?_, ?_⟩
  · show (writeAt v _ 1).length = _
    rw [length_writeAt]; exact hv
  · intro p hp hd
    by_cases hpc : p = c
    · subst hpc
      refine ⟨hrc, ?_⟩
      unfold alphaAt
      have hr := alphaAt_in_range hwf hp
      exact readAt_writeAt_self hr.1 (by rw [hfr.1]; exact hr.2)
    · rcases (hD p hp).mp hd with h | h
      · exact absurd h hpc
      · have := hI.alpha_done p hp h
        exact ⟨this.1, (hother p hp hpc).trans this.2⟩
  · intro p hp hd
    have hpc : p ≠ c := fun h => hd ((hD p hp).mpr (Or.inl h))
    have hnd : ¬ Done img.width M v p := fun h => hd ((hD p hp).mpr (Or.inr h))
    exact (hother p hp hpc).trans (hI.alpha_keep p hp hnd)
  · intro p q hp hd ha hq hmq
    rcases (hD p hp).mp hd with h | h
    · subst h
      exact Or.inr (hpush q ha hq)
    · rcases hI.closed p q hp h ha hq hmq with h' | h'
      · exact Or.inl ((hD q hq).mpr (Or.inr h'))
      · rcases List.mem_cons.mp h' with h'' | h''
        · exact Or.inl ((hD q hq).mpr (Or.inl h''))
        · exact Or.inr (hsub q h'')
  · intro hs hms
    rcases hI.seed_ok hs hms with h | h
    · exact Or.inl ((hD seed hs).mpr (Or.inr h))
    · rcases List.mem_cons.mp h with h' | h'
      · exact Or.inl ((hD seed hs).mpr (Or.inl h'))
      · exact Or.inr (hsub seed h')
  · intro q hq hg hmq
    rcases hnew q hq with h | h
    · exact hI.sound q (List.mem_cons_of_mem _ h) hg hmq
    · exact Reach.step hrc h hg hmq

/-- With an empty frontier, every reachable pixel is done. -/
theorem fillInv_complete {img : ImageData} {M : Int × Int → Prop} {seed : Int × Int}
    {d v : List Nat} (hI : FillInv img M seed ⟨d, v, []⟩) {p : Int × Int}
    (h : Reach img.width img.height M seed p) : Done img.width M v p := by
  induction h with
  | base hs hm =>
    rcases hI.seed_ok hs hm with h | h
    · exact h
    · simp at h
  | step hr ha hq hm ih =>
    rcases hI.closed _ _ (reach_inGrid hr) ih ha hq hm with h | h
    · exact h
    · simp at h

/-- With an empty frontier, the cleared pixels are exactly the reachable ones. -/
theorem fillInv_final {img : ImageData} {M : Int × Int → Prop} {seed : Int × Int}
    {s : FillState} (hI : FillInv img M seed s) (hf : s.frontier = []) (p : Int × Int)
    (hp : InGrid img.width img.height p) :
    (Reach img.width img.height M seed p → alphaAt img.width s.data p = some 0) ∧
    (¬ Reach img.width img.height M seed p →
      alphaAt img.width s.data p = alphaAt img.width img.data p) := by
  obtain ⟨d, v, f⟩ := s
  simp only at hf
  subst hf
  constructor
  · intro hr
    exact (hI.alpha_done p hp (fillInv_complete hI hr)).2
  · intro hr
    apply hI.alpha_keep p hp
    intro hd
    exact hr (hI.alpha_done p hp hd).1

/-! ## The colour test reads only RGB bytes -/

theorem colorMatch_frame {d0 d : List Nat} (h : AlphaCleared d0 d) (k : Int)
    (tR tG tB : Option Int) (tol : ℚ) :
    colorMatch (readAt d (k * 4)) (readAt d (k * 4 + 1)) (readAt d (k * 4 + 2)) tR tG tB tol =
      colorMatch (readAt d0 (k * 4)) (readAt d0 (k * 4 + 1)) (readAt d0 (k * 4 + 2))
        tR tG tB tol := by
  rw [alphaCleared_rgb h (i := k * 4) (by omega), alphaCleared_rgb h (i := k * 4 + 1) (by omega),
    alphaCleared_rgb h (i := k * 4 + 2) (by omega)]

theorem mem_ite_cons {α : Type} (c : Prop) [Decidable c] (a b : α) (l : List α) :
    a ∈ (if c then b :: l else l) ↔ (c ∧ a = b) ∨ a ∈ l := by
  split <;> simp [*]

theorem length_ite_cons {α : Type} (c : Prop) [Decidable c] (b : α) (l : List α) :
    (if c then b :: l else l).length ≤ l.length + 1 := by
  split <;> simp

/-! ## The measure that bounds the number of iterations -/

theorem unvisited_writeAt {v : List Nat} {i : Int} (h0 : 0 ≤ i) (h1 : i < v.length)
    (ht : truthy (readAt v i) = false) : unvisited (writeAt v i 1) + 1 = unvisited v := by
  have hlt : i.toNat < v.length := by omega
  have hz : v[i.toNat] = 0 := by
    unfold readAt at ht
    simp only [h0, if_true] at ht
    rw [List.getElem?_eq_getElem hlt] at ht
    simpa [truthy] using ht
  have hmem : 0 ∈ v := by
    rw [← hz]; exact List.getElem_mem hlt
  have hpos : 0 < v.count 0 := List.count_pos_iff.mpr hmem
  unfold unvisited writeAt
  simp only [h0, if_true]
  rw [List.count_set _ _ _ _ hlt]
  simp [hz]
  omega

theorem unvisited_replicate (n : Nat) : unvisited (List.replicate n 0) = n := by
  unfold unvisited
  simp

/-! ## One iteration of `removeBackground` -/

/-- Every coordinate that `removeBackground` pushes is inside the grid, and
the shared invariant is kept. -/
theorem removeBackgroundBody_inv {img : ImageData} (hwf : img.WF) (tR tG tB : Option Int)
    (tol : ℚ) (seed : Int × Int) (d v : List Nat) (x y : Int) (q : List (Int × Int))
    (hI : FillInv img (fun p => pixelMatch img tR tG tB tol p = true) seed ⟨d, v, (x, y) :: q⟩)
    (hg : ∀ c ∈ (x, y) :: q, InGrid img.width img.height c) :
    FillInv img (fun p => pixelMatch img tR tG tB tol p = true) seed
      (removeBackgroundBody img.width img.height tR tG tB tol x y d v q) ∧
    ∀ c ∈ (removeBackgroundBody img.width img.height tR tG tB tol x y d v q).frontier,
      InGrid img.width img.height c := by
  have hc : InGrid img.width img.height (x, y) := hg _ (List.mem_cons_self _ _)
  have hq : ∀ c ∈ q, InGrid img.width img.height c := fun c h => hg c (List.mem_cons_of_mem _ h)
  have hcm := colorMatch_frame hI.frame (y * img.width + x) tR tG tB tol
  unfold removeBackgroundBody
  simp only
  by_cases hvis : truthy (readAt v (y * img.width + x)) = true
  · rw [if_pos hvis]
    exact ⟨fillInv_drop hI (fun _ _ => hvis), hq⟩
  · rw [if_neg hvis]
    by_cases hm : colorMatch (readAt d ((y * img.width + x) * 4))
        (readAt d ((y * img.width + x) * 4 + 1)) (readAt d ((y * img.width + x) * 4 + 2))
        tR tG tB tol = true
    · rw [if_pos hm]
      have hM : pixelMatch img tR tG tB tol (x, y) = true := by
        unfold pixelMatch pixelIdx
        rw [← hcm]; exact hm
      obtain ⟨hx0, hx1, hy0, hy1⟩ := hc
      simp only at hx0 hx1 hy0 hy1
      constructor
      · apply fillInv_match hwf hI ⟨hx0, hx1, hy0, hy1⟩ hM
        · intro c ha hcg
          obtain ⟨c0, c1, c2, c3⟩ := hcg
          simp only [mem_ite_cons]
          rcases ha with h | h | h | h <;> subst h <;> simp only at c0 c1 c2 c3
          · right; right; right; left
            exact ⟨by omega, rfl⟩
          · right; right; left
            exact ⟨by omega, rfl⟩
          · right; left
            exact ⟨by omega, rfl⟩
          · left
            exact ⟨by omega, rfl⟩
        · intro c hcq
          simp only [mem_ite_cons]
          right; right; right; right
          exact hcq
        · intro c hcf
          simp only [mem_ite_cons] at hcf
          rcases hcf with ⟨_, h⟩ | ⟨_, h⟩ | ⟨_, h⟩ | ⟨_, h⟩ | h
          · exact Or.inr (Or.inr (Or.inr (Or.inr h)))
          · exact Or.inr (Or.inr (Or.inr (Or.inl h)))
          · exact Or.inr (Or.inr (Or.inl h))
          · exact Or.inr (Or.inl h)
          · exact Or.inl h
      · intro c hcf
        simp only [mem_ite_cons] at hcf
        rcases hcf with ⟨hh, h⟩ | ⟨hh, h⟩ | ⟨hh, h⟩ | ⟨hh, h⟩ | h
        · subst h; exact ⟨hx0, hx1, by show 0 ≤ y + 1; omega, by show y + 1 < _; omega⟩
        · subst h; exact ⟨hx0, hx1, by show 0 ≤ y - 1; omega, by show y - 1 < _; omega⟩
        · subst h; exact ⟨by show 0 ≤ x + 1; omega, by show x + 1 < _; omega, hy0, hy1⟩
        · subst h; exact ⟨by show 0 ≤ x - 1; omega, by show x - 1 < _; omega, hy0, hy1⟩
        · exact hq c h
    · rw [if_neg hm]
      have hM : ¬ pixelMatch img tR tG tB tol (x, y) = true := by
        unfold pixelMatch pixelIdx
        rw [← hcm]; exact hm
      exact ⟨fillInv_mark hI hc hM, hq⟩

/-- One iteration of `removeBackground` lowers `4 * unvisited + frontier length`. -/
theorem removeBackgroundBody_measure (width height : Nat) (tR tG tB : Option Int) (tol : ℚ)
    (d v : List Nat) (x y : Int) (q : List (Int × Int))
    (hv : v.length = width * height) (hc : InGrid width height (x, y)) :
    (removeBackgroundBody width height tR tG tB tol x y d v q).visited.length = width * height ∧
    4 * unvisited (removeBackgroundBody width height tR tG tB tol x y d v q).visited +
        (removeBackgroundBody width height tR tG tB tol x y d v q).frontier.length <
      4 * unvisited v + ((x, y) :: q).length := by
  have h0 := pixelIdx_nonneg hc
  have h1 := pixelIdx_lt hc
  unfold pixelIdx at h0 h1
  simp only at h0 h1
  unfold removeBackgroundBody
  simp only
  by_cases hvis : truthy (readAt v (y * width + x)) = true
  · rw [if_pos hvis]
    simp [hv]
  · rw [if_neg hvis]
    have hu := unvisited_writeAt h0 (by rw [hv]; exact h1) (by simpa using hvis)
    split
    · refine ⟨by simp only [length_writeAt]; exact hv, ?_⟩
      simp only [List.length_cons]
      have l1 := length_ite_cons (x > 0) (x - 1, y) q
      have l2 := length_ite_cons (x < (width : Int) - 1) (x + 1, y)
        (if x > 0 then (x - 1, y) :: q else q)
      have l3 := length_ite_cons (y > 0) (x, y - 1)
        (if x < (width : Int) - 1 then (x + 1, y) :: (if x > 0 then (x - 1, y) :: q else q)
          else (if x > 0 then (x - 1, y) :: q else q))
      have l4 := length_ite_cons (y < (height : Int) - 1) (x, y + 1)
        (if y > 0 then (x, y - 1) ::
          (if x < (width : Int) - 1 then (x + 1, y) :: (if x > 0 then (x - 1, y) :: q else q)
            else (if x > 0 then (x - 1, y) :: q else q))
          else (if x < (width : Int) - 1 then (x + 1, y) :: (if x > 0 then (x - 1, y) :: q else q)
            else (if x > 0 then (x - 1, y) :: q else q)))
      omega
    · refine ⟨by simp only [length_writeAt]; exact hv, ?_⟩
      simp only [List.length_cons]
      omega

/-! ## One iteration of `floodFill` -/

/-- One iteration of `floodFill` keeps the shared invariant. -/
theorem floodFillBody_inv {img : ImageData} (hwf : img.WF) (tR tG tB : Option Int)
    (tol : ℚ) (seed : Int × Int) (d v : List Nat) (x y : Int) (q : List (Int × Int))
    (hI : FillInv img (fun p => pixelMatch img tR tG tB tol p = true) seed ⟨d, v, (x, y) :: q⟩) :
    FillInv img (fun p => pixelMatch img tR tG tB tol p = true) seed
      (floodFillBody img.width img.height tR tG tB tol x y d v q) := by
  have hcm := colorMatch_frame hI.frame (y * img.width + x) tR tG tB tol
  unfold floodFillBody
  simp only
  by_cases hout : x < 0 ∨ x ≥ img.width ∨ y < 0 ∨ y ≥ img.height
  · rw [if_pos hout]
    apply fillInv_drop hI
    intro hc
    obtain ⟨c0, c1, c2, c3⟩ := hc
    simp only at c0 c1 c2 c3
    omega
  · rw [if_neg hout]
    have hc : InGrid img.width img.height (x, y) := by
      refine ⟨?_, ?_, ?_, ?_⟩ <;> simp only <;> omega
    by_cases hvis : truthy (readAt v (y * img.width + x)) = true
    · rw [if_pos hvis]
      exact fillInv_drop hI (fun _ _ => hvis)
    · rw [if_neg hvis]
      by_cases hm : colorMatch (readAt d ((y * img.width + x) * 4))
          (readAt d ((y * img.width + x) * 4 + 1)) (readAt d ((y * img.width + x) * 4 + 2))
          tR tG tB tol = true
      · rw [if_pos hm]
        have hM : pixelMatch img tR tG tB tol (x, y) = true := by
          unfold pixelMatch pixelIdx
          rw [← hcm]; exact hm
        apply fillInv_match hwf hI hc hM
        · intro c ha _
          rcases ha with h | h | h | h <;> subst h <;> simp
        · intro c hcq
          simp [hcq]
        · intro c hcf
          simp only [List.mem_cons] at hcf
          rcases hcf with h | h | h | h | h
          · exact Or.inr (Or.inr (Or.inr (Or.inl h)))
          · exact Or.inr (Or.inr (Or.inr (Or.inr h)))
          · exact Or.inr (Or.inl h)
          · exact Or.inr (Or.inr (Or.inl h))
          · exact Or.inl h
      · rw [if_neg hm]
        have hM : ¬ pixelMatch img tR tG tB tol (x, y) = true := by
          unfold pixelMatch pixelIdx
          rw [← hcm]; exact hm
        exact fillInv_drop hI (fun _ h => absurd h hM)

/-- One iteration of `floodFill` lowers `4 * unvisited + frontier length`,
on every input. -/
theorem floodFillBody_measure (width height : Nat) (tR tG tB : Option Int) (tol : ℚ)
    (d v : List Nat) (x y : Int) (q : List (Int × Int))
    (hv : v.length = width * height) :
    (floodFillBody width height tR tG tB tol x y d v q).visited.length = width * height ∧
    4 * unvisited (floodFillBody width height tR tG tB tol x y d v q).visited +
        (floodFillBody width height tR tG tB tol x y d v q).frontier.length <
      4 * unvisited v + ((x, y) :: q).length := by
  unfold floodFillBody
  simp only
  by_cases hout : x < 0 ∨ x ≥ width ∨ y < 0 ∨ y ≥ height
  · rw [if_pos hout]
    simp [hv]
  · rw [if_neg hout]
    have hc : InGrid width height (x, y) := by
      refine ⟨?_, ?_, ?_, ?_⟩ <;> simp only <;> omega
    have h0 := pixelIdx_nonneg hc
    have h1 := pixelIdx_lt hc
    unfold pixelIdx at h0 h1
    simp only at h0 h1
    by_cases hvis : truthy (readAt v (y * width + x)) = true
    · rw [if_pos hvis]
      simp [hv]
    · rw [if_neg hvis]
      have hu := unvisited_writeAt h0 (by rw [hv]; exact h1) (by simpa using hvis)
      split
      · refine ⟨by simp only [length_writeAt]; exact hv, ?_⟩
        simp only [List.length_cons]
        omega
      · refine ⟨hv, ?_⟩
        simp only [List.length_cons]
        omega

/-! ## Reachability and paths -/

theorem reach_of_path {width height : Nat} {M : Int × Int → Prop} {seed : Int × Int} :
    ∀ (path : List (Int × Int)) (a p : Int × Int), Reach width height M seed a →
      path.head? = some a → path.getLast? = some p → path.Chain' Adj4 →
      (∀ q ∈ path, InGrid width height q ∧ M q) → Reach width height M seed p := by
  intro path
  induction path with
  | nil => intro a p _ hh; simp at hh
  | cons b rest ih =>
    intro a p hr hh hl hch hall
    simp only [List.head?_cons, Option.some.injEq] at hh
    subst hh
    cases rest with
    | nil =>
      simp only [List.getLast?_singleton, Option.some.injEq] at hl
      subst hl
      exact hr
    | cons c rest' =>
      rw [List.getLast?_cons_cons] at hl
      rw [List.chain'_cons] at hch
      have hc := hall c (by simp)
      exact ih c p (Reach.step hr hch.1 hc.1 hc.2) rfl hl hch.2
        (fun q hq => hall q (List.mem_cons_of_mem _ hq))

theorem path_of_reach {width height : Nat} {M : Int × Int → Prop} {seed p : Int × Int}
    (h : Reach width height M seed p) :
    ∃ path : List (Int × Int), path.head? = some seed ∧ path.getLast? = some p ∧
      path.Chain' Adj4 ∧ ∀ q ∈ path, InGrid width height q ∧ M q := by
  induction h with
  | base hs hm =>
    refine ⟨[seed], rfl, rfl, List.chain'_singleton _, ?_⟩
    intro q hq
    rw [List.mem_singleton.mp hq]
    exact ⟨hs, hm⟩
  | @step a b _ ha hb hmb ih =>
    obtain ⟨path, hh, hl, hch, hall⟩ := ih
    refine ⟨path ++ [b], ?_, ?_, ?_, ?_⟩
    · cases path with
      | nil => simp at hh
      | cons c rest => simpa using hh
    · simp
    · rw [List.chain'_append]
      refine ⟨hch, List.chain'_singleton _, ?_⟩
      intro x hx y hy
      rw [hl] at hx
      simp only [Option.mem_def, Option.some.injEq] at hx
      simp only [List.head?_cons, Option.mem_def, Option.some.injEq] at hy
      subst hx; subst hy
      exact ha
    · intro q hq
      rcases List.mem_append.mp hq with h | h
      · exact hall q h
      · rw [List.mem_singleton.mp h]
        exact ⟨hb, hmb⟩

/-- The inductive region and the path formulation agree. -/
theorem region_iff_connected (img : ImageData) (seed : Int × Int) (tol : ℚ) (p : Int × Int) :
    Region img seed tol p ↔ Connected img seed tol p := by
  constructor
  · intro h
    exact path_of_reach h
  · rintro ⟨path, hh, hl, hch, hall⟩
    have hs : seed ∈ path := by
      cases path with
      | nil => simp at hh
      | cons c rest =>
        simp only [List.head?_cons, Option.some.injEq] at hh
        subst hh
        exact List.mem_cons_self _ _
    have hseed := hall seed hs
    exact reach_of_path path seed p (Reach.base hseed.1 hseed.2) hh hl hch hall

/-! ## The two region growers as whole functions -/

/-- On a well-formed buffer with the seed inside the grid, `removeBackground`
returns under every budget of at least `4 * width * height + 1` iterations. -/
theorem removeBackground_returns {img : ImageData} (hwf : img.WF) {sx sy : Int}
    (hseed : InGrid img.width img.height (sx, sy)) (tol : ℚ) (fuel : Nat)
    (hfuel : 4 * (img.width * img.height) + 1 ≤ fuel) :
    ∃ out, removeBackground fuel img sx sy tol = some out := by
  unfold removeBackground
  simp only
  obtain ⟨s', hs'⟩ := removeBackgroundLoop_terminates img.width img.height
    ((readAt img.data ((sy * img.width + sx) * 4)).map Int.ofNat)
    ((readAt img.data ((sy * img.width + sx) * 4 + 1)).map Int.ofNat)
    ((readAt img.data ((sy * img.width + sx) * 4 + 2)).map Int.ofNat) tol
    (fun s => FillInv img (fun p => pixelMatch img
        ((readAt img.data ((sy * img.width + sx) * 4)).map Int.ofNat)
        ((readAt img.data ((sy * img.width + sx) * 4 + 1)).map Int.ofNat)
        ((readAt img.data ((sy * img.width + sx) * 4 + 2)).map Int.ofNat) tol p = true)
        (sx, sy) s ∧ ∀ c ∈ s.frontier, InGrid img.width img.height c)
    (fun s => 4 * unvisited s.visited + s.frontier.length)
    (by
      intro d v x y q hP
      refine ⟨removeBackgroundBody_inv hwf _ _ _ tol (sx, sy) d v x y q hP.1 hP.2, ?_⟩
      exact (removeBackgroundBody_measure img.width img.height _ _ _ tol d v x y q
        hP.1.vlen (hP.2 _ (List.mem_cons_self _ _))).2)
    fuel (removeBackgroundInit img sx sy)
    ⟨fillInv_init img _ (sx, sy), by
      intro c hc
      rw [List.mem_singleton.mp hc]
      exact hseed⟩
    (by
      show 4 * unvisited (List.replicate (img.width * img.height) 0) + 1 ≤ _
      rw [unvisited_replicate]
      exact hfuel)
  exact ⟨_, by rw [hs']; rfl⟩

/-- Whatever budget lets `removeBackground` return, the result is the same. -/
theorem removeBackground_unique {img : ImageData} {sx sy : Int} {tol : ℚ} {fuel fuel' : Nat}
    {a b : ImageData} (ha : removeBackground fuel img sx sy tol = some a)
    (hb : removeBackground fuel' img sx sy tol = some b) : a = b := by
  unfold removeBackground at ha hb
  simp only [Option.map_eq_some'] at ha hb
  obtain ⟨s1, h1, rfl⟩ := ha
  obtain ⟨s2, h2, rfl⟩ := hb
  rw [removeBackgroundLoop_fuel _ _ _ _ _ _ _ _ _ _ _ h1 h2]

/-- On a well-formed buffer with the seed inside the grid, a returned result of
`removeBackground` is the buffer with exactly the seed's region cleared. -/
theorem removeBackground_cleared {img : ImageData} (hwf : img.WF) {sx sy : Int}
    (hseed : InGrid img.width img.height (sx, sy)) {tol : ℚ} {fuel : Nat} {out : ImageData}
    (h : removeBackground fuel img sx sy tol = some out) :
    IsRegionCleared img (sx, sy) tol out := by
  unfold removeBackground at h
  simp only [Option.map_eq_some'] at h
  obtain ⟨s', hs', rfl⟩ := h
  have hinv := removeBackgroundLoop_inv img.width img.height _ _ _ tol
    (fun s => FillInv img (fun p => pixelMatch img
        ((readAt img.data ((sy * img.width + sx) * 4)).map Int.ofNat)
        ((readAt img.data ((sy * img.width + sx) * 4 + 1)).map Int.ofNat)
        ((readAt img.data ((sy * img.width + sx) * 4 + 2)).map Int.ofNat) tol p = true)
        (sx, sy) s ∧ ∀ c ∈ s.frontier, InGrid img.width img.height c)
    (fun d v x y q hP => removeBackgroundBody_inv hwf _ _ _ tol (sx, sy) d v x y q hP.1 hP.2)
    fuel _ s' hs'
    ⟨fillInv_init img _ (sx, sy), by
      intro c hc
      rw [List.mem_singleton.mp hc]
      exact hseed⟩
  obtain ⟨⟨hI, _⟩, hf⟩ := hinv
  exact ⟨rfl, rfl, hI.frame, fun p hp => fillInv_final hI hf p hp⟩

/-- On every input, `floodFill` returns under every budget of at least
`4 * width * height + 1` iterations. -/
theorem floodFill_returns (img : ImageData) (sx sy : Int) (tol : ℚ) (fuel : Nat)
    (hfuel : 4 * (img.width * img.height) + 1 ≤ fuel) :
    ∃ out, floodFill fuel img sx sy tol = some out := by
  unfold floodFill
  simp only
  split
  · exact ⟨_, rfl⟩
  · obtain ⟨s', hs'⟩ := floodFillLoop_terminates img.width img.height
      ((readAt img.data ((sy * img.width + sx) * 4)).map Int.ofNat)
      ((readAt img.data ((sy * img.width + sx) * 4 + 1)).map Int.ofNat)
      ((readAt img.data ((sy * img.width + sx) * 4 + 2)).map Int.ofNat) tol
      (fun s => s.visited.length = img.width * img.height)
      (fun s => 4 * unvisited s.visited + s.frontier.length)
      (fun d v x y q hP => floodFillBody_measure img.width img.height _ _ _ tol d v x y q hP)
      fuel (removeBackgroundInit img sx sy)
      (by simp [removeBackgroundInit])
      (by
        show 4 * unvisited (List.replicate (img.width * img.height) 0) + 1 ≤ _
        rw [unvisited_replicate]
        exact hfuel)
    exact ⟨_, by rw [hs']; rfl⟩

/-- Whatever budget lets `floodFill` return, the result is the same. -/
theorem floodFill_unique {img : ImageData} {sx sy : Int} {tol : ℚ} {fuel fuel' : Nat}
    {a b : ImageData} (ha : floodFill fuel img sx sy tol = some a)
    (hb : floodFill fuel' img sx sy tol = some b) : a = b := by
  unfold floodFill at ha hb
  simp only at ha hb
  split at ha
  · rw [if_pos (by assumption)] at hb
    exact (Option.some.inj ha).symm.trans (Option.some.inj hb)
  · rw [if_neg (by assumption)] at hb
    simp only [Option.map_eq_some'] at ha hb
    obtain ⟨s1, h1, rfl⟩ := ha
    obtain ⟨s2, h2, rfl⟩ := hb
    rw [floodFillLoop_fuel _ _ _ _ _ _ _ _ _ _ _ h1 h2]

/-- When the seed's alpha byte is `0`, `floodFill` returns its argument at once. -/
theorem floodFill_transparent (fuel : Nat) (img : ImageData) (sx sy : Int) (tol : ℚ)
    (h : alphaAt img.width img.data (sx, sy) = some 0) :
    floodFill fuel img sx sy tol = some img := by
  have h' : readAt img.data ((sy * img.width + sx) * 4 + 3) = some 0 := h
  unfold floodFill
  simp only
  rw [if_pos h']

/-- On a well-formed buffer with the seed inside the grid and not transparent, a
returned result of `floodFill` is the buffer with exactly the seed's region cleared. -/
theorem floodFill_cleared {img : ImageData} (hwf : img.WF) {sx sy : Int}
    (hα : alphaAt img.width img.data (sx, sy) ≠ some 0) {tol : ℚ} {fuel : Nat}
    {out : ImageData} (h : floodFill fuel img sx sy tol = some out) :
    IsRegionCleared img (sx, sy) tol out := by
  have hα' : ¬ readAt img.data ((sy * img.width + sx) * 4 + 3) = some 0 := hα
  unfold floodFill at h
  simp only at h
  rw [if_neg hα'] at h
  simp only [Option.map_eq_some'] at h
  obtain ⟨s', hs', rfl⟩ := h
  have hinv := floodFillLoop_inv img.width img.height _ _ _ tol
    (fun s => FillInv img (fun p => pixelMatch img
        ((readAt img.data ((sy * img.width + sx) * 4)).map Int.ofNat)
        ((readAt img.data ((sy * img.width + sx) * 4 + 1)).map Int.ofNat)
        ((readAt img.data ((sy * img.width + sx) * 4 + 2)).map Int.ofNat) tol p = true)
        (sx, sy) s)
    (fun d v x y q hP => floodFillBody_inv hwf _ _ _ tol (sx, sy) d v x y q hP)
    fuel _ s' hs' (fillInv_init img _ (sx, sy))
  obtain ⟨hI, hf⟩ := hinv
  exact ⟨rfl, rfl, hI.frame, fun p hp => fillInv_final hI hf p hp⟩

/-! ## Consequences of the region description -/

theorem imageData_ext {a b : ImageData} (hw : a.width = b.width) (hh : a.height = b.height)
    (hd : a.data = b.data) : a = b := by
  cases a; cases b
  simp only at hw hh hd
  subst hw; subst hh; subst hd
  rfl

/-- Two byte lists that come from a well-formed buffer by clearing alpha bytes
and that agree on the alpha of every pixel of the grid are equal. -/
theorem data_ext_of_alpha {img : ImageData} (hwf : img.WF) {a b : List Nat}
    (ha : AlphaCleared img.data a) (hb : AlphaCleared img.data b)
    (hab : ∀ p, InGrid img.width img.height p → alphaAt img.width a p = alphaAt img.width b p) :
    a = b := by
  apply List.ext_getElem?
  intro n
  rw [← readAt_natCast, ← readAt_natCast]
  by_cases hn : (n : Int) % 4 = 3
  · by_cases hlt : n < img.data.length
    · have hk : n / 4 < img.width * img.height := by
        have := hwf.2.2.1
        omega
      obtain ⟨p, hp, hpk⟩ := exists_pixel_of_lt hk
      have := hab p hp
      unfold alphaAt at this
      have hidx : pixelIdx img.width p * 4 + 3 = (n : Int) := by
        rw [hpk]
        omega
      rw [hidx] at this
      exact this
    · rw [readAt_eq_none_of_le (by rw [ha.1]; omega), readAt_eq_none_of_le (by rw [hb.1]; omega)]
  · rw [alphaCleared_rgb ha hn, alphaCleared_rgb hb hn]

/-- The description `IsRegionCleared` determines the buffer. -/
theorem isRegionCleared_unique {img : ImageData} (hwf : img.WF) {seed : Int × Int} {tol : ℚ}
    {a b : ImageData} (ha : IsRegionCleared img seed tol a)
    (hb : IsRegionCleared img seed tol b) : a = b := by
  obtain ⟨aw, ah, afr, aal⟩ := ha
  obtain ⟨bw, bh, bfr, bal⟩ := hb
  apply imageData_ext (aw.trans bw.symm) (ah.trans bh.symm)
  apply data_ext_of_alpha hwf afr bfr
  intro p hp
  by_cases hr : Region img seed tol p
  · rw [(aal p hp).1 hr, (bal p hp).1 hr]
  · rw [(aal p hp).2 hr, (bal p hp).2 hr]

/-- Clearing alpha bytes of a well-formed buffer gives a well-formed buffer. -/
theorem wf_of_alphaCleared {img out : ImageData} (hwf : img.WF) (hw : out.width = img.width)
    (hh : out.height = img.height) (hfr : AlphaCleared img.data out.data) : out.WF := by
  obtain ⟨h1, h2, h3, h4⟩ := hwf
  refine ⟨hw ▸ h1, hh ▸ h2, ?_, ?_⟩
  · rw [hfr.1, hw, hh]; exact h3
  · intro v hv
    obtain ⟨n, hn, rfl⟩ := List.getElem_of_mem hv
    have hread : readAt out.data (n : Int) = some out.data[n] := by
      rw [readAt_natCast]; exact List.getElem?_eq_getElem hn
    rcases hfr.2 (n : Int) with h | ⟨_, h⟩
    · rw [hread, readAt_natCast] at h
      have hn' : n < img.data.length := by rw [← hfr.1]; exact hn
      rw [List.getElem?_eq_getElem hn'] at h
      have := Option.some.inj h
      rw [this]
      exact h4 _ (List.getElem_mem hn')
    · rw [hread] at h
      have := Option.some.inj h
      rw [this]
      decide

/-! ## Rounding to double precision -/

theorem isqrtFuel_spec : ∀ fuel n : Nat, n ≤ fuel →
    isqrtFuel fuel n * isqrtFuel fuel n ≤ n ∧
      n < (isqrtFuel fuel n + 1) * (isqrtFuel fuel n + 1) := by
  intro fuel
  induction fuel with
  | zero =>
    intro n hn
    have : n = 0 := by omega
    subst this
    simp [isqrtFuel]
  | succ f ih =>
    intro n hn
    by_cases h0 : n = 0
    · subst h0
      simp [isqrtFuel]
    · obtain ⟨h1, h2⟩ := ih (n / 4) (by omega)
      simp only [isqrtFuel, if_neg h0]
      generalize isqrtFuel f (n / 4) = s at h1 h2 ⊢
      have e1 : (s + 1) * (s + 1) = s * s + 2 * s + 1 := by ring
      have e2 : (2 * s + 1) * (2 * s + 1) = 4 * (s * s) + 4 * s + 1 := by ring
      have e3 : (2 * s + 1 + 1) * (2 * s + 1 + 1) = 4 * (s * s) + 8 * s + 4 := by ring
      have e4 : 2 * s * (2 * s) = 4 * (s * s) := by ring
      split
      · rename_i h
        refine ⟨h, ?_⟩
        rw [e3]
        rw [e1] at h2
        omega
      · rename_i h
        refine ⟨?_, by omega⟩
        rw [e4]
        omega

theorem isqrt_sq_le (n : Nat) : isqrt n * isqrt n ≤ n := (isqrtFuel_spec n n (le_refl n)).1

theorem lt_isqrt_succ_sq (n : Nat) : n < (isqrt n + 1) * (isqrt n + 1) :=
  (isqrtFuel_spec n n (le_refl n)).2

theorem log2Fuel_spec : ∀ fuel n : Nat, n ≤ fuel → 0 < n →
    2 ^ log2Fuel fuel n ≤ n ∧ n < 2 ^ (log2Fuel fuel n + 1) := by
  intro fuel
  induction fuel with
  | zero => intro n hn h0; omega
  | succ f ih =>
    intro n hn h0
    simp only [log2Fuel]
    split
    · rename_i h
      constructor
      · simpa using h0
      · simpa using h
    · rename_i h
      obtain ⟨h1, h2⟩ := ih (n / 2) (by omega) (by omega)
      rw [pow_succ] at h2 ⊢
      rw [pow_succ]
      constructor <;> omega

theorem natLog2_le {n : Nat} (h : 0 < n) : 2 ^ natLog2 n ≤ n :=
  (log2Fuel_spec n n (le_refl n) h).1

theorem lt_natLog2_succ {n : Nat} (h : 0 < n) : n < 2 ^ (natLog2 n + 1) :=
  (log2Fuel_spec n n (le_refl n) h).2

theorem abs_eq_natAbs_div (x : ℚ) : |x| = (x.num.natAbs : ℚ) / (x.den : ℚ) := by
  conv_lhs => rw [← Rat.num_div_den x]
  rw [abs_div, Nat.abs_cast, Nat.cast_natAbs, Int.cast_abs]

theorem exponent_spec {x : ℚ} (hx : x ≠ 0) :
    (2 : ℚ) ^ exponent x ≤ |x| ∧ |x| < (2 : ℚ) ^ (exponent x + 1) := by
  have hnum : 0 < x.num.natAbs := Int.natAbs_pos.mpr (Rat.num_ne_zero.mpr hx)
  have hden : 0 < x.den := x.den_pos
  have ha1 := natLog2_le hnum
  have ha2 := lt_natLog2_succ hnum
  have hb1 := natLog2_le hden
  have hb2 := lt_natLog2_succ hden
  have habs := abs_eq_natAbs_div x
  unfold exponent
  simp only []
  generalize natLog2 x.num.natAbs = a at ha1 ha2 ⊢
  generalize natLog2 x.den = b at hb1 hb2 ⊢
  generalize x.num.natAbs = p at ha1 ha2 habs hnum
  generalize x.den = q at hb1 hb2 habs hden
  have hq : (0 : ℚ) < q := by exact_mod_cast hden
  have ha1' : (2 : ℚ) ^ a ≤ p := by exact_mod_cast ha1
  have ha2' : (p : ℚ) < 2 ^ (a + 1) := by exact_mod_cast ha2
  have hb1' : (2 : ℚ) ^ b ≤ q := by exact_mod_cast hb1
  have hb2' : (q : ℚ) < 2 ^ (b + 1) := by exact_mod_cast hb2
  have hup : |x| < (2 : ℚ) ^ ((a : Int) - b + 1) := by
    rw [habs, div_lt_iff₀ hq]
    calc (p : ℚ) < 2 ^ (a + 1) := ha2'
      _ = (2 : ℚ) ^ ((a : Int) - b + 1) * 2 ^ b := by
          rw [← zpow_natCast, ← zpow_natCast, ← zpow_add₀ (by norm_num)]
          congr 1
          push_cast
          ring
      _ ≤ (2 : ℚ) ^ ((a : Int) - b + 1) * q :=
          mul_le_mul_of_nonneg_left hb1' (by positivity)
  have hlo : (2 : ℚ) ^ ((a : Int) - b - 1) ≤ |x| := by
    rw [habs, le_div_iff₀ hq]
    calc (2 : ℚ) ^ ((a : Int) - b - 1) * q
        ≤ (2 : ℚ) ^ ((a : Int) - b - 1) * 2 ^ (b + 1) :=
          mul_le_mul_of_nonneg_left hb2'.le (by positivity)
      _ = 2 ^ a := by
          rw [← zpow_natCast, ← zpow_natCast, ← zpow_add₀ (by norm_num)]
          congr 1
          push_cast
          ring
      _ ≤ p := ha1'
  split
  · rename_i h
    exact ⟨h, hup⟩
  · rename_i h
    refine ⟨hlo, ?_⟩
    rw [sub_add_cancel]
    exact lt_of_not_le h

theorem exponent_mono {x y : ℚ} (hx : 0 < x) (hxy : x ≤ y) : exponent x ≤ exponent y := by
  have h1 := (exponent_spec hx.ne').1
  have h2 := (exponent_spec (hx.trans_le hxy).ne').2
  rw [abs_of_pos hx] at h1
  rw [abs_of_pos (hx.trans_le hxy)] at h2
  have h3 : (2 : ℚ) ^ exponent x < (2 : ℚ) ^ (exponent y + 1) := lt_of_le_of_lt (h1.trans hxy) h2
  have := (zpow_lt_zpow_iff_right₀ (by norm_num : (1 : ℚ) < 2)).mp h3
  omega

theorem roundHalfEven_cases (x : ℚ) :
    (roundHalfEven x = ⌊x⌋ ∧ x - ⌊x⌋ ≤ 1 / 2) ∨ (roundHalfEven x = ⌊x⌋ + 1 ∧ 1 / 2 ≤ x - ⌊x⌋) := by
  unfold roundHalfEven
  split
  · rename_i h
    exact Or.inl ⟨rfl, h.le⟩
  · rename_i h
    split
    · rename_i h'
      exact Or.inr ⟨rfl, h'.le⟩
    · rename_i h'
      have : x - ⌊x⌋ = 1 / 2 := le_antisymm (not_lt.mp h') (not_lt.mp h)
      split
      · exact Or.inl ⟨rfl, this.le⟩
      · exact Or.inr ⟨rfl, this.ge⟩

theorem roundHalfEven_abs_sub_le (x : ℚ) : |(roundHalfEven x : ℚ) - x| ≤ 1 / 2 := by
  have h1 := Int.floor_le x
  have h2 := Int.lt_floor_add_one x
  rw [abs_le]
  rcases roundHalfEven_cases x with ⟨h, h'⟩ | ⟨h, h'⟩
  · rw [h]
    constructor <;> linarith
  · rw [h]
    push_cast
    constructor <;> linarith

theorem roundHalfEven_mono {x y : ℚ} (hxy : x ≤ y) : roundHalfEven x ≤ roundHalfEven y := by
  have hf : ⌊x⌋ ≤ ⌊y⌋ := Int.floor_mono hxy
  rcases lt_or_eq_of_le hf with hlt | heq
  · have h1 : roundHalfEven x ≤ ⌊x⌋ + 1 := by
      rcases roundHalfEven_cases x with ⟨h, _⟩ | ⟨h, _⟩ <;> omega
    have h2 : ⌊y⌋ ≤ roundHalfEven y := by
      rcases roundHalfEven_cases y with ⟨h, _⟩ | ⟨h, _⟩ <;> omega
    omega
  · unfold roundHalfEven
    rw [← heq]
    have hfr : x - ⌊x⌋ ≤ y - ⌊x⌋ := by linarith
    split
    · split
      · exact le_refl _
      · split <;> [omega; (split <;> omega)]
    · rename_i h
      split
      · rename_i h'
        have : ¬ (y - ⌊x⌋ < 1 / 2) := by
          intro hc
          linarith
        rw [if_neg this]
        split
        · exact le_refl _
        · rename_i h''
          exfalso
          linarith
      · rename_i h'
        have hx : x - ⌊x⌋ = 1 / 2 := le_antisymm (not_lt.mp h') (not_lt.mp h)
        have : ¬ (y - ⌊x⌋ < 1 / 2) := by
          intro hc
          linarith
        rw [if_neg this]
        split
        · split <;> omega
        · split
          · exact le_refl _
          · omega

theorem roundHalfEven_intCast (n : Int) : roundHalfEven (n : ℚ) = n := by
  unfold roundHalfEven
  simp

theorem two_zpow_mul (a b : Int) : (2 : ℚ) ^ a * (2 : ℚ) ^ b = (2 : ℚ) ^ (a + b) :=
  (zpow_add₀ (by norm_num : (2 : ℚ) ≠ 0) a b).symm

theorem scaled_bounds {x : ℚ} (hx : 0 < x) :
    (((2 : Int) ^ 52 : Int) : ℚ) ≤ x * (2 : ℚ) ^ (52 - exponent x) ∧
      x * (2 : ℚ) ^ (52 - exponent x) ≤ (((2 : Int) ^ 53 : Int) : ℚ) := by
  obtain ⟨h1, h2⟩ := exponent_spec hx.ne'
  rw [abs_of_pos hx] at h1 h2
  have hp : (0 : ℚ) < (2 : ℚ) ^ (52 - exponent x) := by positivity
  constructor
  · have : (2 : ℚ) ^ exponent x * (2 : ℚ) ^ (52 - exponent x) = (((2 : Int) ^ 52 : Int) : ℚ) := by
      rw [two_zpow_mul]
      have : exponent x + (52 - exponent x) = (52 : Nat) := by push_cast; ring
      rw [this, zpow_natCast]
      push_cast
      rfl
    rw [← this]
    exact mul_le_mul_of_nonneg_right h1 hp.le
  · have : (2 : ℚ) ^ (exponent x + 1) * (2 : ℚ) ^ (52 - exponent x) =
        (((2 : Int) ^ 53 : Int) : ℚ) := by
      rw [two_zpow_mul]
      have : exponent x + 1 + (52 - exponent x) = (53 : Nat) := by push_cast; ring
      rw [this, zpow_natCast]
      push_cast
      rfl
    rw [← this]
    exact mul_le_mul_of_nonneg_right h2.le hp.le

theorem roundDouble_of_ne {x : ℚ} (hx : x ≠ 0) :
    roundDouble x =
      (roundHalfEven (x * (2 : ℚ) ^ (52 - exponent x)) : ℚ) * (2 : ℚ) ^ (exponent x - 52) := by
  unfold roundDouble
  rw [if_neg hx]

theorem roundDouble_zero : roundDouble 0 = 0 := by
  unfold roundDouble
  rw [if_pos rfl]

theorem roundDouble_pos_bounds {x : ℚ} (hx : 0 < x) :
    (2 : ℚ) ^ exponent x ≤ roundDouble x ∧ roundDouble x ≤ (2 : ℚ) ^ (exponent x + 1) := by
  obtain ⟨h1, h2⟩ := scaled_bounds hx
  have hp : (0 : ℚ) < (2 : ℚ) ^ (exponent x - 52) := by positivity
  rw [roundDouble_of_ne hx.ne']
  have k1 := roundHalfEven_mono h1
  have k2 := roundHalfEven_mono h2
  rw [roundHalfEven_intCast] at k1 k2
  have k1' : (((2 : Int) ^ 52 : Int) : ℚ) ≤
      (roundHalfEven (x * (2 : ℚ) ^ (52 - exponent x)) : ℚ) := by exact_mod_cast k1
  have k2' : (roundHalfEven (x * (2 : ℚ) ^ (52 - exponent x)) : ℚ) ≤
      (((2 : Int) ^ 53 : Int) : ℚ) := by exact_mod_cast k2
  constructor
  · have : (2 : ℚ) ^ exponent x = (((2 : Int) ^ 52 : Int) : ℚ) * (2 : ℚ) ^ (exponent x - 52) := by
      have e : (((2 : Int) ^ 52 : Int) : ℚ) = (2 : ℚ) ^ ((52 : Nat) : Int) := by
        rw [zpow_natCast]
        push_cast
        rfl
      rw [e, two_zpow_mul]
      congr 1
      push_cast
      ring
    rw [this]
    exact mul_le_mul_of_nonneg_right k1' hp.le
  · have : (2 : ℚ) ^ (exponent x + 1) =
        (((2 : Int) ^ 53 : Int) : ℚ) * (2 : ℚ) ^ (exponent x - 52) := by
      have e : (((2 : Int) ^ 53 : Int) : ℚ) = (2 : ℚ) ^ ((53 : Nat) : Int) := by
        rw [zpow_natCast]
        push_cast
        rfl
      rw [e, two_zpow_mul]
      congr 1
      push_cast
      ring
    rw [this]
    exact mul_le_mul_of_nonneg_right k2' hp.le

theorem roundDouble_nonneg {x : ℚ} (hx : 0 ≤ x) : 0 ≤ roundDouble x := by
  rcases eq_or_lt_of_le hx with h | h
  · rw [← h, roundDouble_zero]
  · exact le_trans (by positivity) (roundDouble_pos_bounds h).1

/-- Rounding to the nearest double is monotone on the non-negative rationals. -/
theorem roundDouble_mono {x y : ℚ} (hx : 0 ≤ x) (hxy : x ≤ y) :
    roundDouble x ≤ roundDouble y := by
  rcases eq_or_lt_of_le hx with h | h
  · rw [← h, roundDouble_zero]
    exact roundDouble_nonneg (hx.trans hxy)
  · have hy : 0 < y := h.trans_le hxy
    rcases lt_or_eq_of_le (exponent_mono h hxy) with hlt | heq
    · refine le_trans (roundDouble_pos_bounds h).2 (le_trans ?_ (roundDouble_pos_bounds hy).1)
      exact (zpow_le_zpow_iff_right₀ (by norm_num : (1 : ℚ) < 2)).mpr (by omega)
    · rw [roundDouble_of_ne h.ne', roundDouble_of_ne hy.ne', heq]
      have hp : (0 : ℚ) < (2 : ℚ) ^ (exponent y - 52) := by positivity
      have hq : (0 : ℚ) < (2 : ℚ) ^ (52 - exponent y) := by positivity
      apply mul_le_mul_of_nonneg_right _ hp.le
      have := roundHalfEven_mono (mul_le_mul_of_nonneg_right hxy hq.le)
      exact_mod_cast this

/-- Rounding to the nearest double has relative error at most `2^-53`. -/
theorem roundDouble_abs_sub_le (x : ℚ) : |roundDouble x - x| ≤ |x| / 2 ^ 53 := by
  by_cases hx : x = 0
  · subst hx
    simp [roundDouble_zero]
  · rw [roundDouble_of_ne hx]
    have hp : (0 : ℚ) < (2 : ℚ) ^ (exponent x - 52) := by positivity
    have h1 := (exponent_spec hx).1
    have hr := roundHalfEven_abs_sub_le (x * (2 : ℚ) ^ (52 - exponent x))
    have hxe : x = x * (2 : ℚ) ^ (52 - exponent x) * (2 : ℚ) ^ (exponent x - 52) := by
      rw [mul_assoc, two_zpow_mul]
      have : 52 - exponent x + (exponent x - 52) = 0 := by ring
      rw [this, zpow_zero, mul_one]
    have hd : (roundHalfEven (x * (2 : ℚ) ^ (52 - exponent x)) : ℚ) * (2 : ℚ) ^ (exponent x - 52) - x
        = ((roundHalfEven (x * (2 : ℚ) ^ (52 - exponent x)) : ℚ) -
            x * (2 : ℚ) ^ (52 - exponent x)) * (2 : ℚ) ^ (exponent x - 52) := by
      rw [sub_mul, ← hxe]
    rw [hd, abs_mul, abs_of_pos hp]
    have h2 : (1 : ℚ) / 2 * (2 : ℚ) ^ (exponent x - 52) = (2 : ℚ) ^ exponent x / 2 ^ 53 := by
      have : exponent x - 52 = exponent x + (-52) := by ring
      rw [this, ← two_zpow_mul]
      norm_num
      ring
    calc _ ≤ (1 : ℚ) / 2 * (2 : ℚ) ^ (exponent x - 52) := mul_le_mul_of_nonneg_right hr hp.le
      _ = (2 : ℚ) ^ exponent x / 2 ^ 53 := h2
      _ ≤ |x| / 2 ^ 53 := div_le_div_of_nonneg_right h1 (by positivity)

theorem sqrtDouble_nonneg (d : Nat) : 0 ≤ sqrtDouble d := by
  unfold sqrtDouble
  positivity

theorem sqrtDouble_zero : sqrtDouble 0 = 0 := by decide!

/-- The scaled radicand of `sqrtDouble` is at least `2^104` for `d > 0`. -/
theorem sqrtDouble_scaled_ge {d : Nat} (hd : 0 < d) :
    2 ^ 104 ≤ d * 4 ^ (52 - natLog2 d / 2) := by
  have h1 := natLog2_le hd
  have h4 : (4 : Nat) ^ (52 - natLog2 d / 2) = 2 ^ (2 * (52 - natLog2 d / 2)) := by
    rw [pow_mul]
    norm_num
  rw [h4]
  calc 2 ^ 104 ≤ 2 ^ (natLog2 d + 2 * (52 - natLog2 d / 2)) :=
        Nat.pow_le_pow_right (by norm_num) (by omega)
    _ = 2 ^ natLog2 d * 2 ^ (2 * (52 - natLog2 d / 2)) := pow_add _ _ _
    _ ≤ d * 2 ^ (2 * (52 - natLog2 d / 2)) := Nat.mul_le_mul_right _ h1

/-- The significand chosen by `sqrtDouble`: with `n` the scaled radicand, it is
the integer `M ≥ 2^52` nearest to `√n`, that is `(2M - 1)² < 4n < (2M + 1)²`. -/
theorem sqrtDouble_significand {d : Nat} (hd : 0 < d) :
    ∃ M : Nat, sqrtDouble d = (M : ℚ) / (2 : ℚ) ^ (52 - natLog2 d / 2) ∧
      2 ^ 52 ≤ M ∧
      (2 * M - 1) * (2 * M - 1) < 4 * (d * 4 ^ (52 - natLog2 d / 2)) ∧
      4 * (d * 4 ^ (52 - natLog2 d / 2)) < (2 * M + 1) * (2 * M + 1) ∧
      M * M * 2 ^ 52 ≤ d * 4 ^ (52 - natLog2 d / 2) * (2 ^ 52 + 1) := by
  have hn := sqrtDouble_scaled_ge hd
  unfold sqrtDouble
  simp only []
  generalize d * 4 ^ (52 - natLog2 d / 2) = n at hn ⊢
  have h1 := isqrt_sq_le n
  have h2 := lt_isqrt_succ_sq n
  generalize isqrt n = m at h1 h2 ⊢
  have hm : 2 ^ 52 ≤ m := by
    by_contra hc
    have hc' : m + 1 ≤ 2 ^ 52 := by omega
    have : (m + 1) * (m + 1) ≤ 2 ^ 52 * 2 ^ 52 := Nat.mul_le_mul hc' hc'
    have e : (2 : Nat) ^ 52 * 2 ^ 52 = 2 ^ 104 := by norm_num
    omega
  have hmm : m * 2 ^ 52 ≤ m * m := Nat.mul_le_mul_left m hm
  have e1 : (m + 1) * (m + 1) = m * m + 2 * m + 1 := by ring
  split
  · rename_i h
    refine ⟨m + 1, rfl, by omega, ?_, ?_, ?_⟩
    · have : (2 * (m + 1) - 1) = 2 * m + 1 := by omega
      rw [this]
      have e2 : (2 * m + 1) * (2 * m + 1) = 4 * (m * m) + 4 * m + 1 := by ring
      omega
    · have e2 : (2 * (m + 1) + 1) * (2 * (m + 1) + 1) = 4 * (m * m) + 12 * m + 9 := by ring
      omega
    · rw [e1]
      have e3 : (m * m + 2 * m + 1) * 2 ^ 52 = m * m * 2 ^ 52 + m * 2 ^ 52 + (m + 1) * 2 ^ 52 := by
        ring
      have e4 : n * (2 ^ 52 + 1) = n * 2 ^ 52 + n := by ring
      have e5 : (m * m + m + 1) * 2 ^ 52 ≤ n * 2 ^ 52 := Nat.mul_le_mul_right _ (by omega)
      have e6 : (m * m + m + 1) * 2 ^ 52 = m * m * 2 ^ 52 + (m + 1) * 2 ^ 52 := by ring
      omega
  · rename_i h
    refine ⟨m, rfl, hm, ?_, ?_, ?_⟩
    · have e2 : (2 * m - 1) * (2 * m - 1) + 4 * m = 4 * (m * m) + 1 := by
        have : 2 * m - 1 + 1 = 2 * m := by omega
        have e : (2 * m - 1 + 1) * (2 * m - 1 + 1) = 4 * (m * m) := by
          rw [this]
          ring
        have e' : (2 * m - 1 + 1) * (2 * m - 1 + 1) =
            (2 * m - 1) * (2 * m - 1) + 2 * (2 * m - 1) + 1 := by ring
        omega
      have : 1 ≤ m := by omega
      omega
    · have e2 : (2 * m + 1) * (2 * m + 1) = 4 * (m * m) + 4 * m + 1 := by ring
      omega
    · have e4 : n * (2 ^ 52 + 1) = n * 2 ^ 52 + n := by ring
      have e5 : m * m * 2 ^ 52 ≤ n * 2 ^ 52 := Nat.mul_le_mul_right _ h1
      omega

/-- `sqrtDouble d` squared exceeds `d` by a relative error of at most `2^-52`. -/
theorem sqrtDouble_sq_le (d : Nat) :
    sqrtDouble d * sqrtDouble d ≤ (d : ℚ) * (1 + 1 / 2 ^ 52) := by
  rcases Nat.eq_zero_or_pos d with h0 | hd
  · subst h0
    rw [sqrtDouble_zero]
    simp
  · obtain ⟨M, hM, _, _, _, hb⟩ := sqrtDouble_significand hd
    rw [hM]
    have hb' : (M : ℚ) * M * 2 ^ 52 ≤ (d : ℚ) * 4 ^ (52 - natLog2 d / 2) * (2 ^ 52 + 1) := by
      exact_mod_cast hb
    have h4 : ((4 : ℚ)) ^ (52 - natLog2 d / 2) =
        (2 : ℚ) ^ (52 - natLog2 d / 2) * (2 : ℚ) ^ (52 - natLog2 d / 2) := by
      rw [← mul_pow]
      norm_num
    rw [h4] at hb'
    have hp : (0 : ℚ) < (2 : ℚ) ^ (52 - natLog2 d / 2) := by positivity
    generalize (2 : ℚ) ^ (52 - natLog2 d / 2) = P at hb' hp ⊢
    rw [div_mul_div_comm, div_le_iff₀ (mul_pos hp hp)]
    have : (d : ℚ) * (1 + 1 / 2 ^ 52) * (P * P) = (d : ℚ) * (P * P) * (2 ^ 52 + 1) / 2 ^ 52 := by
      field_simp
      ring
    rw [this, le_div_iff₀ (by positivity)]
    exact hb'

theorem withinTol_iff (d2 : Int) (tol : ℚ) :
    withinTol d2 tol = true ↔ 0 ≤ d2 ∧ sqrtDouble d2.toNat ≤ roundDouble tol := by
  unfold withinTol
  exact decide_eq_true_iff

theorem withinTol_zero {tol : ℚ} (h : 0 ≤ tol) : withinTol 0 tol = true := by
  rw [withinTol_iff]
  refine ⟨le_refl _, ?_⟩
  show sqrtDouble 0 ≤ roundDouble tol
  rw [sqrtDouble_zero]
  exact roundDouble_nonneg h

theorem withinTol_mono {d2 : Int} {t1 t2 : ℚ} (h1 : 0 ≤ t1) (h12 : t1 ≤ t2)
    (h : withinTol d2 t1 = true) : withinTol d2 t2 = true := by
  rw [withinTol_iff] at h ⊢
  exact ⟨h.1, h.2.trans (roundDouble_mono h1 h12)⟩

theorem sqrtDouble_195075 : sqrtDouble 195075 = 3884996405754415 / 8796093022208 := by decide!

theorem roundDouble_below_195075 :
    roundDouble (15539985623017659 / 35184372088832) = 3884996405754415 / 8796093022208 := by
  decide!

theorem sqrtDouble_le_of_le {d : Nat} (hd : d ≤ 195075) : sqrtDouble d ≤ sqrtDouble 195075 := by
  rcases Nat.lt_or_ge d 195075 with hlt | hge
  · have h1 := sqrtDouble_sq_le d
    have hd' : (d : ℚ) ≤ 195074 := by
      have : d ≤ 195074 := by omega
      exact_mod_cast this
    have h2 : sqrtDouble d * sqrtDouble d < sqrtDouble 195075 * sqrtDouble 195075 := by
      rw [sqrtDouble_195075]
      have : (d : ℚ) * (1 + 1 / 2 ^ 52) ≤ 195074 * (1 + 1 / 2 ^ 52) :=
        mul_le_mul_of_nonneg_right hd' (by norm_num)
      refine lt_of_le_of_lt (h1.trans this) ?_
      norm_num
    by_contra hc
    have hc' := (not_le.mp hc).le
    have := mul_le_mul hc' hc' (sqrtDouble_nonneg _) (sqrtDouble_nonneg _)
    linarith
  · have : d = 195075 := by omega
    rw [this]

theorem withinTol_of_sq_le {d2 : Int} {tol : ℚ} (h0 : 0 ≤ tol) (hd0 : 0 ≤ d2)
    (hd : d2 ≤ 195075) (ht : 195075 ≤ tol * tol) : withinTol d2 tol = true := by
  rw [withinTol_iff]
  refine ⟨hd0, ?_⟩
  have hx0 : (15539985623017659 / 35184372088832 : ℚ) ≤ tol := by
    by_contra hc
    have hc' := (not_le.mp hc).le
    have := mul_le_mul hc' hc' h0 (by norm_num : (0 : ℚ) ≤ 15539985623017659 / 35184372088832)
    have : tol * tol < 195075 := lt_of_le_of_lt this (by norm_num)
    linarith
  have h1 := roundDouble_mono (by norm_num) hx0
  rw [roundDouble_below_195075, ← sqrtDouble_195075] at h1
  refine le_trans (sqrtDouble_le_of_le ?_) h1
  omega

theorem exponent_unique {x : ℚ} {e : Int} (h1 : (2 : ℚ) ^ e ≤ x) (h2 : x < (2 : ℚ) ^ (e + 1)) :
    exponent x = e := by
  have hx : 0 < x := lt_of_lt_of_le (by positivity) h1
  obtain ⟨s1, s2⟩ := exponent_spec hx.ne'
  rw [abs_of_pos hx] at s1 s2
  have a := (zpow_lt_zpow_iff_right₀ (by norm_num : (1 : ℚ) < 2)).mp (lt_of_le_of_lt h1 s2)
  have b := (zpow_lt_zpow_iff_right₀ (by norm_num : (1 : ℚ) < 2)).mp (lt_of_le_of_lt s1 h2)
  omega

/-- A rational in the binade `[2^e, 2^(e+1))` rounds to `N * 2^(e-52)` with `N`
the integer nearest to its scaled value. -/
theorem roundDouble_of_binade {x : ℚ} {e : Int} (h1 : (2 : ℚ) ^ e ≤ x)
    (h2 : x < (2 : ℚ) ^ (e + 1)) :
    roundDouble x = (roundHalfEven (x * (2 : ℚ) ^ (52 - e)) : ℚ) * (2 : ℚ) ^ (e - 52) := by
  have hx : 0 < x := lt_of_lt_of_le (by positivity) h1
  rw [roundDouble_of_ne hx.ne', exponent_unique h1 h2]

/-- Rounding leaves a double unchanged: a number `M * 2^j` with a significand
`2^52 ≤ M ≤ 2^53` is its own nearest double. -/
theorem roundDouble_of_double (M : Nat) (j : Int) (hM1 : 2 ^ 52 ≤ M) (hM2 : M ≤ 2 ^ 53) :
    roundDouble ((M : ℚ) * (2 : ℚ) ^ j) = (M : ℚ) * (2 : ℚ) ^ j := by
  have hp : (0 : ℚ) < (2 : ℚ) ^ j := by positivity
  have hM1' : ((2 : ℚ) ^ (52 : Int)) ≤ (M : ℚ) := by
    have : ((2 ^ 52 : Nat) : ℚ) ≤ (M : ℚ) := by exact_mod_cast hM1
    have e : ((2 : ℚ) ^ (52 : Int)) = ((2 ^ 52 : Nat) : ℚ) := by norm_num
    rw [e]
    exact this
  rcases Nat.lt_or_ge M (2 ^ 53) with hlt | hge
  · have hM2' : (M : ℚ) < ((2 : ℚ) ^ (53 : Int)) := by
      have : (M : ℚ) < ((2 ^ 53 : Nat) : ℚ) := by exact_mod_cast hlt
      have e : ((2 : ℚ) ^ (53 : Int)) = ((2 ^ 53 : Nat) : ℚ) := by norm_num
      rw [e]
      exact this
    have b1 : (2 : ℚ) ^ (52 + j) ≤ (M : ℚ) * (2 : ℚ) ^ j := by
      rw [← two_zpow_mul]
      exact mul_le_mul_of_nonneg_right hM1' hp.le
    have b2 : (M : ℚ) * (2 : ℚ) ^ j < (2 : ℚ) ^ (52 + j + 1) := by
      have : (52 : Int) + j + 1 = 53 + j := by ring
      rw [this, ← two_zpow_mul]
      exact mul_lt_mul_of_pos_right hM2' hp
    rw [roundDouble_of_binade b1 b2]
    have e1 : (M : ℚ) * (2 : ℚ) ^ j * (2 : ℚ) ^ (52 - (52 + j)) = ((M : Int) : ℚ) := by
      rw [mul_assoc, two_zpow_mul]
      have : j + (52 - (52 + j)) = 0 := by ring
      rw [this, zpow_zero, mul_one]
      simp
    rw [e1, roundHalfEven_intCast]
    have : (52 : Int) + j - 52 = j := by ring
    rw [this]
    simp
  · have hM : M = 2 ^ 53 := le_antisymm hM2 hge
    have hx : (M : ℚ) * (2 : ℚ) ^ j = (2 : ℚ) ^ (53 + j) := by
      rw [hM, ← two_zpow_mul]
      norm_num
    have b1 : (2 : ℚ) ^ (53 + j) ≤ (M : ℚ) * (2 : ℚ) ^ j := hx.ge
    have b2 : (M : ℚ) * (2 : ℚ) ^ j < (2 : ℚ) ^ (53 + j + 1) := by
      rw [hx]
      exact (zpow_lt_zpow_iff_right₀ (by norm_num : (1 : ℚ) < 2)).mpr (by omega)
    rw [roundDouble_of_binade b1 b2, hx, two_zpow_mul]
    have : (53 : Int) + j + (52 - (53 + j)) = ((52 : Nat) : Int) := by push_cast; ring
    rw [this, zpow_natCast]
    have e : ((2 : ℚ) ^ 52) = (((2 : Int) ^ 52 : Int) : ℚ) := by norm_num
    rw [e, roundHalfEven_intCast, ← e, ← zpow_natCast, two_zpow_mul]
    congr 1
    push_cast
    ring

theorem roundHalfEven_of_near {s : ℚ} {M : Int} (h1 : (M : ℚ) - 1 / 2 < s) (h2 : s ≤ M) :
    roundHalfEven s = M := by
  rcases eq_or_lt_of_le h2 with h | h
  · rw [h, roundHalfEven_intCast]
  · have hf : ⌊s⌋ = M - 1 := by
      rw [Int.floor_eq_iff]
      push_cast
      constructor <;> linarith
    unfold roundHalfEven
    rw [hf]
    push_cast
    rw [if_neg (by linarith), if_pos (by linarith)]
    ring

/-- `d` is at most the square of `sqrtDouble d` up to a relative error of `2^-52`. -/
theorem le_sqrtDouble_sq (d : Nat) :
    (d : ℚ) ≤ sqrtDouble d * sqrtDouble d * (1 + 1 / 2 ^ 52) := by
  rcases Nat.eq_zero_or_pos d with h0 | hd
  · subst h0
    rw [sqrtDouble_zero]
    simp
  · obtain ⟨M, hM, hM52, _, hup, _⟩ := sqrtDouble_significand hd
    rw [hM]
    have hb : d * 4 ^ (52 - natLog2 d / 2) * 2 ^ 52 ≤ M * M * (2 ^ 52 + 1) := by
      generalize d * 4 ^ (52 - natLog2 d / 2) = n at hup ⊢
      have e2 : (2 * M + 1) * (2 * M + 1) = 4 * (M * M) + 4 * M + 1 := by ring
      have e3 : M * 2 ^ 52 ≤ M * M := Nat.mul_le_mul_left M hM52
      have e4 : M * M * (2 ^ 52 + 1) = M * M * 2 ^ 52 + M * M := by ring
      have e5 : n * 2 ^ 52 ≤ (M * M + M) * 2 ^ 52 := Nat.mul_le_mul_right _ (by omega)
      have e6 : (M * M + M) * 2 ^ 52 = M * M * 2 ^ 52 + M * 2 ^ 52 := by ring
      omega
    have hb' : (d : ℚ) * 4 ^ (52 - natLog2 d / 2) * 2 ^ 52 ≤ (M : ℚ) * M * (2 ^ 52 + 1) := by
      exact_mod_cast hb
    have h4 : ((4 : ℚ)) ^ (52 - natLog2 d / 2) =
        (2 : ℚ) ^ (52 - natLog2 d / 2) * (2 : ℚ) ^ (52 - natLog2 d / 2) := by
      rw [← mul_pow]
      norm_num
    rw [h4] at hb'
    have hp : (0 : ℚ) < (2 : ℚ) ^ (52 - natLog2 d / 2) := by positivity
    generalize (2 : ℚ) ^ (52 - natLog2 d / 2) = P at hb' hp ⊢
    have : (M : ℚ) / P * ((M : ℚ) / P) * (1 + 1 / 2 ^ 52) =
        (M : ℚ) * M * (2 ^ 52 + 1) / (P * P * 2 ^ 52) := by
      field_simp
    rw [this, le_div_iff₀ (by positivity)]
    linarith [hb', (by ring : (d : ℚ) * (P * P * 2 ^ 52) = (d : ℚ) * (P * P) * 2 ^ 52)]

/-- The test of the code holds whenever the exact distance is at most the
tolerance: `d2 ≤ tol²` gives `Math.sqrt(d2) <= tol`. -/
theorem withinTol_of_le_sq {d2 : Int} {tol : ℚ} (hd0 : 0 ≤ d2) (hd : d2 < 2 ^ 106)
    (h0 : 0 ≤ tol) (ht : (d2 : ℚ) ≤ tol * tol) : withinTol d2 tol = true := by
  rw [withinTol_iff]
  refine ⟨hd0, ?_⟩
  obtain ⟨d, rfl⟩ := Int.eq_ofNat_of_zero_le hd0
  simp only [Int.toNat_ofNat]
  have hd' : d < 2 ^ 106 := by exact_mod_cast hd
  have ht' : (d : ℚ) ≤ tol * tol := by exact_mod_cast ht
  rcases Nat.eq_zero_or_pos d with hz | hpos
  · subst hz
    rw [sqrtDouble_zero]
    exact roundDouble_nonneg h0
  · obtain ⟨M, hM, hM52, hlo, _, _⟩ := sqrtDouble_significand hpos
    have hn := sqrtDouble_scaled_ge hpos
    have hL : natLog2 d ≤ 105 := by
      have h1 := natLog2_le hpos
      by_contra hc
      have : 2 ^ 106 ≤ 2 ^ natLog2 d := Nat.pow_le_pow_right (by norm_num) (by omega)
      omega
    have hnlt : d * 4 ^ (52 - natLog2 d / 2) < 2 ^ 106 := by
      have h2 := lt_natLog2_succ hpos
      have h4 : (4 : Nat) ^ (52 - natLog2 d / 2) = 2 ^ (2 * (52 - natLog2 d / 2)) := by
        rw [pow_mul]
        norm_num
      rw [h4]
      calc d * 2 ^ (2 * (52 - natLog2 d / 2))
          < 2 ^ (natLog2 d + 1) * 2 ^ (2 * (52 - natLog2 d / 2)) :=
            Nat.mul_lt_mul_of_pos_right h2 (by positivity)
        _ = 2 ^ (natLog2 d + 1 + 2 * (52 - natLog2 d / 2)) := (pow_add _ _ _).symm
        _ ≤ 2 ^ 106 := Nat.pow_le_pow_right (by norm_num) (by omega)
    have hM53 : M ≤ 2 ^ 53 := by
      by_contra hc
      have h1 : 2 ^ 54 + 1 ≤ 2 * M - 1 := by omega
      have h2 := Nat.mul_le_mul h1 h1
      have e : (2 ^ 54 + 1) * (2 ^ 54 + 1) = 2 ^ 108 + 2 ^ 55 + 1 := by norm_num
      omega
    rw [hM]
    have hk : (M : ℚ) / (2 : ℚ) ^ (52 - natLog2 d / 2) =
        (M : ℚ) * (2 : ℚ) ^ (-((52 - natLog2 d / 2 : Nat) : Int)) := by
      rw [zpow_neg, zpow_natCast, div_eq_mul_inv]
    rw [hk]
    have hD := roundDouble_of_double M (-((52 - natLog2 d / 2 : Nat) : Int)) hM52 hM53
    generalize 52 - natLog2 d / 2 = k at hn hnlt hlo hk hD ⊢
    have hp : (0 : ℚ) < (2 : ℚ) ^ (-(k : Int)) := by positivity
    rcases le_or_lt ((M : ℚ) * (2 : ℚ) ^ (-(k : Int))) tol with hle | hlt
    · have := roundDouble_mono (mul_nonneg (Nat.cast_nonneg M) hp.le) hle
      rw [hD] at this
      exact this
    · -- the tolerance lies between the midpoint below and the double itself
      have hP : (0 : ℚ) < (2 : ℚ) ^ k := by positivity
      have hinv : (2 : ℚ) ^ (-(k : Int)) * (2 : ℚ) ^ k = 1 := by
        rw [← zpow_natCast, two_zpow_mul]
        simp
      have hs2 : tol * (2 : ℚ) ^ k < M := by
        have := mul_lt_mul_of_pos_right hlt hP
        rw [mul_assoc, hinv, mul_one] at this
        exact this
      have hs0 : 0 ≤ tol * (2 : ℚ) ^ k := mul_nonneg h0 hP.le
      have hsq : (d : ℚ) * 4 ^ k ≤ tol * (2 : ℚ) ^ k * (tol * (2 : ℚ) ^ k) := by
        have h4 : ((4 : ℚ)) ^ k = (2 : ℚ) ^ k * (2 : ℚ) ^ k := by
          rw [← mul_pow]
          norm_num
        rw [h4]
        have := mul_le_mul_of_nonneg_right ht' (mul_pos hP hP).le
        linarith [this, (by ring : tol * tol * ((2 : ℚ) ^ k * (2 : ℚ) ^ k) =
          tol * (2 : ℚ) ^ k * (tol * (2 : ℚ) ^ k))]
      have hn' : (2 : ℚ) ^ 104 ≤ (d : ℚ) * 4 ^ k := by exact_mod_cast hn
      have hlo' : ((2 * (M : ℚ) - 1) * (2 * (M : ℚ) - 1)) < 4 * ((d : ℚ) * 4 ^ k) := by
        have hM1 : 1 ≤ 2 * M := by omega
        have : (((2 * M - 1) * (2 * M - 1) : Nat) : ℚ) < ((4 * (d * 4 ^ k) : Nat) : ℚ) := by
          exact_mod_cast hlo
        rw [Nat.cast_mul, Nat.cast_sub hM1] at this
        rw [Nat.cast_mul 4] at this
        push_cast at this
        exact this
      have hM53' : (M : ℚ) ≤ 2 ^ 53 := by exact_mod_cast hM53
      have hM52' : (2 : ℚ) ^ 52 ≤ (M : ℚ) := by exact_mod_cast hM52
      have htol : tol = tol * (2 : ℚ) ^ k * (2 : ℚ) ^ (-(k : Int)) := by
        rw [mul_assoc, mul_comm ((2 : ℚ) ^ k), hinv, mul_one]
      generalize (d : ℚ) * 4 ^ k = n at hsq hn' hlo'
      generalize tol * (2 : ℚ) ^ k = s at hs2 hs0 hsq htol
      have hs1 : (M : ℚ) - 1 / 2 < s := by
        by_contra hc
        have hc' : 2 * s ≤ 2 * (M : ℚ) - 1 := by linarith
        have hs0' : (0 : ℚ) ≤ 2 * s := by linarith
        have h1 := mul_le_mul hc' hc' hs0' (hs0'.trans hc')
        linarith [h1, (by ring : 2 * s * (2 * s) = 4 * (s * s))]
      have hs52 : (2 : ℚ) ^ 52 ≤ s := by
        by_contra hc
        have h3 : s * s < (2 : ℚ) ^ 52 * (2 : ℚ) ^ 52 :=
          mul_lt_mul'' (not_le.mp hc) (not_le.mp hc) hs0 hs0
        norm_num at hn' h3
        linarith
      have b1 : (2 : ℚ) ^ ((52 : Int) - k) ≤ tol := by
        rw [htol]
        have : (2 : ℚ) ^ ((52 : Int) - k) = (2 : ℚ) ^ (52 : Nat) * (2 : ℚ) ^ (-(k : Int)) := by
          rw [← zpow_natCast, two_zpow_mul]
          congr 1
        rw [this]
        exact mul_le_mul_of_nonneg_right hs52 hp.le
      have b2 : tol < (2 : ℚ) ^ ((52 : Int) - k + 1) := by
        rw [htol]
        have : (2 : ℚ) ^ ((52 : Int) - k + 1) = (2 : ℚ) ^ (53 : Nat) * (2 : ℚ) ^ (-(k : Int)) := by
          rw [← zpow_natCast, two_zpow_mul]
          congr 1
          push_cast
          ring
        rw [this]
        exact mul_lt_mul_of_pos_right (lt_of_lt_of_le hs2 hM53') hp
      rw [roundDouble_of_binade b1 b2]
      have e1 : tol * (2 : ℚ) ^ ((52 : Int) - ((52 : Int) - k)) = s := by
        have : (52 : Int) - ((52 : Int) - k) = (k : Int) := by ring
        rw [this, zpow_natCast]
        rw [htol, mul_assoc, hinv, mul_one]
      have e2 : ((52 : Int) - k - 52) = -(k : Int) := by ring
      rw [e1, e2, roundHalfEven_of_near (M := (M : Int)) (by push_cast; exact hs1)
        (by push_cast; exact hs2.le)]
      simp

/-- The test of the code holds only when the exact distance is at most the
tolerance up to rounding: `Math.sqrt(d2) <= tol` gives `d2 ≤ tol² (1 + 2^-50)`. -/
theorem le_sq_of_withinTol {d2 : Int} {tol : ℚ} (h0 : 0 ≤ tol) (h : withinTol d2 tol = true) :
    (d2 : ℚ) ≤ tol * tol * (1 + 1 / 2 ^ 50) := by
  rw [withinTol_iff] at h
  obtain ⟨hd0, hle⟩ := h
  obtain ⟨d, rfl⟩ := Int.eq_ofNat_of_zero_le hd0
  simp only [Int.toNat_ofNat] at hle
  have h1 := le_sqrtDouble_sq d
  have h2 := roundDouble_abs_sub_le tol
  rw [abs_of_nonneg h0, abs_le] at h2
  have hS := sqrtDouble_nonneg d
  have hF : roundDouble tol ≤ tol * (1 + 1 / 2 ^ 53) := by linarith [h2.2]
  have hSt : sqrtDouble d ≤ tol * (1 + 1 / 2 ^ 53) := hle.trans hF
  have hsq := mul_le_mul hSt hSt hS (hS.trans hSt)
  have h3 : (d : ℚ) ≤ tol * (1 + 1 / 2 ^ 53) * (tol * (1 + 1 / 2 ^ 53)) * (1 + 1 / 2 ^ 52) :=
    h1.trans (mul_le_mul_of_nonneg_right hsq (by norm_num))
  have h4 : tol * (1 + 1 / 2 ^ 53) * (tol * (1 + 1 / 2 ^ 53)) * (1 + 1 / 2 ^ 52) =
      tol * tol * ((1 + 1 / 2 ^ 53) * (1 + 1 / 2 ^ 53) * (1 + 1 / 2 ^ 52)) := by ring
  have h5 : ((1 : ℚ) + 1 / 2 ^ 53) * (1 + 1 / 2 ^ 53) * (1 + 1 / 2 ^ 52) ≤ 1 + 1 / 2 ^ 50 := by
    norm_num
  calc ((d : Int) : ℚ) = (d : ℚ) := by push_cast; rfl
    _ ≤ _ := h3
    _ = _ := h4
    _ ≤ tol * tol * (1 + 1 / 2 ^ 50) := mul_le_mul_of_nonneg_left h5 (mul_nonneg h0 h0)

theorem colorMatch_mono {r g b : Option Nat} {tR tG tB : Option Int} {t1 t2 : ℚ}
    (h1 : 0 ≤ t1) (h12 : t1 ≤ t2) (h : colorMatch r g b tR tG tB t1 = true) :
    colorMatch r g b tR tG tB t2 = true := by
  unfold colorMatch at h ⊢
  split at h
  · exact withinTol_mono h1 h12 h
  · exact absurd h (by simp)

/-- The seed's region grows with the tolerance. -/
theorem region_mono {img : ImageData} {seed : Int × Int} {t1 t2 : ℚ} (h1 : 0 ≤ t1)
    (h12 : t1 ≤ t2) {p : Int × Int} (h : Region img seed t1 p) : Region img seed t2 p := by
  unfold Region at h ⊢
  apply reach_mono _ h
  intro q _ hq
  unfold nearSeed pixelMatch at hq ⊢
  exact colorMatch_mono h1 h12 hq

/-- The seed's region depends only on the dimensions and the RGB bytes. -/
theorem region_congr {img out : ImageData} (hw : out.width = img.width)
    (hh : out.height = img.height) (hfr : AlphaCleared img.data out.data)
    (seed : Int × Int) (tol : ℚ) (p : Int × Int) :
    Region out seed tol p ↔ Region img seed tol p := by
  have hM : ∀ q, nearSeed out seed tol q = nearSeed img seed tol q := by
    intro q
    unfold nearSeed pixelMatch
    rw [hw, colorMatch_frame hfr,
      alphaCleared_rgb hfr (i := pixelIdx img.width seed * 4) (by omega),
      alphaCleared_rgb hfr (i := pixelIdx img.width seed * 4 + 1) (by omega),
      alphaCleared_rgb hfr (i := pixelIdx img.width seed * 4 + 2) (by omega)]
  unfold Region
  rw [hw, hh]
  constructor
  · exact reach_mono (fun q _ hq => by rw [← hM q]; exact hq)
  · exact reach_mono (fun q _ hq => by rw [hM q]; exact hq)

/-- With a tolerance that is not negative, the seed belongs to its own region. -/
theorem seed_mem_region {img : ImageData} (hwf : img.WF) {seed : Int × Int}
    (hseed : InGrid img.width img.height seed) {tol : ℚ} (htol : 0 ≤ tol) :
    Region img seed tol seed := by
  apply Reach.base hseed
  have h0 := pixelIdx_nonneg hseed
  have h1 := pixelIdx_lt hseed
  have hlen := hwf.2.2.1
  obtain ⟨r, hr⟩ := readAt_isSome (d := img.data) (i := pixelIdx img.width seed * 4)
    (by omega) (by rw [hlen]; push_cast at h1 ⊢; omega)
  obtain ⟨g, hg⟩ := readAt_isSome (d := img.data) (i := pixelIdx img.width seed * 4 + 1)
    (by omega) (by rw [hlen]; push_cast at h1 ⊢; omega)
  obtain ⟨b, hb⟩ := readAt_isSome (d := img.data) (i := pixelIdx img.width seed * 4 + 2)
    (by omega) (by rw [hlen]; push_cast at h1 ⊢; omega)
  show nearSeed img seed tol seed = true
  unfold nearSeed pixelMatch
  rw [hr, hg, hb]
  simp only [Option.map_some', colorMatch, distSq]
  have : ((Int.ofNat r - Int.ofNat r) ^ 2 + (Int.ofNat g - Int.ofNat g) ^ 2 +
      (Int.ofNat b - Int.ofNat b) ^ 2 : Int) = 0 := by ring
  simp only [Int.ofNat_eq_coe] at this ⊢
  rw [this]
  exact withinTol_zero htol

/-! ## Frame properties on arbitrary inputs -/

theorem removeBackgroundBody_frame (width height : Nat) (tR tG tB : Option Int) (tol : ℚ)
    (x y : Int) (d v : List Nat) (q : List (Int × Int)) :
    AlphaCleared d (removeBackgroundBody width height tR tG tB tol x y d v q).data := by
  unfold removeBackgroundBody
  simp only
  split
  · exact alphaCleared_refl _
  · split
    · exact alphaCleared_writeAt _ _
    · exact alphaCleared_refl _

theorem floodFillBody_frame (width height : Nat) (tR tG tB : Option Int) (tol : ℚ)
    (x y : Int) (d v : List Nat) (q : List (Int × Int)) :
    AlphaCleared d (floodFillBody width height tR tG tB tol x y d v q).data := by
  unfold floodFillBody
  simp only
  split
  · exact alphaCleared_refl _
  · split
    · exact alphaCleared_refl _
    · split
      · exact alphaCleared_writeAt _ _
      · exact alphaCleared_refl _

/-- On every input, a returned result of `removeBackground` has the dimensions
of the argument and differs from it only in alpha bytes set to `0`. -/
theorem removeBackground_frame {img : ImageData} {sx sy : Int} {tol : ℚ} {fuel : Nat}
    {out : ImageData} (h : removeBackground fuel img sx sy tol = some out) :
    out.width = img.width ∧ out.height = img.height ∧ AlphaCleared img.data out.data := by
  unfold removeBackground at h
  simp only [Option.map_eq_some'] at h
  obtain ⟨s', hs', rfl⟩ := h
  have hinv := removeBackgroundLoop_inv img.width img.height _ _ _ tol
    (fun s => AlphaCleared img.data s.data)
    (fun d v x y q hP => alphaCleared_trans hP (removeBackgroundBody_frame _ _ _ _ _ _ x y d v q))
    fuel _ s' hs' (alphaCleared_refl _)
  exact ⟨rfl, rfl, hinv.1⟩

/-- On every input, a returned result of `floodFill` has the dimensions of the
argument and differs from it only in alpha bytes set to `0`. -/
theorem floodFill_frame {img : ImageData} {sx sy : Int} {tol : ℚ} {fuel : Nat}
    {out : ImageData} (h : floodFill fuel img sx sy tol = some out) :
    out.width = img.width ∧ out.height = img.height ∧ AlphaCleared img.data out.data := by
  unfold floodFill at h
  simp only at h
  split at h
  · rw [← Option.some.inj h]
    exact ⟨rfl, rfl, alphaCleared_refl _⟩
  · simp only [Option.map_eq_some'] at h
    obtain ⟨s', hs', rfl⟩ := h
    have hinv := floodFillLoop_inv img.width img.height _ _ _ tol
      (fun s => AlphaCleared img.data s.data)
      (fun d v x y q hP => alphaCleared_trans hP (floodFillBody_frame _ _ _ _ _ _ x y d v q))
      fuel _ s' hs' (alphaCleared_refl _)
    exact ⟨rfl, rfl, hinv.1⟩

theorem removeColorGlobalBody_frame (tR tG tB : Int) (tol : ℚ) (d : List Nat) (k : Nat) :
    AlphaCleared d (removeColorGlobalBody tR tG tB tol d (4 * k)) := by
  unfold removeColorGlobalBody
  split
  · have h : (((4 * k : Nat) : Int) + 3) = (k : Int) * 4 + 3 := by push_cast; ring
    rw [h]
    exact alphaCleared_writeAt _ _
  · exact alphaCleared_refl _

theorem removeColorGlobal_foldl_frame (tR tG tB : Int) (tol : ℚ) (d0 : List Nat) :
    ∀ (l : List Nat) (d : List Nat), AlphaCleared d0 d →
      AlphaCleared d0 (l.foldl
        (fun data k => removeColorGlobalBody tR tG tB tol data (4 * k)) d) := by
  intro l
  induction l with
  | nil => intro d h; exact h
  | cons k rest ih =>
    intro d h
    simp only [List.foldl_cons]
    exact ih _ (alphaCleared_trans h (removeColorGlobalBody_frame tR tG tB tol d k))

/-- On every input, `removeColorGlobal` keeps the dimensions and changes only
alpha bytes, to `0`. -/
theorem removeColorGlobal_frame (img : ImageData) (tR tG tB : Int) (tol : ℚ) :
    (removeColorGlobal img tR tG tB tol).width = img.width ∧
    (removeColorGlobal img tR tG tB tol).height = img.height ∧
    AlphaCleared img.data (removeColorGlobal img tR tG tB tol).data :=
  ⟨rfl, rfl, removeColorGlobal_foldl_frame tR tG tB tol img.data _ _ (alphaCleared_refl _)⟩

/-- The frame relation read at natural-number offsets. -/
theorem alphaCleared_nat {d d' : List Nat} (h : AlphaCleared d d') :
    d'.length = d.length ∧ (∀ i : Nat, i % 4 ≠ 3 → d'[i]? = d[i]?) ∧
    (∀ i : Nat, d'[i]? = d[i]? ∨ (i % 4 = 3 ∧ d'[i]? = some 0)) := by
  refine ⟨h.1, ?_, ?_⟩
  · intro i hi
    have := alphaCleared_rgb h (i := (i : Int)) (by omega)
    rw [readAt_natCast, readAt_natCast] at this
    exact this
  · intro i
    rcases h.2 (i : Int) with h' | ⟨hm, h'⟩
    · rw [readAt_natCast, readAt_natCast] at h'
      exact Or.inl h'
    · rw [readAt_natCast] at h'
      exact Or.inr ⟨by omega, h'⟩

/-! ## A rectangle of one colour -/

/-- Inside a rectangle all of whose pixels are in the grid and satisfy `M`,
every pixel is reachable from every seed of the rectangle. -/
theorem reach_rect {width height : Nat} {M : Int × Int → Prop} {seed : Int × Int}
    (x0 y0 x1 y1 : Int)
    (hgood : ∀ p, InRect x0 y0 x1 y1 p → InGrid width height p ∧ M p)
    (hseed : InRect x0 y0 x1 y1 seed) :
    ∀ (n : Nat) (p : Int × Int), InRect x0 y0 x1 y1 p →
      (p.1 - seed.1).natAbs + (p.2 - seed.2).natAbs = n → Reach width height M seed p := by
  intro n
  induction n with
  | zero =>
    intro p _ hn
    have h1 : p.1 = seed.1 := by omega
    have h2 : p.2 = seed.2 := by omega
    have : p = seed := Prod.ext h1 h2
    rw [this]
    exact Reach.base (hgood seed hseed).1 (hgood seed hseed).2
  | succ n ih =>
    intro p hp hn
    obtain ⟨p1, p2⟩ := p
    obtain ⟨s1, s2⟩ := seed
    unfold InRect at hp hseed
    simp only at hp hseed hn
    have hg := hgood (p1, p2) hp
    by_cases hlt : p1 < s1
    · have hr : InRect x0 y0 x1 y1 (p1 + 1, p2) := by
        unfold InRect; simp only; omega
      exact Reach.step (ih (p1 + 1, p2) hr (by simp only; omega))
        (Or.inl (by simp)) hg.1 hg.2
    · by_cases hgt : s1 < p1
      · have hr : InRect x0 y0 x1 y1 (p1 - 1, p2) := by
          unfold InRect; simp only; omega
        exact Reach.step (ih (p1 - 1, p2) hr (by simp only; omega))
          (Or.inr (Or.inl (by simp))) hg.1 hg.2
      · by_cases hlt2 : p2 < s2
        · have hr : InRect x0 y0 x1 y1 (p1, p2 + 1) := by
            unfold InRect; simp only; omega
          exact Reach.step (ih (p1, p2 + 1) hr (by simp only; omega))
            (Or.inr (Or.inr (Or.inl (by simp)))) hg.1 hg.2
        · have hr : InRect x0 y0 x1 y1 (p1, p2 - 1) := by
            unfold InRect; simp only; omega
          exact Reach.step (ih (p1, p2 - 1) hr (by simp only; omega))
            (Or.inr (Or.inr (Or.inr (by simp)))) hg.1 hg.2

/-- When the pixels of a rectangle have colour `C`, all other pixels have a
colour `D` farther than the tolerance from `C`, and the seed is in the
rectangle, the seed's region is the rectangle. -/
theorem region_rect {img : ImageData} {seed : Int × Int} {tol : ℚ} (htol : 0 ≤ tol)
    (x0 y0 x1 y1 : Int) (cR cG cB dR dG dB : Nat)
    (hin : ∀ p, InRect x0 y0 x1 y1 p → InGrid img.width img.height p)
    (hC : ∀ p, InRect x0 y0 x1 y1 p → HasColor img p cR cG cB)
    (hD : ∀ p, InGrid img.width img.height p → ¬ InRect x0 y0 x1 y1 p →
      HasColor img p dR dG dB)
    (hfar : withinTol (distSq dR dG dB cR cG cB) tol = false)
    (hseed : InRect x0 y0 x1 y1 seed) (p : Int × Int) :
    Region img seed tol p ↔ InRect x0 y0 x1 y1 p := by
  obtain ⟨sr, sg, sb⟩ := hC seed hseed
  constructor
  · intro hr
    by_contra hnr
    have hm : nearSeed img seed tol p = true := reach_holds hr
    obtain ⟨pr, pg, pb⟩ := hD p (reach_inGrid hr) hnr
    unfold nearSeed pixelMatch at hm
    rw [sr, sg, sb, pr, pg, pb] at hm
    simp only [Option.map_some', colorMatch, Int.ofNat_eq_coe] at hm
    rw [hfar] at hm
    exact absurd hm (by simp)
  · intro hr
    apply reach_rect x0 y0 x1 y1 _ hseed _ p hr rfl
    intro q hq
    refine ⟨hin q hq, ?_⟩
    obtain ⟨qr, qg, qb⟩ := hC q hq
    show nearSeed img seed tol q = true
    unfold nearSeed pixelMatch
    rw [sr, sg, sb, qr, qg, qb]
    simp only [Option.map_some', colorMatch, distSq, Int.ofNat_eq_coe]
    have : (((cR : Int) - cR) ^ 2 + ((cG : Int) - cG) ^ 2 + ((cB : Int) - cB) ^ 2 : Int) = 0 := by
      ring
    rw [this]
    exact withinTol_zero htol

/-! ## Array accesses stay in bounds -/

theorem removeBackgroundBodyAccesses_inBounds (width height : Nat) (tR tG tB : Option Int)
    (tol : ℚ) (x y : Int) (d v : List Nat) (hc : InGrid width height (x, y)) :
    ∀ a ∈ removeBackgroundBodyAccesses width tR tG tB tol x y d v,
      Access.InBounds width height a := by
  have h0 := pixelIdx_nonneg hc
  have h1 := pixelIdx_lt hc
  unfold pixelIdx at h0 h1
  simp only at h0 h1
  have hv : Access.InBounds width height (Access.visited (y * width + x)) := ⟨h0, h1⟩
  have hd : ∀ k : Int, 0 ≤ k → k < 4 →
      Access.InBounds width height (Access.data ((y * width + x) * 4 + k)) := by
    intro k k0 k4
    refine ⟨by omega, ?_⟩
    push_cast at h1 ⊢
    omega
  intro a ha
  unfold removeBackgroundBodyAccesses at ha
  simp only at ha
  split at ha
  · rw [List.mem_singleton.mp ha]; exact hv
  · simp only [List.cons_append, List.nil_append, List.mem_cons] at ha
    rcases ha with h | h | h | h | h | h
    · rw [h]; exact hv
    · rw [h]; exact hv
    · rw [h]; simpa using hd 0 (by omega) (by omega)
    · rw [h]; exact hd 1 (by omega) (by omega)
    · rw [h]; exact hd 2 (by omega) (by omega)
    · split at h
      · rw [List.mem_singleton.mp h]; exact hd 3 (by omega) (by omega)
      · simp at h

theorem floodFillBodyAccesses_inBounds (width height : Nat) (tR tG tB : Option Int)
    (tol : ℚ) (x y : Int) (d v : List Nat) :
    ∀ a ∈ floodFillBodyAccesses width height tR tG tB tol x y d v,
      Access.InBounds width height a := by
  intro a ha
  unfold floodFillBodyAccesses at ha
  simp only at ha
  split at ha
  · simp at ha
  · rename_i hout
    have hc : InGrid width height (x, y) := by
      refine ⟨?_, ?_, ?_, ?_⟩ <;> simp only <;> omega
    have h0 := pixelIdx_nonneg hc
    have h1 := pixelIdx_lt hc
    unfold pixelIdx at h0 h1
    simp only at h0 h1
    have hv : Access.InBounds width height (Access.visited (y * width + x)) := ⟨h0, h1⟩
    have hd : ∀ k : Int, 0 ≤ k → k < 4 →
        Access.InBounds width height (Access.data ((y * width + x) * 4 + k)) := by
      intro k k0 k4
      refine ⟨by omega, ?_⟩
      push_cast at h1 ⊢
      omega
    split at ha
    · rw [List.mem_singleton.mp ha]; exact hv
    · simp only [List.cons_append, List.nil_append, List.mem_cons] at ha
      rcases ha with h | h | h | h | h
      · rw [h]; exact hv
      · rw [h]; simpa using hd 0 (by omega) (by omega)
      · rw [h]; exact hd 1 (by omega) (by omega)
      · rw [h]; exact hd 2 (by omega) (by omega)
      · split at h
        · simp only [List.mem_cons, List.mem_singleton, List.not_mem_nil, or_false] at h
          rcases h with h | h
          · rw [h]; exact hd 3 (by omega) (by omega)
          · rw [h]; exact hv
        · simp at h

theorem removeBackgroundLoopAccesses_inBounds {img : ImageData} (hwf : img.WF)
    (tR tG tB : Option Int) (tol : ℚ) (seed : Int × Int) :
    ∀ (fuel : Nat) (s : FillState),
      FillInv img (fun p => pixelMatch img tR tG tB tol p = true) seed s →
      (∀ c ∈ s.frontier, InGrid img.width img.height c) →
      ∀ a ∈ removeBackgroundLoopAccesses img.width img.height tR tG tB tol fuel s,
        Access.InBounds img.width img.height a := by
  intro fuel
  induction fuel with
  | zero =>
    intro s _ _ a ha
    obtain ⟨d, v, f⟩ := s
    cases f <;> simp [removeBackgroundLoopAccesses] at ha
  | succ n ih =>
    intro s hI hg a ha
    obtain ⟨d, v, f⟩ := s
    cases f with
    | nil => simp [removeBackgroundLoopAccesses] at ha
    | cons c f =>
      obtain ⟨x, y⟩ := c
      simp only [removeBackgroundLoopAccesses, List.mem_append] at ha
      rcases ha with h | h
      · exact removeBackgroundBodyAccesses_inBounds _ _ _ _ _ _ x y d v
          (hg _ (List.mem_cons_self _ _)) a h
      · have hstep := removeBackgroundBody_inv hwf tR tG tB tol seed d v x y f hI hg
        exact ih _ hstep.1 hstep.2 a h

theorem floodFillLoopAccesses_inBounds (width height : Nat) (tR tG tB : Option Int)
    (tol : ℚ) :
    ∀ (fuel : Nat) (s : FillState),
      ∀ a ∈ floodFillLoopAccesses width height tR tG tB tol fuel s,
        Access.InBounds width height a := by
  intro fuel
  induction fuel with
  | zero =>
    intro s a ha
    obtain ⟨d, v, f⟩ := s
    cases f <;> simp [floodFillLoopAccesses] at ha
  | succ n ih =>
    intro s a ha
    obtain ⟨d, v, f⟩ := s
    cases f with
    | nil => simp [floodFillLoopAccesses] at ha
    | cons c f =>
      obtain ⟨x, y⟩ := c
      simp only [floodFillLoopAccesses, List.mem_append] at ha
      rcases ha with h | h
      · exact floodFillBodyAccesses_inBounds _ _ _ _ _ _ x y d v a h
      · exact ih _ a h

/-- The reads at the seed are in bounds. -/
theorem seed_reads_inBounds {width height : Nat} {sx sy : Int}
    (hseed : InGrid width height (sx, sy)) (k : Int) (k0 : 0 ≤ k) (k4 : k < 4) :
    Access.InBounds width height (Access.data ((sy * width + sx) * 4 + k)) := by
  have h0 := pixelIdx_nonneg hseed
  have h1 := pixelIdx_lt hseed
  unfold pixelIdx at h0 h1
  simp only at h0 h1
  refine ⟨by omega, ?_⟩
  push_cast at h1 ⊢
  omega

/-! ## More consequences of the region description -/

theorem cleared_mono {img : ImageData} {seed : Int × Int} {t1 t2 : ℚ} {o1 o2 : ImageData}
    (c1 : IsRegionCleared img seed t1 o1) (c2 : IsRegionCleared img seed t2 o2)
    (h1 : 0 ≤ t1) (h12 : t1 ≤ t2) (p : Int × Int) (hp : InGrid img.width img.height p)
    (h : alphaAt img.width o1.data p = some 0) : alphaAt img.width o2.data p = some 0 := by
  by_cases hr2 : Region img seed t2 p
  · exact (c2.2.2.2 p hp).1 hr2
  · have hr1 : ¬ Region img seed t1 p := fun hr => hr2 (region_mono h1 h12 hr)
    rw [(c2.2.2.2 p hp).2 hr2, ← (c1.2.2.2 p hp).2 hr1]
    exact h

theorem cleared_fixed {img : ImageData} {seed : Int × Int} {tol : ℚ} {out : ImageData}
    (c : IsRegionCleared img seed tol out) : IsRegionCleared out seed tol out := by
  obtain ⟨hw, hh, hfr, hal⟩ := c
  refine ⟨rfl, rfl, alphaCleared_refl _, ?_⟩
  intro p hp
  rw [hw, hh] at hp
  refine ⟨fun hr => ?_, fun _ => rfl⟩
  rw [hw]
  exact (hal p hp).1 ((region_congr hw hh hfr seed tol p).mp hr)

theorem onlyAlphaDiffers_of_frame {img out : ImageData}
    (h : out.width = img.width ∧ out.height = img.height ∧ AlphaCleared img.data out.data) :
    OnlyAlphaDiffers img out :=
  ⟨h.1, h.2.1, (alphaCleared_nat h.2.2).1, (alphaCleared_nat h.2.2).2.1⟩

theorem alphaLowered_of_frame {img out : ImageData} (h : AlphaCleared img.data out.data) :
    AlphaLowered img out := by
  intro k
  have hk := (alphaCleared_nat h).2.2 (4 * k + 3)
  refine ⟨?_, ?_, ?_⟩
  · rcases hk with h' | ⟨_, h'⟩
    · exact Or.inl h'
    · exact Or.inr h'
  · intro h0
    rcases hk with h' | ⟨_, h'⟩
    · rw [h', h0]
    · exact h'
  · intro u v hu hv
    rcases hk with h' | ⟨_, h'⟩
    · rw [h', hu] at hv
      exact le_of_eq (Option.some.inj hv).symm
    · rw [h'] at hv
      rw [← Option.some.inj hv]
      exact Nat.zero_le _

/-! ## The test of the code and the exact distance -/

theorem pixelMatch_of_hasColor {img : ImageData} {p : Int × Int} {r g b : Nat}
    (hc : HasColor img p r g b) (tR tG tB : Int) (tol : ℚ) :
    pixelMatch img (some tR) (some tG) (some tB) tol p =
      withinTol (distSq r g b tR tG tB) tol := by
  obtain ⟨h1, h2, h3⟩ := hc
  unfold pixelMatch
  rw [h1, h2, h3]
  rfl

theorem hasColor_exists {img : ImageData} (hwf : img.WF) {p : Int × Int}
    (hp : InGrid img.width img.height p) : ∃ r g b, HasColor img p r g b := by
  have h0 := pixelIdx_nonneg hp
  have h1 := pixelIdx_lt hp
  have hlen := hwf.2.2.1
  obtain ⟨r, hr⟩ := readAt_isSome (d := img.data) (i := pixelIdx img.width p * 4)
    (by omega) (by rw [hlen]; push_cast at h1 ⊢; omega)
  obtain ⟨g, hg⟩ := readAt_isSome (d := img.data) (i := pixelIdx img.width p * 4 + 1)
    (by omega) (by rw [hlen]; push_cast at h1 ⊢; omega)
  obtain ⟨b, hb⟩ := readAt_isSome (d := img.data) (i := pixelIdx img.width p * 4 + 2)
    (by omega) (by rw [hlen]; push_cast at h1 ⊢; omega)
  exact ⟨r, g, b, hr, hg, hb⟩

theorem nearSeed_of_hasColor {img : ImageData} {seed : Int × Int} {cR cG cB : Nat}
    (hc : HasColor img seed cR cG cB) (tol : ℚ) (p : Int × Int) :
    nearSeed img seed tol p = pixelMatch img (some cR) (some cG) (some cB) tol p := by
  obtain ⟨h1, h2, h3⟩ := hc
  unfold nearSeed
  rw [h1, h2, h3]
  simp only [Option.map_some', Int.ofNat_eq_coe]

theorem distSq_le {r g b tR tG tB : Nat} (hr : r ≤ 255) (hg : g ≤ 255) (hb : b ≤ 255)
    (hR : tR ≤ 255) (hG : tG ≤ 255) (hB : tB ≤ 255) :
    0 ≤ distSq r g b tR tG tB ∧ distSq r g b tR tG tB ≤ 195075 := by
  unfold distSq
  have sq : ∀ a c : Nat, a ≤ 255 → c ≤ 255 →
      0 ≤ ((a : Int) - c) ^ 2 ∧ ((a : Int) - c) ^ 2 ≤ 65025 := by
    intro a c ha hc
    have h1 : (a : Int) - c ≤ 255 := by omega
    have h2 : -255 ≤ (a : Int) - c := by omega
    constructor
    · positivity
    · nlinarith
  have h1 := sq r tR hr hR
  have h2 := sq g tG hg hG
  have h3 := sq b tB hb hB
  omega

theorem readAt_mem {d : List Nat} {i : Int} {v : Nat} (h : readAt d i = some v) : v ∈ d := by
  unfold readAt at h
  split at h
  · exact List.getElem?_mem h
  · simp at h

theorem hasColor_le {img : ImageData} (hwf : img.WF) {p : Int × Int} {r g b : Nat}
    (hc : HasColor img p r g b) : r ≤ 255 ∧ g ≤ 255 ∧ b ≤ 255 := by
  obtain ⟨h1, h2, h3⟩ := hc
  have hb := hwf.2.2.2
  have k1 := hb r (readAt_mem h1)
  have k2 := hb g (readAt_mem h2)
  have k3 := hb b (readAt_mem h3)
  omega

/-- On a well-formed buffer, a pixel within the exact distance of the seed's
colour passes the test of the code. -/
theorem nearSeed_of_exactNear {img : ImageData} (hwf : img.WF) {seed p : Int × Int} {tol : ℚ}
    (htol : 0 ≤ tol) (h : exactNear img seed tol p) : nearSeed img seed tol p = true := by
  obtain ⟨r, g, b, sR, sG, sB, hp, hs, hd⟩ := h
  rw [nearSeed_of_hasColor hs, pixelMatch_of_hasColor hp]
  obtain ⟨a1, a2, a3⟩ := hasColor_le hwf hp
  obtain ⟨b1, b2, b3⟩ := hasColor_le hwf hs
  have hb := distSq_le a1 a2 a3 b1 b2 b3
  exact withinTol_of_le_sq hb.1 (lt_of_le_of_lt hb.2 (by norm_num)) htol hd

/-- On a well-formed buffer, a pixel of the grid that passes the test of the
code is within the exact distance `tol * (1 + 2^-50)` of the seed's colour. -/
theorem exactNear_of_nearSeed {img : ImageData} (hwf : img.WF) {seed p : Int × Int} {tol : ℚ}
    (htol : 0 ≤ tol) (hseed : InGrid img.width img.height seed)
    (hp : InGrid img.width img.height p) (h : nearSeed img seed tol p = true) :
    exactNear img seed (tol * (1 + 1 / 2 ^ 50)) p := by
  obtain ⟨r, g, b, hc⟩ := hasColor_exists hwf hp
  obtain ⟨sR, sG, sB, hs⟩ := hasColor_exists hwf hseed
  rw [nearSeed_of_hasColor hs, pixelMatch_of_hasColor hc] at h
  refine ⟨r, g, b, sR, sG, sB, hc, hs, ?_⟩
  have h1 := le_sq_of_withinTol htol h
  have h2 : tol * tol * (1 + 1 / 2 ^ 50) ≤ tol * (1 + 1 / 2 ^ 50) * (tol * (1 + 1 / 2 ^ 50)) := by
    have e : tol * (1 + 1 / 2 ^ 50) * (tol * (1 + 1 / 2 ^ 50)) =
        tol * tol * (1 + 1 / 2 ^ 50) * (1 + 1 / 2 ^ 50) := by ring
    rw [e]
    exact le_mul_of_one_le_right (mul_nonneg (mul_nonneg htol htol) (by norm_num))
      (by norm_num)
  exact h1.trans h2

/-- The region of the code lies between the exact regions for the tolerance and
for the tolerance enlarged by the relative rounding error `2^-50`. -/
theorem connected_between_exact {img : ImageData} (hwf : img.WF) {seed : Int × Int} {tol : ℚ}
    (htol : 0 ≤ tol) (hseed : InGrid img.width img.height seed) (p : Int × Int) :
    (ExactConnected img seed tol p → Connected img seed tol p) ∧
    (Connected img seed tol p → ExactConnected img seed (tol * (1 + 1 / 2 ^ 50)) p) := by
  constructor
  · rintro ⟨path, h1, h2, h3, h4⟩
    exact ⟨path, h1, h2, h3,
      fun q hq => ⟨(h4 q hq).1, nearSeed_of_exactNear hwf htol (h4 q hq).2⟩⟩
  · rintro ⟨path, h1, h2, h3, h4⟩
    exact ⟨path, h1, h2, h3,
      fun q hq => ⟨(h4 q hq).1, exactNear_of_nearSeed hwf htol hseed (h4 q hq).1 (h4 q hq).2⟩⟩

/-- On the 2×1 buffer black, `(1, 1, 1)`, the right pixel is not connected to
the left one through pixels within the exact distance `Math.sqrt(3)`. -/
theorem not_exactConnected_near : ¬ ExactConnected img2x1Near (0, 0) sqrt3Double (1, 0) := by
  rintro ⟨path, _, hl, _, hall⟩
  have hmem : ((1, 0) : Int × Int) ∈ path := List.mem_of_getLast?_eq_some hl
  obtain ⟨_, r, g, b, sR, sG, sB, hp, hs, hd⟩ := hall _ hmem
  have e1 : r = 1 ∧ g = 1 ∧ b = 1 := by
    obtain ⟨h1, h2, h3⟩ := hp
    have k1 : readAt img2x1Near.data (pixelIdx img2x1Near.width (1, 0) * 4) = some 1 := by decide
    have k2 : readAt img2x1Near.data (pixelIdx img2x1Near.width (1, 0) * 4 + 1) = some 1 := by
      decide
    have k3 : readAt img2x1Near.data (pixelIdx img2x1Near.width (1, 0) * 4 + 2) = some 1 := by
      decide
    rw [k1] at h1
    rw [k2] at h2
    rw [k3] at h3
    exact ⟨(Option.some.inj h1).symm, (Option.some.inj h2).symm, (Option.some.inj h3).symm⟩
  have e2 : sR = 0 ∧ sG = 0 ∧ sB = 0 := by
    obtain ⟨h1, h2, h3⟩ := hs
    have k1 : readAt img2x1Near.data (pixelIdx img2x1Near.width (0, 0) * 4) = some 0 := by decide
    have k2 : readAt img2x1Near.data (pixelIdx img2x1Near.width (0, 0) * 4 + 1) = some 0 := by
      decide
    have k3 : readAt img2x1Near.data (pixelIdx img2x1Near.width (0, 0) * 4 + 2) = some 0 := by
      decide
    rw [k1] at h1
    rw [k2] at h2
    rw [k3] at h3
    exact ⟨(Option.some.inj h1).symm, (Option.some.inj h2).symm, (Option.some.inj h3).symm⟩
  obtain ⟨rfl, rfl, rfl⟩ := e1
  obtain ⟨rfl, rfl, rfl⟩ := e2
  have : sqrt3Double * sqrt3Double <
      ((distSq (1 : Nat) (1 : Nat) (1 : Nat) (0 : Nat) (0 : Nat) (0 : Nat) : Int) : ℚ) := by
    decide!
  exact absurd hd (not_le.mpr this)

/-! ## Claims -/

/-- C1, counterexample: on the 2×1 buffer made of a black pixel and a pixel of
colour `(1, 1, 1)`, seeded at the black pixel with the tolerance `Math.sqrt(3)`,
a double whose square is less than `3`, `removeBackground` clears the right
pixel, although its Euclidean distance `√3` from the seed's colour is more than
the tolerance. -/
theorem removeBackground_clears_beyond_distance :
    img2x1Near.WF ∧ InGrid img2x1Near.width img2x1Near.height (0, 0) ∧
    (0 : ℚ) ≤ sqrt3Double ∧ sqrtDouble 3 = sqrt3Double ∧
    roundDouble sqrt3Double = sqrt3Double ∧
    sqrt3Double * sqrt3Double <
      ((distSq (1 : Nat) (1 : Nat) (1 : Nat) (0 : Nat) (0 : Nat) (0 : Nat) : Int) : ℚ) ∧
    removeBackground 9 img2x1Near 0 0 sqrt3Double = some ⟨2, 1, [0, 0, 0, 0, 1, 1, 1, 0]⟩ ∧
    alphaAt img2x1Near.width img2x1Near.data (1, 0) = some 255 ∧
    ¬ ExactConnected img2x1Near (0, 0) sqrt3Double (1, 0) :=
  ⟨by decide, by decide, by decide!, by decide!, by decide!, by decide!, by decide!,
    by decide!, not_exactConnected_near⟩

/-- C1, amended: on a well-formed buffer, with the seed inside the grid and a
tolerance that is not negative, `removeBackground` returns, and in the buffer
it returns the alpha of every pixel `p` of the grid is `0` when `p` is
connected to the seed by a path of 4-connected pixels of the grid whose RGB
passes the test `Math.sqrt(...) <= tolerance` as the code computes it, with
the square root rounded to a double, and is the alpha `p` had before the call
otherwise. A pixel connected to the seed through pixels within the exact
distance `tolerance` is connected in this sense, and a pixel connected in
this sense is connected through pixels within the exact distance
`tolerance * (1 + 2^-50)`. -/
theorem removeBackground_clears_exactly_region (img : ImageData) (startX startY : Int)
    (tolerance : ℚ) (hwf : img.WF) (hseed : InGrid img.width img.height (startX, startY))
    (htol : 0 ≤ tolerance) :
    (∃ out, removeBackground (4 * (img.width * img.height) + 1) img startX startY tolerance =
      some out) ∧
    (∀ fuel out, removeBackground fuel img startX startY tolerance = some out →
      ∀ p, InGrid img.width img.height p →
        (Connected img (startX, startY) tolerance p →
          alphaAt img.width out.data p = some 0) ∧
        (¬ Connected img (startX, startY) tolerance p →
          alphaAt img.width out.data p = alphaAt img.width img.data p)) ∧
    (∀ p, (ExactConnected img (startX, startY) tolerance p →
        Connected img (startX, startY) tolerance p) ∧
      (Connected img (startX, startY) tolerance p →
        ExactConnected img (startX, startY) (tolerance * (1 + 1 / 2 ^ 50)) p)) := by
  refine ⟨removeBackground_returns hwf hseed tolerance _ (le_refl _), ?_,
    connected_between_exact hwf htol hseed⟩
  intro fuel out h p hp
  have c := removeBackground_cleared hwf hseed h
  rw [← region_iff_connected]
  exact c.2.2.2 p hp

/-- C1, amended, witness: the 3×3 black buffer with a white centre, seed `(0, 0)`,
tolerance `10`: the eight border pixels get alpha `0`, the centre keeps `255`. -/
theorem removeBackground_clears_exactly_region_witness :
    img3x3.WF ∧ InGrid img3x3.width img3x3.height (0, 0) ∧ (0 : ℚ) ≤ 10 ∧
    removeBackground 37 img3x3 0 0 10 = some img3x3Cleared ∧
    ((∃ out, removeBackground (4 * (img3x3.width * img3x3.height) + 1) img3x3 0 0 10 =
      some out) ∧
    ∀ fuel out, removeBackground fuel img3x3 0 0 10 = some out →
      ∀ p, InGrid img3x3.width img3x3.height p →
        (Connected img3x3 (0, 0) 10 p → alphaAt img3x3.width out.data p = some 0) ∧
        (¬ Connected img3x3 (0, 0) 10 p →
          alphaAt img3x3.width out.data p = alphaAt img3x3.width img3x3.data p)) :=
  ⟨by decide, by decide, by norm_num, by decide!,
    (removeBackground_clears_exactly_region img3x3 0 0 10 (by decide) (by decide)
      (by norm_num)).1,
    (removeBackground_clears_exactly_region img3x3 0 0 10 (by decide) (by decide)
      (by norm_num)).2.1⟩

/-- C2, counterexample: on the 2×1 buffer made of a black pixel and a pixel of
colour `(1, 1, 1)`, seeded at the black pixel, which is opaque, with the
tolerance `Math.sqrt(3)`, a double whose square is less than `3`, `floodFill`
clears the right pixel, although its distance `√3` from the seed's colour is
more than the tolerance. -/
theorem floodFill_clears_beyond_distance :
    img2x1Near.WF ∧ InGrid img2x1Near.width img2x1Near.height (0, 0) ∧
    alphaAt img2x1Near.width img2x1Near.data (0, 0) ≠ some 0 ∧
    (0 : ℚ) ≤ sqrt3Double ∧ sqrtDouble 3 = sqrt3Double ∧
    roundDouble sqrt3Double = sqrt3Double ∧
    sqrt3Double * sqrt3Double <
      ((distSq (1 : Nat) (1 : Nat) (1 : Nat) (0 : Nat) (0 : Nat) (0 : Nat) : Int) : ℚ) ∧
    withinTol (distSq (1 : Nat) (1 : Nat) (1 : Nat) (0 : Nat) (0 : Nat) (0 : Nat))
      sqrt3Double = true ∧
    floodFill 9 img2x1Near 0 0 sqrt3Double = some ⟨2, 1, [0, 0, 0, 0, 1, 1, 1, 0]⟩ ∧
    alphaAt img2x1Near.width img2x1Near.data (1, 0) = some 255 ∧
    ¬ ExactConnected img2x1Near (0, 0) sqrt3Double (1, 0) :=
  ⟨by decide, by decide, by decide, by decide!, by decide!, by decide!, by decide!, by decide!,
    by decide!, by decide!, not_exactConnected_near⟩

/-- C2, amended: on a well-formed buffer, with the seed inside the grid and not
transparent and a tolerance that is not negative, `floodFill` returns, and in
the buffer it returns the alpha of a pixel of the grid is `0` when the pixel
is connected to the seed through 4-connected pixels of the grid whose RGB
passes the test `Math.sqrt(...) <= tolerance` as the code computes it, with
the square root rounded to a double, and is the alpha it had before
otherwise. In particular, when a rectangle of colour `C` containing the seed
is surrounded by a colour `D` that fails this test against `C`, the pixels of
the rectangle get alpha `0` and every other pixel keeps its alpha. A pixel
connected to the seed through pixels within the exact distance `tolerance` is
connected in this sense, and a pixel connected in this sense is connected
through pixels within the exact distance `tolerance * (1 + 2^-50)`. -/
theorem floodFill_clears_exactly_region (img : ImageData) (startX startY : Int)
    (tolerance : ℚ) (hwf : img.WF) (hseed : InGrid img.width img.height (startX, startY))
    (hα : alphaAt img.width img.data (startX, startY) ≠ some 0) (htol : 0 ≤ tolerance) :
    (∃ out, floodFill (4 * (img.width * img.height) + 1) img startX startY tolerance =
      some out) ∧
    (∀ fuel out, floodFill fuel img startX startY tolerance = some out →
      (∀ p, InGrid img.width img.height p →
        (Connected img (startX, startY) tolerance p →
          alphaAt img.width out.data p = some 0) ∧
        (¬ Connected img (startX, startY) tolerance p →
          alphaAt img.width out.data p = alphaAt img.width img.data p)) ∧
      (∀ (x0 y0 x1 y1 : Int) (cR cG cB dR dG dB : Nat),
        (∀ p, InRect x0 y0 x1 y1 p → InGrid img.width img.height p) →
        (∀ p, InRect x0 y0 x1 y1 p → HasColor img p cR cG cB) →
        (∀ p, InGrid img.width img.height p → ¬ InRect x0 y0 x1 y1 p →
          HasColor img p dR dG dB) →
        withinTol (distSq dR dG dB cR cG cB) tolerance = false →
        InRect x0 y0 x1 y1 (startX, startY) →
        ∀ p, InGrid img.width img.height p →
          (InRect x0 y0 x1 y1 p → alphaAt img.width out.data p = some 0) ∧
          (¬ InRect x0 y0 x1 y1 p →
            alphaAt img.width out.data p = alphaAt img.width img.data p))) ∧
    (∀ p, (ExactConnected img (startX, startY) tolerance p →
        Connected img (startX, startY) tolerance p) ∧
      (Connected img (startX, startY) tolerance p →
        ExactConnected img (startX, startY) (tolerance * (1 + 1 / 2 ^ 50)) p)) := by
  refine ⟨floodFill_returns img startX startY tolerance _ (le_refl _), ?_,
    connected_between_exact hwf htol hseed⟩
  intro fuel out h
  have c := floodFill_cleared hwf hα h
  constructor
  · intro p hp
    rw [← region_iff_connected]
    exact c.2.2.2 p hp
  · intro x0 y0 x1 y1 cR cG cB dR dG dB hin hC hD hfar hs p hp
    rw [← region_rect htol x0 y0 x1 y1 cR cG cB dR dG dB hin hC hD hfar hs p]
    exact c.2.2.2 p hp

/-- C2, amended, witness: the 3×3 black buffer with a white centre, seeded at the
centre with tolerance `10`: only the centre pixel is cleared. -/
theorem floodFill_clears_exactly_region_witness :
    img3x3.WF ∧ InGrid img3x3.width img3x3.height (1, 1) ∧
    alphaAt img3x3.width img3x3.data (1, 1) ≠ some 0 ∧ (0 : ℚ) ≤ 10 ∧
    floodFill 5 img3x3 1 1 10 =
      some ⟨3, 3, [0, 0, 0, 255, 0, 0, 0, 255, 0, 0, 0, 255,
                   0, 0, 0, 255, 255, 255, 255, 0, 0, 0, 0, 255,
                   0, 0, 0, 255, 0, 0, 0, 255, 0, 0, 0, 255]⟩ ∧
    ∀ fuel out, floodFill fuel img3x3 1 1 10 = some out →
      ∀ p, InGrid img3x3.width img3x3.height p →
        ((Connected img3x3 (1, 1) 10 p → alphaAt img3x3.width out.data p = some 0) ∧
         (¬ Connected img3x3 (1, 1) 10 p →
          alphaAt img3x3.width out.data p = alphaAt img3x3.width img3x3.data p)) ∧
        ((InRect 1 1 2 2 p → alphaAt img3x3.width out.data p = some 0) ∧
         (¬ InRect 1 1 2 2 p →
          alphaAt img3x3.width out.data p = alphaAt img3x3.width img3x3.data p)) := by
  refine ⟨by decide, by decide, by decide, by norm_num, by decide!, ?_⟩
  intro fuel out h p hp
  have hthm := (floodFill_clears_exactly_region img3x3 1 1 10 (by decide) (by decide)
    (by decide) (by norm_num)).2.1 fuel out h
  refine ⟨hthm.1 p hp, hthm.2 1 1 2 2 255 255 255 0 0 0 ?_ ?_ ?_ (by decide!) (by decide) p hp⟩
  · rintro ⟨x, y⟩ ⟨h1, h2, h3, h4⟩
    simp only at h1 h2 h3 h4
    have hx : x = 1 := by omega
    have hy : y = 1 := by omega
    subst hx; subst hy
    decide
  · rintro ⟨x, y⟩ ⟨h1, h2, h3, h4⟩
    simp only at h1 h2 h3 h4
    have hx : x = 1 := by omega
    have hy : y = 1 := by omega
    subst hx; subst hy
    decide
  · rintro ⟨x, y⟩ ⟨h1, h2, h3, h4⟩ hnr
    simp only [img3x3] at h1 h2 h3 h4
    have hx : x = 0 ∨ x = 1 ∨ x = 2 := by omega
    have hy : y = 0 ∨ y = 1 ∨ y = 2 := by omega
    rcases hx with rfl | rfl | rfl <;> rcases hy with rfl | rfl | rfl <;>
      first
        | decide
        | exact absurd (by decide) hnr

/-- C3, counterexample: on the 2×1 buffer whose left pixel is transparent black
and whose right pixel is opaque black, seeded at the left pixel with tolerance
`0`, `removeBackground` clears the right pixel while `floodFill` returns the
buffer unchanged. -/
theorem removeBackground_floodFill_differ :
    img2x1.WF ∧ InGrid img2x1.width img2x1.height (0, 0) ∧ (0 : ℚ) ≤ 0 ∧
    removeBackground 9 img2x1 0 0 0 = some ⟨2, 1, [0, 0, 0, 0, 0, 0, 0, 0]⟩ ∧
    floodFill 9 img2x1 0 0 0 = some img2x1 ∧
    removeBackground 9 img2x1 0 0 0 ≠ floodFill 9 img2x1 0 0 0 :=
  ⟨by decide, by decide, le_refl _, by decide!, by decide!, by decide!⟩

/-- C3, amended: on a well-formed buffer, with the seed inside the grid and not
transparent and a tolerance that is not negative, `removeBackground` and
`floodFill` both return and return the same buffer. -/
theorem removeBackground_eq_floodFill_of_opaque_seed (img : ImageData) (startX startY : Int)
    (tolerance : ℚ) (hwf : img.WF) (hseed : InGrid img.width img.height (startX, startY))
    (_htol : 0 ≤ tolerance) (hα : alphaAt img.width img.data (startX, startY) ≠ some 0) :
    (∃ out, removeBackground (4 * (img.width * img.height) + 1) img startX startY tolerance =
        some out ∧
      floodFill (4 * (img.width * img.height) + 1) img startX startY tolerance = some out) ∧
    ∀ fuel fuel' out out', removeBackground fuel img startX startY tolerance = some out →
      floodFill fuel' img startX startY tolerance = some out' → out = out' := by
  have key : ∀ fuel fuel' out out',
      removeBackground fuel img startX startY tolerance = some out →
      floodFill fuel' img startX startY tolerance = some out' → out = out' := by
    intro fuel fuel' out out' h h'
    exact isRegionCleared_unique hwf (removeBackground_cleared hwf hseed h)
      (floodFill_cleared hwf hα h')
  refine ⟨?_, key⟩
  obtain ⟨o1, h1⟩ := removeBackground_returns hwf hseed tolerance _ (le_refl _)
  obtain ⟨o2, h2⟩ := floodFill_returns img startX startY tolerance _ (le_refl _)
  refine ⟨o1, h1, ?_⟩
  rw [key _ _ _ _ h1 h2]
  exact h2

/-- C3, amended, witness: the 3×3 buffer seeded at its opaque corner. -/
theorem removeBackground_eq_floodFill_of_opaque_seed_witness :
    img3x3.WF ∧ InGrid img3x3.width img3x3.height (0, 0) ∧ (0 : ℚ) ≤ 10 ∧
    alphaAt img3x3.width img3x3.data (0, 0) ≠ some 0 ∧
    removeBackground 37 img3x3 0 0 10 = floodFill 37 img3x3 0 0 10 ∧
    ∀ fuel fuel' out out', removeBackground fuel img3x3 0 0 10 = some out →
      floodFill fuel' img3x3 0 0 10 = some out' → out = out' :=
  ⟨by decide, by decide, by norm_num, by decide, by decide!,
    (removeBackground_eq_floodFill_of_opaque_seed img3x3 0 0 10 (by decide) (by decide)
      (by norm_num) (by decide)).2⟩

/-- C4: when the seed pixel's alpha is `0`, `floodFill` returns the buffer it
was given, every byte unchanged, whatever the tolerance and the budget. -/
theorem floodFill_transparent_seed_noop (img : ImageData) (startX startY : Int)
    (tolerance : ℚ) (_hwf : img.WF) (_hseed : InGrid img.width img.height (startX, startY))
    (hα : alphaAt img.width img.data (startX, startY) = some 0) (fuel : Nat) :
    floodFill fuel img startX startY tolerance = some img :=
  floodFill_transparent fuel img startX startY tolerance hα

/-- C4, witness: the 2×1 buffer seeded at its transparent pixel; the opaque
neighbour of the same colour is not modified. -/
theorem floodFill_transparent_seed_noop_witness :
    img2x1.WF ∧ InGrid img2x1.width img2x1.height (0, 0) ∧
    alphaAt img2x1.width img2x1.data (0, 0) = some 0 ∧
    floodFill 0 img2x1 0 0 0 = some img2x1 :=
  ⟨by decide, by decide, by decide,
    floodFill_transparent_seed_noop img2x1 0 0 0 (by decide) (by decide) (by decide) 0⟩

/-- C5: on a well-formed buffer with the seed inside the grid, for tolerances
`0 ≤ t1 ≤ t2`, both entry points return for both tolerances, and every pixel
whose alpha is `0` after the run with `t1` has alpha `0` after the run of the
same entry point with `t2` on the same buffer and seed. -/
theorem cleared_pixels_grow_with_tolerance (img : ImageData) (startX startY : Int)
    (t1 t2 : ℚ) (hwf : img.WF) (hseed : InGrid img.width img.height (startX, startY))
    (h1 : 0 ≤ t1) (h12 : t1 ≤ t2) :
    ((∃ o1 o2, removeBackground (4 * (img.width * img.height) + 1) img startX startY t1 =
          some o1 ∧
        removeBackground (4 * (img.width * img.height) + 1) img startX startY t2 = some o2) ∧
      ∀ fuel fuel' o1 o2, removeBackground fuel img startX startY t1 = some o1 →
        removeBackground fuel' img startX startY t2 = some o2 →
        ∀ p, InGrid img.width img.height p →
          alphaAt img.width o1.data p = some 0 → alphaAt img.width o2.data p = some 0) ∧
    ((∃ o1 o2, floodFill (4 * (img.width * img.height) + 1) img startX startY t1 = some o1 ∧
        floodFill (4 * (img.width * img.height) + 1) img startX startY t2 = some o2) ∧
      ∀ fuel fuel' o1 o2, floodFill fuel img startX startY t1 = some o1 →
        floodFill fuel' img startX startY t2 = some o2 →
        ∀ p, InGrid img.width img.height p →
          alphaAt img.width o1.data p = some 0 → alphaAt img.width o2.data p = some 0) := by
  refine ⟨⟨?_, ?_⟩, ⟨?_, ?_⟩⟩
  · obtain ⟨o1, e1⟩ := removeBackground_returns hwf hseed t1 _ (le_refl _)
    obtain ⟨o2, e2⟩ := removeBackground_returns hwf hseed t2 _ (le_refl _)
    exact ⟨o1, o2, e1, e2⟩
  · intro fuel fuel' o1 o2 e1 e2 p hp h
    exact cleared_mono (removeBackground_cleared hwf hseed e1)
      (removeBackground_cleared hwf hseed e2) h1 h12 p hp h
  · obtain ⟨o1, e1⟩ := floodFill_returns img startX startY t1 _ (le_refl _)
    obtain ⟨o2, e2⟩ := floodFill_returns img startX startY t2 _ (le_refl _)
    exact ⟨o1, o2, e1, e2⟩
  · intro fuel fuel' o1 o2 e1 e2 p hp h
    by_cases hα : alphaAt img.width img.data (startX, startY) = some 0
    · have a1 := floodFill_unique e1 (floodFill_transparent fuel img startX startY t1 hα)
      have a2 := floodFill_unique e2 (floodFill_transparent fuel' img startX startY t2 hα)
      subst a1; subst a2
      exact h
    · exact cleared_mono (floodFill_cleared hwf hα e1) (floodFill_cleared hwf hα e2)
        h1 h12 p hp h

/-- C5, witness: the 3×1 buffer black, grey `(9, 9, 9)`, black seeded at the
left: tolerance `10` clears only the left pixel, tolerance `20` clears all three. -/
theorem cleared_pixels_grow_with_tolerance_witness :
    img3x1.WF ∧ InGrid img3x1.width img3x1.height (0, 0) ∧ (0 : ℚ) ≤ 10 ∧ (10 : ℚ) ≤ 20 ∧
    removeBackground 13 img3x1 0 0 10 = some ⟨3, 1, [0, 0, 0, 0, 9, 9, 9, 255, 0, 0, 0, 255]⟩ ∧
    removeBackground 13 img3x1 0 0 20 = some ⟨3, 1, [0, 0, 0, 0, 9, 9, 9, 0, 0, 0, 0, 0]⟩ ∧
    ∀ fuel fuel' o1 o2, floodFill fuel img3x1 0 0 10 = some o1 →
      floodFill fuel' img3x1 0 0 20 = some o2 →
      ∀ p, InGrid img3x1.width img3x1.height p →
        alphaAt img3x1.width o1.data p = some 0 → alphaAt img3x1.width o2.data p = some 0 :=
  ⟨by decide, by decide, by norm_num, by norm_num, by decide!, by decide!,
    (cleared_pixels_grow_with_tolerance img3x1 0 0 10 20 (by decide) (by decide)
      (by norm_num) (by norm_num)).2.2⟩

/-- C6: on a well-formed buffer with the seed inside the grid, for every
tolerance, each entry point returns a buffer on which a second call with the
same seed and tolerance returns that same buffer, byte for byte. For
`floodFill` with a tolerance that is not negative the seed is transparent
after the first call, so the second call returns at once. -/
theorem region_growing_idempotent (img : ImageData) (startX startY : Int) (tolerance : ℚ)
    (hwf : img.WF) (hseed : InGrid img.width img.height (startX, startY)) :
    (∃ out, removeBackground (4 * (img.width * img.height) + 1) img startX startY tolerance =
        some out ∧
      removeBackground (4 * (img.width * img.height) + 1) out startX startY tolerance =
        some out) ∧
    (∃ out, floodFill (4 * (img.width * img.height) + 1) img startX startY tolerance =
        some out ∧
      floodFill (4 * (img.width * img.height) + 1) out startX startY tolerance = some out ∧
      (0 ≤ tolerance → alphaAt out.width out.data (startX, startY) = some 0)) := by
  constructor
  · obtain ⟨out, e⟩ := removeBackground_returns hwf hseed tolerance _ (le_refl _)
    have c := removeBackground_cleared hwf hseed e
    have hwf' : out.WF := wf_of_alphaCleared hwf c.1 c.2.1 c.2.2.1
    have hseed' : InGrid out.width out.height (startX, startY) := by
      rw [c.1, c.2.1]; exact hseed
    obtain ⟨out2, e2⟩ := removeBackground_returns hwf' hseed' tolerance
      (4 * (img.width * img.height) + 1) (by rw [c.1, c.2.1])
    have c2 := removeBackground_cleared hwf' hseed' e2
    have : out2 = out := isRegionCleared_unique hwf' c2 (cleared_fixed c)
    rw [this] at e2
    exact ⟨out, e, e2⟩
  · obtain ⟨out, e⟩ := floodFill_returns img startX startY tolerance _ (le_refl _)
    refine ⟨out, e, ?_⟩
    by_cases hα : alphaAt img.width img.data (startX, startY) = some 0
    · have : out = img := floodFill_unique e (floodFill_transparent 0 img startX startY _ hα)
      rw [this]
      exact ⟨floodFill_transparent _ img startX startY _ hα, fun _ => hα⟩
    · have c := floodFill_cleared hwf hα e
      have hwf' : out.WF := wf_of_alphaCleared hwf c.1 c.2.1 c.2.2.1
      constructor
      · by_cases hα' : alphaAt out.width out.data (startX, startY) = some 0
        · exact floodFill_transparent _ out startX startY _ hα'
        · obtain ⟨out2, e2⟩ := floodFill_returns out startX startY tolerance
            (4 * (img.width * img.height) + 1) (by rw [c.1, c.2.1])
          have c2 := floodFill_cleared hwf' hα' e2
          have : out2 = out := isRegionCleared_unique hwf' c2 (cleared_fixed c)
          rw [this] at e2
          exact e2
      · intro htol
        rw [c.1]
        exact (c.2.2.2 _ hseed).1 (seed_mem_region hwf hseed htol)

/-- C6, witness: the 3×3 example; a second call on the cleared buffer returns
the cleared buffer, for `removeBackground` and for `floodFill`. -/
theorem region_growing_idempotent_witness :
    img3x3.WF ∧ InGrid img3x3.width img3x3.height (0, 0) ∧
    removeBackground 37 img3x3 0 0 10 = some img3x3Cleared ∧
    removeBackground 37 img3x3Cleared 0 0 10 = some img3x3Cleared ∧
    floodFill 37 img3x3 0 0 10 = some img3x3Cleared ∧
    floodFill 37 img3x3Cleared 0 0 10 = some img3x3Cleared ∧
    ((∃ out, removeBackground (4 * (img3x3.width * img3x3.height) + 1) img3x3 0 0 10 =
        some out ∧
      removeBackground (4 * (img3x3.width * img3x3.height) + 1) out 0 0 10 = some out) ∧
    (∃ out, floodFill (4 * (img3x3.width * img3x3.height) + 1) img3x3 0 0 10 = some out ∧
      floodFill (4 * (img3x3.width * img3x3.height) + 1) out 0 0 10 = some out ∧
      ((0 : ℚ) ≤ 10 → alphaAt out.width out.data (0, 0) = some 0))) :=
  ⟨by decide, by decide, by decide!, by decide!, by decide!, by decide!,
    region_growing_idempotent img3x3 0 0 10 (by decide) (by decide)⟩

/-- C7: on every buffer and every argument list, a buffer returned by
`removeBackground` or by `floodFill`, and the buffer returned by
`removeColorGlobal`, has the width, height and length of the argument, and
every byte at an offset that is not `3 mod 4` (the R, G and B bytes) is
unchanged. On a well-formed buffer with the seed inside the grid the two
region growers do return. -/
theorem only_alpha_bytes_change (img : ImageData) (startX startY : Int) (tolerance : ℚ)
    (targetR targetG targetB : Int) :
    (∀ fuel out, removeBackground fuel img startX startY tolerance = some out →
      OnlyAlphaDiffers img out) ∧
    (∀ fuel out, floodFill fuel img startX startY tolerance = some out →
      OnlyAlphaDiffers img out) ∧
    OnlyAlphaDiffers img (removeColorGlobal img targetR targetG targetB tolerance) ∧
    (img.WF → InGrid img.width img.height (startX, startY) →
      (∃ out, removeBackground (4 * (img.width * img.height) + 1) img startX startY
        tolerance = some out) ∧
      (∃ out, floodFill (4 * (img.width * img.height) + 1) img startX startY
        tolerance = some out)) := by
  refine ⟨?_, ?_, ?_, ?_⟩
  · intro fuel out h
    exact onlyAlphaDiffers_of_frame (removeBackground_frame h)
  · intro fuel out h
    exact onlyAlphaDiffers_of_frame (floodFill_frame h)
  · exact onlyAlphaDiffers_of_frame (removeColorGlobal_frame img targetR targetG targetB tolerance)
  · intro hwf hseed
    exact ⟨removeBackground_returns hwf hseed tolerance _ (le_refl _),
      floodFill_returns img startX startY tolerance _ (le_refl _)⟩

/-- C7, witness: on the 3×1 buffer the three functions return buffers that
differ from the argument only at alpha offsets. -/
theorem only_alpha_bytes_change_witness :
    removeBackground 13 img3x1 0 0 20 = some ⟨3, 1, [0, 0, 0, 0, 9, 9, 9, 0, 0, 0, 0, 0]⟩ ∧
    floodFill 13 img3x1 0 0 10 = some ⟨3, 1, [0, 0, 0, 0, 9, 9, 9, 255, 0, 0, 0, 255]⟩ ∧
    removeColorGlobal img3x1 0 0 0 10 = ⟨3, 1, [0, 0, 0, 0, 9, 9, 9, 255, 0, 0, 0, 0]⟩ ∧
    OnlyAlphaDiffers img3x1 ⟨3, 1, [0, 0, 0, 0, 9, 9, 9, 0, 0, 0, 0, 0]⟩ ∧
    OnlyAlphaDiffers img3x1 ⟨3, 1, [0, 0, 0, 0, 9, 9, 9, 255, 0, 0, 0, 255]⟩ ∧
    OnlyAlphaDiffers img3x1 (removeColorGlobal img3x1 0 0 0 10) :=
  ⟨by decide!, by decide!, by decide!,
    (only_alpha_bytes_change img3x1 0 0 20 0 0 0).1 13 _ (by decide!),
    (only_alpha_bytes_change img3x1 0 0 10 0 0 0).2.1 13 _ (by decide!),
    (only_alpha_bytes_change img3x1 0 0 10 0 0 0).2.2.1⟩

/-- C8: on every buffer and every argument list, in a buffer returned by
`removeBackground` or by `floodFill`, and in the buffer returned by
`removeColorGlobal`, the alpha of each pixel is its alpha before the call or
`0`; so a transparent pixel stays transparent and no alpha value is raised. On
a well-formed buffer with the seed inside the grid the two region growers do
return. -/
theorem alpha_only_lowered_to_zero (img : ImageData) (startX startY : Int) (tolerance : ℚ)
    (targetR targetG targetB : Int) :
    (∀ fuel out, removeBackground fuel img startX startY tolerance = some out →
      AlphaLowered img out) ∧
    (∀ fuel out, floodFill fuel img startX startY tolerance = some out →
      AlphaLowered img out) ∧
    AlphaLowered img (removeColorGlobal img targetR targetG targetB tolerance) ∧
    (img.WF → InGrid img.width img.height (startX, startY) →
      (∃ out, removeBackground (4 * (img.width * img.height) + 1) img startX startY
        tolerance = some out) ∧
      (∃ out, floodFill (4 * (img.width * img.height) + 1) img startX startY
        tolerance = some out)) := by
  refine ⟨?_, ?_, ?_, ?_⟩
  · intro fuel out h
    exact alphaLowered_of_frame (removeBackground_frame h).2.2
  · intro fuel out h
    exact alphaLowered_of_frame (floodFill_frame h).2.2
  · exact alphaLowered_of_frame (removeColorGlobal_frame img targetR targetG targetB tolerance).2.2
  · intro hwf hseed
    exact ⟨removeBackground_returns hwf hseed tolerance _ (le_refl _),
      floodFill_returns img startX startY tolerance _ (le_refl _)⟩

/-- C8, witness: on the 2×1 buffer, whose left pixel is already transparent,
each function returns a buffer whose alpha bytes are the old ones or `0`. -/
theorem alpha_only_lowered_to_zero_witness :
    removeBackground 9 img2x1 1 0 0 = some ⟨2, 1, [0, 0, 0, 0, 0, 0, 0, 0]⟩ ∧
    floodFill 9 img2x1 1 0 0 = some ⟨2, 1, [0, 0, 0, 0, 0, 0, 0, 0]⟩ ∧
    AlphaLowered img2x1 ⟨2, 1, [0, 0, 0, 0, 0, 0, 0, 0]⟩ ∧
    AlphaLowered img2x1 (removeColorGlobal img2x1 7 7 7 1) :=
  ⟨by decide!, by decide!,
    (alpha_only_lowered_to_zero img2x1 1 0 0 0 0 0).1 9 _ (by decide!),
    (alpha_only_lowered_to_zero img2x1 1 0 1 7 7 7).2.2.1⟩

/-- C9: on a well-formed buffer with the seed inside the grid, every array
access of `removeBackground` and of `floodFill`, up to any number of loop
iterations, is in bounds: `data` indices lie in `[0, width * height * 4)` and
`visited` indices in `[0, width * height)`. In `floodFill` an iteration that
pops a coordinate outside the grid makes no array access and changes nothing. -/
theorem region_growers_access_in_bounds (img : ImageData) (startX startY : Int)
    (tolerance : ℚ) (hwf : img.WF) (hseed : InGrid img.width img.height (startX, startY)) :
    (∀ fuel, ∀ a ∈ removeBackgroundAccesses fuel img startX startY tolerance,
      Access.InBounds img.width img.height a) ∧
    (∀ fuel, ∀ a ∈ floodFillAccesses fuel img startX startY tolerance,
      Access.InBounds img.width img.height a) ∧
    (∀ (tR tG tB : Option Int) (x y : Int) (data visited : List Nat)
        (stack : List (Int × Int)), ¬ InGrid img.width img.height (x, y) →
      floodFillBodyAccesses img.width img.height tR tG tB tolerance x y data visited = [] ∧
      floodFillBody img.width img.height tR tG tB tolerance x y data visited stack =
        ⟨data, visited, stack⟩) := by
  have hs := seed_reads_inBounds hseed
  refine ⟨?_, ?_, ?_⟩
  · intro fuel a ha
    unfold removeBackgroundAccesses at ha
    simp only [List.cons_append, List.nil_append, List.mem_cons] at ha
    rcases ha with h | h | h | h
    · rw [h]; simpa using hs 0 (by omega) (by omega)
    · rw [h]; exact hs 1 (by omega) (by omega)
    · rw [h]; exact hs 2 (by omega) (by omega)
    · exact removeBackgroundLoopAccesses_inBounds hwf _ _ _ tolerance (startX, startY) fuel _
        (fillInv_init img _ (startX, startY))
        (by
          intro c hc
          rw [List.mem_singleton.mp hc]
          exact hseed) a h
  · intro fuel a ha
    unfold floodFillAccesses at ha
    simp only [List.cons_append, List.nil_append, List.mem_cons] at ha
    rcases ha with h | h | h | h | h
    · rw [h]; simpa using hs 0 (by omega) (by omega)
    · rw [h]; exact hs 1 (by omega) (by omega)
    · rw [h]; exact hs 2 (by omega) (by omega)
    · rw [h]; exact hs 3 (by omega) (by omega)
    · split at h
      · simp at h
      · exact floodFillLoopAccesses_inBounds _ _ _ _ _ tolerance fuel _ a h
  · intro tR tG tB x y data visited stack hout
    have hcond : x < 0 ∨ x ≥ img.width ∨ y < 0 ∨ y ≥ img.height := by
      by_contra hc
      apply hout
      refine ⟨?_, ?_, ?_, ?_⟩ <;> simp only <;> omega
    unfold floodFillBodyAccesses floodFillBody
    simp only
    rw [if_pos hcond, if_pos hcond]
    exact ⟨rfl, rfl⟩

/-- C9, witness: the 1×1 buffer seeded at `(0, 0)`; the accesses of the whole
run of each entry point are listed and all lie inside the arrays. -/
theorem region_growers_access_in_bounds_witness :
    img1x1.WF ∧ InGrid img1x1.width img1x1.height (0, 0) ∧
    removeBackground 1 img1x1 0 0 0 = some ⟨1, 1, [10, 20, 30, 0]⟩ ∧
    removeBackgroundAccesses 1 img1x1 0 0 0 =
      [Access.data 0, Access.data 1, Access.data 2, Access.visited 0, Access.visited 0,
        Access.data 0, Access.data 1, Access.data 2, Access.data 3] ∧
    floodFill 5 img1x1 0 0 0 = some ⟨1, 1, [10, 20, 30, 0]⟩ ∧
    floodFillAccesses 5 img1x1 0 0 0 =
      [Access.data 0, Access.data 1, Access.data 2, Access.data 3, Access.visited 0,
        Access.data 0, Access.data 1, Access.data 2, Access.data 3, Access.visited 0] ∧
    ((∀ fuel, ∀ a ∈ removeBackgroundAccesses fuel img1x1 0 0 0,
      Access.InBounds img1x1.width img1x1.height a) ∧
    (∀ fuel, ∀ a ∈ floodFillAccesses fuel img1x1 0 0 0,
      Access.InBounds img1x1.width img1x1.height a)) :=
  ⟨by decide, by decide, by decide!, by decide!, by decide!, by decide!,
    (region_growers_access_in_bounds img1x1 0 0 0 (by decide) (by decide)).1,
    (region_growers_access_in_bounds img1x1 0 0 0 (by decide) (by decide)).2.1⟩

/-- C10: on a well-formed buffer with the seed inside the grid, for every
tolerance, the loop of `removeBackground` and the loop of `floodFill` exit:
each function returns under every budget of at least `4 * width * height + 1`
iterations. -/
theorem region_growers_terminate (img : ImageData) (startX startY : Int) (tolerance : ℚ)
    (hwf : img.WF) (hseed : InGrid img.width img.height (startX, startY)) (fuel : Nat)
    (hfuel : 4 * (img.width * img.height) + 1 ≤ fuel) :
    (∃ out, removeBackground fuel img startX startY tolerance = some out) ∧
    (∃ out, floodFill fuel img startX startY tolerance = some out) :=
  ⟨removeBackground_returns hwf hseed tolerance fuel hfuel,
    floodFill_returns img startX startY tolerance fuel hfuel⟩

/-- C10, witness: the 3×3 example under a budget of `37` iterations. -/
theorem region_growers_terminate_witness :
    img3x3.WF ∧ InGrid img3x3.width img3x3.height (0, 0) ∧
    4 * (img3x3.width * img3x3.height) + 1 ≤ 37 ∧
    ((∃ out, removeBackground 37 img3x3 0 0 10 = some out) ∧
    (∃ out, floodFill 37 img3x3 0 0 10 = some out)) :=
  ⟨by decide, by decide, by decide,
    region_growers_terminate img3x3 0 0 10 (by decide) (by decide) 37 (by decide)⟩

/-! ## The colour distance, the canvas resize and the encoder call -/

/-- C15, counterexample: black against white has squared distance `195075`,
more than `441.67 ^ 2`; the tolerance `441.67` does not match them, and
`removeColorGlobal` with target white and tolerance `441.67` leaves a black
pixel opaque. -/
theorem distance_exceeds_441_67 :
    ((44167 / 100 : ℚ) ^ 2 < ((distSq (0 : Nat) (0 : Nat) (0 : Nat) (255 : Nat) (255 : Nat)
      (255 : Nat) : Int) : ℚ)) ∧
    withinTol (distSq (0 : Nat) (0 : Nat) (0 : Nat) (255 : Nat) (255 : Nat) (255 : Nat))
      (44167 / 100) = false ∧
    colorMatch (some 0) (some 0) (some 0) (some 255) (some 255) (some 255) (44167 / 100) =
      false ∧
    removeColorGlobal imgBlack1x1 255 255 255 (44167 / 100) = imgBlack1x1 :=
  ⟨by decide!, by decide!, by decide!, by decide!⟩

/-- C15, amended: for channels in `0..255` the squared distance lies in
`[0, 195075]` (`3 * 255 ^ 2`), so the distance is at most the square root of
`195075`, a little above `441.67`; every tolerance `t ≥ 0` with
`t * t ≥ 195075`, for instance `441.68`, matches every pixel against every
target. -/
theorem distance_range (r g b targetR targetG targetB : Nat) (hr : r ≤ 255) (hg : g ≤ 255)
    (hb : b ≤ 255) (hR : targetR ≤ 255) (hG : targetG ≤ 255) (hB : targetB ≤ 255) :
    0 ≤ distSq r g b targetR targetG targetB ∧
    distSq r g b targetR targetG targetB ≤ 195075 ∧
    (∀ tolerance : ℚ, 0 ≤ tolerance → 195075 ≤ tolerance * tolerance →
      colorMatch (some r) (some g) (some b) (some targetR) (some targetG) (some targetB)
        tolerance = true) ∧
    colorMatch (some r) (some g) (some b) (some targetR) (some targetG) (some targetB)
      (44168 / 100) = true := by
  have h := distSq_le hr hg hb hR hG hB
  refine ⟨h.1, h.2, ?_, ?_⟩
  · intro tolerance h0 ht
    exact withinTol_of_sq_le h0 h.1 h.2 ht
  · exact withinTol_of_sq_le (by norm_num) h.1 h.2 (by norm_num)

/-- C15, amended, witness: black against white. -/
theorem distance_range_witness :
    (0 : Nat) ≤ 255 ∧ (255 : Nat) ≤ 255 ∧
    (0 ≤ distSq (0 : Nat) (0 : Nat) (0 : Nat) (255 : Nat) (255 : Nat) (255 : Nat) ∧
    distSq (0 : Nat) (0 : Nat) (0 : Nat) (255 : Nat) (255 : Nat) (255 : Nat) ≤ 195075 ∧
    (∀ tolerance : ℚ, 0 ≤ tolerance → 195075 ≤ tolerance * tolerance →
      colorMatch (some 0) (some 0) (some 0) (some (255 : Nat)) (some (255 : Nat))
        (some (255 : Nat)) tolerance = true) ∧
    colorMatch (some 0) (some 0) (some 0) (some (255 : Nat)) (some (255 : Nat))
      (some (255 : Nat)) (44168 / 100) = true) :=
  ⟨by decide, by decide,
    distance_range 0 0 0 255 255 255 (by decide) (by decide) (by decide) (by decide)
      (by decide) (by decide)⟩

/-! ### The canvas resize -/

theorem roundDouble_min {a b : ℚ} (ha : 0 ≤ a) (hb : 0 ≤ b) :
    min (roundDouble a) (roundDouble b) = roundDouble (min a b) := by
  rcases le_total a b with h | h
  · rw [min_eq_left h, min_eq_left (roundDouble_mono ha h)]
  · rw [min_eq_right h, min_eq_right (roundDouble_mono hb h)]

/-- The double computed for `w * ratio` from an exact ratio `r`: relative error
at most `2^-51`. -/
theorem scaled_size_err {w r : ℚ} (hw : 0 ≤ w) (hr : 0 ≤ r) :
    |roundDouble (w * roundDouble r) - w * r| ≤ w * r / 2 ^ 51 := by
  have h1 := roundDouble_abs_sub_le r
  have h2 := roundDouble_abs_sub_le (w * roundDouble r)
  have hr' := roundDouble_nonneg hr
  rw [abs_of_nonneg hr] at h1
  rw [abs_of_nonneg (mul_nonneg hw hr')] at h2
  rw [abs_le] at h1 h2 ⊢
  have e1 : w * roundDouble r - w * r ≤ w * r / 2 ^ 53 := by
    have := mul_le_mul_of_nonneg_left h1.2 hw
    linarith [this, (by ring : w * (roundDouble r - r) = w * roundDouble r - w * r),
      (by ring : w * (r / 2 ^ 53) = w * r / 2 ^ 53)]
  have e2 : -(w * r / 2 ^ 53) ≤ w * roundDouble r - w * r := by
    have := mul_le_mul_of_nonneg_left h1.1 hw
    linarith [this, (by ring : w * (roundDouble r - r) = w * roundDouble r - w * r),
      (by ring : w * (-(r / 2 ^ 53)) = -(w * r / 2 ^ 53))]
  have hA : 0 ≤ w * r := mul_nonneg hw hr
  generalize w * r = A at e1 e2 hA ⊢
  generalize w * roundDouble r = p at e1 e2 h2 ⊢
  generalize roundDouble p = fp at h2 ⊢
  obtain ⟨h2a, h2b⟩ := h2
  constructor
  · norm_num at e1 e2 h2a h2b ⊢
    linarith
  · norm_num at e1 e2 h2a h2b ⊢
    linarith

/-- The double computed for `(t - n) / 2` from a double `n'` close to `n`:
absolute error at most `t * 2^-51`. -/
theorem offset_err {t n n' : ℚ} (hn : 0 ≤ n) (hnt : n ≤ t) (hn' : |n' - n| ≤ n / 2 ^ 51) :
    |roundDouble (roundDouble (t - n') / 2) - (t - n) / 2| ≤ t / 2 ^ 51 := by
  have h1 := roundDouble_abs_sub_le (t - n')
  have h2 := roundDouble_abs_sub_le (roundDouble (t - n') / 2)
  rw [abs_le] at hn'
  obtain ⟨hn1, hn2⟩ := hn'
  have hd : |t - n'| ≤ t := by
    rw [abs_le]
    constructor
    · norm_num at hn1 hn2 ⊢
      linarith
    · norm_num at hn1 hn2 ⊢
      linarith
  have h1' : |roundDouble (t - n') - (t - n')| ≤ t / 2 ^ 53 :=
    h1.trans (div_le_div_of_nonneg_right hd (by positivity))
  generalize roundDouble (t - n') = s at h1 h1' h2 ⊢
  have hs : |s / 2| ≤ t := by
    rw [abs_le] at h1' ⊢
    obtain ⟨a1, a2⟩ := h1'
    rw [abs_le] at hd
    obtain ⟨d1, d2⟩ := hd
    constructor
    · norm_num at a1 a2 ⊢
      linarith
    · norm_num at a1 a2 ⊢
      linarith
  have h2' : |roundDouble (s / 2) - s / 2| ≤ t / 2 ^ 53 :=
    h2.trans (div_le_div_of_nonneg_right hs (by positivity))
  generalize roundDouble (s / 2) = x at h2 h2' ⊢
  rw [abs_le] at h1' h2' ⊢
  obtain ⟨a1, a2⟩ := h1'
  obtain ⟨b1, b2⟩ := h2'
  constructor
  · norm_num at a1 a2 b1 b2 hn1 hn2 ⊢
    linarith
  · norm_num at a1 a2 b1 b2 hn1 hn2 ⊢
    linarith

/-- For a source without a zero dimension, the draw call of `resizeCanvas`. -/
theorem resizeCanvas_eq (drawImage : DrawImageCall → Outcome Unit) (canvas : Canvas)
    (targetW targetH : Nat) (hw : 0 < canvas.width) (hh : 0 < canvas.height) :
    resizeCanvas drawImage canvas targetW targetH =
      ⟨targetW, targetH,
        [⟨canvas, 0, 0, canvas.width, canvas.height,
          JsNum.fin (roundDouble (roundDouble ((targetW : ℚ) - roundDouble ((canvas.width : ℚ) *
            roundDouble (min ((targetW : ℚ) / canvas.width) ((targetH : ℚ) / canvas.height)))) / 2)),
          JsNum.fin (roundDouble (roundDouble ((targetH : ℚ) - roundDouble ((canvas.height : ℚ) *
            roundDouble (min ((targetW : ℚ) / canvas.width) ((targetH : ℚ) / canvas.height)))) / 2)),
          JsNum.fin (roundDouble ((canvas.width : ℚ) *
            roundDouble (min ((targetW : ℚ) / canvas.width) ((targetH : ℚ) / canvas.height)))),
          JsNum.fin (roundDouble ((canvas.height : ℚ) *
            roundDouble (min ((targetW : ℚ) / canvas.width) ((targetH : ℚ) / canvas.height))))⟩],
        drawImage ⟨canvas, 0, 0, canvas.width, canvas.height,
          JsNum.fin (roundDouble (roundDouble ((targetW : ℚ) - roundDouble ((canvas.width : ℚ) *
            roundDouble (min ((targetW : ℚ) / canvas.width) ((targetH : ℚ) / canvas.height)))) / 2)),
          JsNum.fin (roundDouble (roundDouble ((targetH : ℚ) - roundDouble ((canvas.height : ℚ) *
            roundDouble (min ((targetW : ℚ) / canvas.width) ((targetH : ℚ) / canvas.height)))) / 2)),
          JsNum.fin (roundDouble ((canvas.width : ℚ) *
            roundDouble (min ((targetW : ℚ) / canvas.width) ((targetH : ℚ) / canvas.height)))),
          JsNum.fin (roundDouble ((canvas.height : ℚ) *
            roundDouble (min ((targetW : ℚ) / canvas.width) ((targetH : ℚ) / canvas.height))))⟩⟩ := by
  have ha : (0 : ℚ) ≤ (targetW : ℚ) / canvas.width := by positivity
  have hb : (0 : ℚ) ≤ (targetH : ℚ) / canvas.height := by positivity
  unfold resizeCanvas JsNum.divNat
  simp only [Nat.pos_iff_ne_zero.mp hw, Nat.pos_iff_ne_zero.mp hh, if_false, JsNum.min,
    JsNum.mulNat, JsNum.natSub, JsNum.half, roundDouble_min ha hb]

/-! ### The frame reads and the encoder call -/

theorem readFrames_returned (getImageData : Canvas → Nat → Nat → Outcome (List Nat))
    (width height : Nat) :
    ∀ (canvases : List Canvas) (bufs : List (List Nat)),
      List.Forall₂ (fun c buf => getImageData c width height = Outcome.returned buf)
        canvases bufs →
      readFrames getImageData width height canvases =
        (canvases.map (fun c => ⟨c, width, height⟩), Outcome.returned bufs) := by
  intro canvases bufs h
  induction h with
  | nil => rfl
  | cons hc _ ih =>
    simp only [readFrames, hc, ih, List.map_cons]

theorem readFrames_raised (getImageData : Canvas → Nat → Nat → Outcome (List Nat))
    (width height : Nat) (c : Canvas) (post : List Canvas) (e : JsError)
    (hc : getImageData c width height = Outcome.raised e) :
    ∀ pre : List Canvas,
      (∀ c' ∈ pre, ∃ buf, getImageData c' width height = Outcome.returned buf) →
      readFrames getImageData width height (pre ++ c :: post) =
        ((pre ++ [c]).map (fun c => ⟨c, width, height⟩), Outcome.raised e) := by
  intro pre
  induction pre with
  | nil =>
    intro _
    simp only [List.nil_append, readFrames, hc, List.map_cons, List.map_nil]
  | cons a pre ih =>
    intro hpre
    obtain ⟨buf, hbuf⟩ := hpre a (List.mem_cons_self _ _)
    have ih' := ih (fun c' hc' => hpre c' (List.mem_cons_of_mem _ hc'))
    simp only [List.cons_append, readFrames, hbuf, List.append_eq, ih', List.map_cons]

/-- Every run of the frame loop is of one of two kinds: every read returns, or
there is a first read that raises. -/
theorem readFrames_cases (getImageData : Canvas → Nat → Nat → Outcome (List Nat))
    (width height : Nat) (canvases : List Canvas) :
    (∃ bufs, List.Forall₂ (fun c buf => getImageData c width height = Outcome.returned buf)
      canvases bufs) ∨
    (∃ pre c post e, canvases = pre ++ c :: post ∧
      (∀ c' ∈ pre, ∃ buf, getImageData c' width height = Outcome.returned buf) ∧
      getImageData c width height = Outcome.raised e) := by
  induction canvases with
  | nil => exact Or.inl ⟨[], List.Forall₂.nil⟩
  | cons a rest ih =>
    cases ha : getImageData a width height with
    | raised e =>
      exact Or.inr ⟨[], a, rest, e, rfl, fun _ h => absurd h (List.not_mem_nil _), ha⟩
    | returned buf =>
      rcases ih with ⟨bufs, hb⟩ | ⟨pre, c, post, e, h1, h2, h3⟩
      · exact Or.inl ⟨buf :: bufs, List.Forall₂.cons ha hb⟩
      · refine Or.inr ⟨a :: pre, c, post, e, by rw [h1]; rfl, ?_, h3⟩
        intro c' hc'
        rcases List.mem_cons.mp hc' with h | h
        · exact ⟨buf, by rw [h]; exact ha⟩
        · exact h2 c' h

/-- When every frame read returns, `encodeAPNG` calls the encoder once. -/
theorem encodeAPNG_of_returned {β : Type}
    (getImageData : Canvas → Nat → Nat → Outcome (List Nat)) (encode : EncodeCall → Outcome β)
    (delay : ℚ) (loop : Nat) (first : Canvas) (rest : List Canvas) (bufs : List (List Nat))
    (h : List.Forall₂
      (fun c buf => getImageData c first.width first.height = Outcome.returned buf)
      (first :: rest) bufs) :
    (encodeAPNG getImageData encode (first :: rest) delay loop).reads =
      (first :: rest).map (fun c => ⟨c, first.width, first.height⟩) ∧
    (encodeAPNG getImageData encode (first :: rest) delay loop).calls =
      [⟨bufs, first.width, first.height, loop, List.replicate bufs.length delay⟩] ∧
    (encodeAPNG getImageData encode (first :: rest) delay loop).result =
      Outcome.map some
        (encode ⟨bufs, first.width, first.height, loop, List.replicate bufs.length delay⟩) := by
  have hr := readFrames_returned getImageData first.width first.height _ _ h
  refine ⟨?_, ?_, ?_⟩ <;> simp only [encodeAPNG, hr]

/-- When a frame read raises, `encodeAPNG` raises and does not call the encoder. -/
theorem encodeAPNG_of_raised {β : Type}
    (getImageData : Canvas → Nat → Nat → Outcome (List Nat)) (encode : EncodeCall → Outcome β)
    (delay : ℚ) (loop : Nat) (first : Canvas) (rest pre : List Canvas) (c : Canvas)
    (post : List Canvas) (e : JsError) (hsplit : first :: rest = pre ++ c :: post)
    (hpre : ∀ c' ∈ pre, ∃ buf, getImageData c' first.width first.height = Outcome.returned buf)
    (hc : getImageData c first.width first.height = Outcome.raised e) :
    (encodeAPNG getImageData encode (first :: rest) delay loop).reads =
      (pre ++ [c]).map (fun c => ⟨c, first.width, first.height⟩) ∧
    (encodeAPNG getImageData encode (first :: rest) delay loop).calls = [] ∧
    (encodeAPNG getImageData encode (first :: rest) delay loop).result = Outcome.raised e := by
  have hr := readFrames_raised getImageData first.width first.height c post e hc pre hpre
  rw [← hsplit] at hr
  refine ⟨?_, ?_, ?_⟩ <;> simp only [encodeAPNG, hr]

theorem outcome_map_some_ne_none {β : Type} (o : Outcome β) :
    Outcome.map some o ≠ Outcome.returned none := by
  cases o <;> simp [Outcome.map]

theorem outcome_map_some_raised {β : Type} {o : Outcome β} {e : JsError}
    (h : Outcome.map some o = Outcome.raised e) : o = Outcome.raised e := by
  cases o with
  | returned a => simp [Outcome.map] at h
  | raised e' =>
    simp only [Outcome.map, Outcome.raised.injEq] at h
    rw [h]

/-- C16, counterexample: for a 133×133 source and the target 320×270 the exact
scaled height is `270`, but the doubles the code passes to `drawImage` are the
height `270 + 2^-44`, larger than the target height, and the vertical offset
`-2^-45`, which is negative. -/
theorem resizeCanvas_exceeds_target :
    (133 : ℚ) * min ((320 : ℚ) / 133) ((270 : ℚ) / 133) = 270 ∧
    resizeCanvas sampleDrawImage ⟨133, 133, []⟩ 320 270 =
      ⟨320, 270, [⟨⟨133, 133, []⟩, 0, 0, 133, 133,
        JsNum.fin (879609302220799 / 35184372088832), JsNum.fin (-1 / 35184372088832),
        JsNum.fin (4749890231992321 / 17592186044416),
        JsNum.fin (4749890231992321 / 17592186044416)⟩], Outcome.returned ()⟩ ∧
    (270 : ℚ) < 4749890231992321 / 17592186044416 ∧
    (4749890231992321 / 17592186044416 : ℚ) = 270 + 1 / 2 ^ 44 ∧
    (-1 / 35184372088832 : ℚ) < 0 :=
  ⟨by norm_num, by decide!, by norm_num, by norm_num, by norm_num⟩

/-- C16, amended: for positive source dimensions `w`, `h` and positive targets,
let `ratio = min(targetW / w, targetH / h)`, `newW = w * ratio`,
`newH = h * ratio`, `dx = (targetW - newW) / 2` and `dy = (targetH - newH) / 2`
in exact arithmetic: the aspect ratio is kept, the rectangle fits the target
and touches it on at least one axis, the offsets are not negative and the
margins on opposite sides are equal. `resizeCanvas` creates a canvas of exactly
`targetW × targetH` and draws the whole source on it once; the size and the
offsets it passes are doubles that differ from `newW`, `newH` by a relative
error of at most `2^-51` and from `dx`, `dy` by at most `targetW * 2^-51`,
`targetH * 2^-51`. The function returns the canvas when the draw call returns
and raises what the draw call raises. -/
theorem resizeCanvas_fits_and_centres (drawImage : DrawImageCall → Outcome Unit)
    (canvas : Canvas) (targetW targetH : Nat)
    (hw : 0 < canvas.width) (hh : 0 < canvas.height) (hW : 0 < targetW) (hH : 0 < targetH) :
    ∃ ratio newW newH dx dy : ℚ,
      ratio = min ((targetW : ℚ) / canvas.width) ((targetH : ℚ) / canvas.height) ∧
      newW = canvas.width * ratio ∧ newH = canvas.height * ratio ∧
      dx = (targetW - newW) / 2 ∧ dy = (targetH - newH) / 2 ∧
      0 < newH ∧ newW / newH = (canvas.width : ℚ) / canvas.height ∧
      newW ≤ targetW ∧ newH ≤ targetH ∧ (newW = targetW ∨ newH = targetH) ∧
      0 ≤ dx ∧ 0 ≤ dy ∧
      targetW - (dx + newW) = dx ∧ targetH - (dy + newH) = dy ∧
      ∃ dx' dy' dw' dh' : ℚ,
        resizeCanvas drawImage canvas targetW targetH =
          ⟨targetW, targetH,
            [⟨canvas, 0, 0, canvas.width, canvas.height,
              JsNum.fin dx', JsNum.fin dy', JsNum.fin dw', JsNum.fin dh'⟩],
            drawImage ⟨canvas, 0, 0, canvas.width, canvas.height,
              JsNum.fin dx', JsNum.fin dy', JsNum.fin dw', JsNum.fin dh'⟩⟩ ∧
        |dw' - newW| ≤ newW / 2 ^ 51 ∧ |dh' - newH| ≤ newH / 2 ^ 51 ∧
        |dx' - dx| ≤ targetW / 2 ^ 51 ∧ |dy' - dy| ≤ targetH / 2 ^ 51 := by
  have hwq : (0 : ℚ) < canvas.width := by exact_mod_cast hw
  have hhq : (0 : ℚ) < canvas.height := by exact_mod_cast hh
  have hWq : (0 : ℚ) < targetW := by exact_mod_cast hW
  have hHq : (0 : ℚ) < targetH := by exact_mod_cast hH
  have hr1 : (0 : ℚ) < (targetW : ℚ) / canvas.width := div_pos hWq hwq
  have hr2 : (0 : ℚ) < (targetH : ℚ) / canvas.height := div_pos hHq hhq
  have hrpos : (0 : ℚ) < min ((targetW : ℚ) / canvas.width) ((targetH : ℚ) / canvas.height) :=
    lt_min hr1 hr2
  have e1 : (canvas.width : ℚ) * ((targetW : ℚ) / canvas.width) = targetW := by
    field_simp
  have e2 : (canvas.height : ℚ) * ((targetH : ℚ) / canvas.height) = targetH := by
    field_simp
  have hle1 : (canvas.width : ℚ) *
      min ((targetW : ℚ) / canvas.width) ((targetH : ℚ) / canvas.height) ≤ targetW := by
    calc (canvas.width : ℚ) * min ((targetW : ℚ) / canvas.width) ((targetH : ℚ) / canvas.height)
        ≤ (canvas.width : ℚ) * ((targetW : ℚ) / canvas.width) :=
          mul_le_mul_of_nonneg_left (min_le_left _ _) hwq.le
      _ = targetW := e1
  have hle2 : (canvas.height : ℚ) *
      min ((targetW : ℚ) / canvas.width) ((targetH : ℚ) / canvas.height) ≤ targetH := by
    calc (canvas.height : ℚ) * min ((targetW : ℚ) / canvas.width) ((targetH : ℚ) / canvas.height)
        ≤ (canvas.height : ℚ) * ((targetH : ℚ) / canvas.height) :=
          mul_le_mul_of_nonneg_left (min_le_right _ _) hhq.le
      _ = targetH := e2
  have sw := scaled_size_err hwq.le hrpos.le
  have sh := scaled_size_err hhq.le hrpos.le
  refine ⟨_, _, _, _, _, rfl, rfl, rfl, rfl, rfl, ?_, ?_, hle1, hle2, ?_, ?_, ?_, ?_, ?_,
    _, _, _, _, resizeCanvas_eq drawImage canvas targetW targetH hw hh, sw, sh,
    offset_err (mul_nonneg hwq.le hrpos.le) hle1 sw,
    offset_err (mul_nonneg hhq.le hrpos.le) hle2 sh⟩
  · exact mul_pos hhq hrpos
  · rw [mul_div_mul_right _ _ hrpos.ne']
  · rcases le_total ((targetW : ℚ) / canvas.width) ((targetH : ℚ) / canvas.height) with h | h
    · left
      rw [min_eq_left h]; exact e1
    · right
      rw [min_eq_right h]; exact e2
  · linarith
  · linarith
  · ring
  · ring

/-- C16, amended, witness: a 100×50 source into 320×270 gives ratio `3.2`,
scaled size `320 × 160`, `dx = 0` and `dy = 55`, in exact arithmetic and in
the doubles the code passes. -/
theorem resizeCanvas_fits_and_centres_witness :
    (0 < (⟨100, 50, []⟩ : Canvas).width) ∧ (0 < (⟨100, 50, []⟩ : Canvas).height) ∧
    (0 < 320) ∧ (0 < 270) ∧
    min ((320 : ℚ) / 100) ((270 : ℚ) / 50) = 16 / 5 ∧
    resizeCanvas sampleDrawImage ⟨100, 50, []⟩ 320 270 =
      ⟨320, 270, [⟨⟨100, 50, []⟩, 0, 0, 100, 50,
        JsNum.fin 0, JsNum.fin 55, JsNum.fin 320, JsNum.fin 160⟩], Outcome.returned ()⟩ ∧
    (∃ ratio newW newH dx dy : ℚ,
      ratio = min (((320 : Nat) : ℚ) / (⟨100, 50, []⟩ : Canvas).width)
        (((270 : Nat) : ℚ) / (⟨100, 50, []⟩ : Canvas).height) ∧
      newW = (⟨100, 50, []⟩ : Canvas).width * ratio ∧
      newH = (⟨100, 50, []⟩ : Canvas).height * ratio ∧
      dx = (((320 : Nat) : ℚ) - newW) / 2 ∧ dy = (((270 : Nat) : ℚ) - newH) / 2 ∧
      0 < newH ∧
      newW / newH = ((⟨100, 50, []⟩ : Canvas).width : ℚ) / (⟨100, 50, []⟩ : Canvas).height ∧
      newW ≤ ((320 : Nat) : ℚ) ∧ newH ≤ ((270 : Nat) : ℚ) ∧
      (newW = ((320 : Nat) : ℚ) ∨ newH = ((270 : Nat) : ℚ)) ∧
      0 ≤ dx ∧ 0 ≤ dy ∧
      ((320 : Nat) : ℚ) - (dx + newW) = dx ∧ ((270 : Nat) : ℚ) - (dy + newH) = dy ∧
      ∃ dx' dy' dw' dh' : ℚ,
        resizeCanvas sampleDrawImage ⟨100, 50, []⟩ 320 270 =
          ⟨320, 270,
            [⟨⟨100, 50, []⟩, 0, 0, (⟨100, 50, []⟩ : Canvas).width,
              (⟨100, 50, []⟩ : Canvas).height,
              JsNum.fin dx', JsNum.fin dy', JsNum.fin dw', JsNum.fin dh'⟩],
            sampleDrawImage ⟨⟨100, 50, []⟩, 0, 0, (⟨100, 50, []⟩ : Canvas).width,
              (⟨100, 50, []⟩ : Canvas).height,
              JsNum.fin dx', JsNum.fin dy', JsNum.fin dw', JsNum.fin dh'⟩⟩ ∧
        |dw' - newW| ≤ newW / 2 ^ 51 ∧ |dh' - newH| ≤ newH / 2 ^ 51 ∧
        |dx' - dx| ≤ ((320 : Nat) : ℚ) / 2 ^ 51 ∧ |dy' - dy| ≤ ((270 : Nat) : ℚ) / 2 ^ 51) :=
  ⟨by decide, by decide, by decide, by decide, by norm_num, by decide!,
    resizeCanvas_fits_and_centres sampleDrawImage ⟨100, 50, []⟩ 320 270 (by decide) (by decide)
      (by decide) (by decide)⟩

/-- C17, amended: with no canvas `encodeAPNG` returns `null`, reads no frame
and does not call the encoder. With `n ≥ 1` canvases the frames are read in
input order at the first canvas's width and height. When every read returns,
the encoder is called exactly once, with the `n` frame buffers in input
order, the first canvas's width and height, the given loop count and `n`
delays all equal to the given delay, and `encodeAPNG` returns what the encoder
returns or raises what it raises. When a read raises, no later frame is read,
the encoder is not called and `encodeAPNG` raises the same exception. Every
call is of one of these kinds. -/
theorem encodeAPNG_empty_and_nonempty {β : Type}
    (getImageData : Canvas → Nat → Nat → Outcome (List Nat)) (encode : EncodeCall → Outcome β)
    (delay : ℚ) (loop : Nat) :
    ((encodeAPNG getImageData encode [] delay loop).result = Outcome.returned none ∧
      (encodeAPNG getImageData encode [] delay loop).reads = [] ∧
      (encodeAPNG getImageData encode [] delay loop).calls = []) ∧
    (∀ (first : Canvas) (rest : List Canvas) (bufs : List (List Nat)),
      List.Forall₂ (fun c buf => getImageData c first.width first.height = Outcome.returned buf)
        (first :: rest) bufs →
      ∃ call : EncodeCall,
        (encodeAPNG getImageData encode (first :: rest) delay loop).reads =
          (first :: rest).map (fun c => ⟨c, first.width, first.height⟩) ∧
        (encodeAPNG getImageData encode (first :: rest) delay loop).calls = [call] ∧
        (encodeAPNG getImageData encode (first :: rest) delay loop).result =
          Outcome.map some (encode call) ∧
        call.bufs = bufs ∧ call.bufs.length = (first :: rest).length ∧
        call.width = first.width ∧ call.height = first.height ∧ call.loop = loop ∧
        call.delays.length = (first :: rest).length ∧ (∀ d ∈ call.delays, d = delay)) ∧
    (∀ (first : Canvas) (rest pre : List Canvas) (c : Canvas) (post : List Canvas) (e : JsError),
      first :: rest = pre ++ c :: post →
      (∀ c' ∈ pre, ∃ buf, getImageData c' first.width first.height = Outcome.returned buf) →
      getImageData c first.width first.height = Outcome.raised e →
      (encodeAPNG getImageData encode (first :: rest) delay loop).reads =
        (pre ++ [c]).map (fun c => ⟨c, first.width, first.height⟩) ∧
      (encodeAPNG getImageData encode (first :: rest) delay loop).calls = [] ∧
      (encodeAPNG getImageData encode (first :: rest) delay loop).result = Outcome.raised e) ∧
    (∀ (first : Canvas) (rest : List Canvas),
      (∃ bufs, List.Forall₂
        (fun c buf => getImageData c first.width first.height = Outcome.returned buf)
        (first :: rest) bufs) ∨
      (∃ pre c post e, first :: rest = pre ++ c :: post ∧
        (∀ c' ∈ pre, ∃ buf, getImageData c' first.width first.height = Outcome.returned buf) ∧
        getImageData c first.width first.height = Outcome.raised e)) := by
  refine ⟨⟨rfl, rfl, rfl⟩, ?_, ?_, ?_⟩
  · intro first rest bufs h
    have hlen : bufs.length = (first :: rest).length := h.length_eq.symm
    obtain ⟨k1, k2, k3⟩ :=
      encodeAPNG_of_returned getImageData encode delay loop first rest bufs h
    refine ⟨_, k1, k2, k3, rfl, hlen, rfl, rfl, rfl, ?_, ?_⟩
    · simp only [List.length_replicate, hlen]
    · intro d hd
      exact List.eq_of_mem_replicate hd
  · intro first rest pre c post e hsplit hpre hc
    exact encodeAPNG_of_raised getImageData encode delay loop first rest pre c post e hsplit
      hpre hc
  · intro first rest
    exact readFrames_cases getImageData first.width first.height (first :: rest)

/-- C17, counterexample: with a first canvas of size 0×0 and a frame read that
raises `IndexSizeError` on a zero size, `encodeAPNG` called with one canvas
raises that exception and does not call the encoder. -/
theorem encodeAPNG_zero_size_first_canvas :
    RaisesOnEmptyRead sampleGetImageData ∧
    (encodeAPNG sampleGetImageData sampleEncode [⟨0, 0, []⟩] 100 0).reads =
      [⟨⟨0, 0, []⟩, 0, 0⟩] ∧
    (encodeAPNG sampleGetImageData sampleEncode [⟨0, 0, []⟩] 100 0).calls = [] ∧
    (encodeAPNG sampleGetImageData sampleEncode [⟨0, 0, []⟩] 100 0).result =
      Outcome.raised JsError.indexSizeError := by
  refine ⟨?_, by decide!, by decide!, by decide!⟩
  intro canvas sw sh h
  unfold sampleGetImageData
  rw [if_pos h]

/-- C17, amended, witness: two 1×1 canvases whose reads return are passed to
the encoder in order; a 0×0 canvas in first position makes the read raise. -/
theorem encodeAPNG_empty_and_nonempty_witness :
    List.Forall₂
      (fun c buf => sampleGetImageData c (⟨1, 1, [1, 2, 3, 4]⟩ : Canvas).width
        (⟨1, 1, [1, 2, 3, 4]⟩ : Canvas).height = Outcome.returned buf)
      [⟨1, 1, [1, 2, 3, 4]⟩, ⟨1, 1, [5, 6, 7, 8]⟩] [[1, 2, 3, 4], [5, 6, 7, 8]] ∧
    (encodeAPNG sampleGetImageData sampleEncode
        [⟨1, 1, [1, 2, 3, 4]⟩, ⟨1, 1, [5, 6, 7, 8]⟩] 100 0).calls =
      [⟨[[1, 2, 3, 4], [5, 6, 7, 8]], 1, 1, 0, [100, 100]⟩] ∧
    (∃ call : EncodeCall,
        (encodeAPNG sampleGetImageData sampleEncode
          [⟨1, 1, [1, 2, 3, 4]⟩, ⟨1, 1, [5, 6, 7, 8]⟩] 100 0).reads =
          [(⟨1, 1, [1, 2, 3, 4]⟩ : Canvas), ⟨1, 1, [5, 6, 7, 8]⟩].map
            (fun c => ⟨c, (⟨1, 1, [1, 2, 3, 4]⟩ : Canvas).width,
              (⟨1, 1, [1, 2, 3, 4]⟩ : Canvas).height⟩) ∧
        (encodeAPNG sampleGetImageData sampleEncode
          [⟨1, 1, [1, 2, 3, 4]⟩, ⟨1, 1, [5, 6, 7, 8]⟩] 100 0).calls = [call] ∧
        (encodeAPNG sampleGetImageData sampleEncode
          [⟨1, 1, [1, 2, 3, 4]⟩, ⟨1, 1, [5, 6, 7, 8]⟩] 100 0).result =
          Outcome.map some (sampleEncode call) ∧
        call.bufs = [[1, 2, 3, 4], [5, 6, 7, 8]] ∧
        call.bufs.length = [(⟨1, 1, [1, 2, 3, 4]⟩ : Canvas), ⟨1, 1, [5, 6, 7, 8]⟩].length ∧
        call.width = (⟨1, 1, [1, 2, 3, 4]⟩ : Canvas).width ∧
        call.height = (⟨1, 1, [1, 2, 3, 4]⟩ : Canvas).height ∧ call.loop = 0 ∧
        call.delays.length = [(⟨1, 1, [1, 2, 3, 4]⟩ : Canvas), ⟨1, 1, [5, 6, 7, 8]⟩].length ∧
        (∀ d ∈ call.delays, d = 100)) ∧
    ((encodeAPNG sampleGetImageData sampleEncode [⟨0, 0, []⟩, ⟨1, 1, [5, 6, 7, 8]⟩] 100 0).reads =
        ([] ++ [(⟨0, 0, []⟩ : Canvas)]).map
          (fun c => ⟨c, (⟨0, 0, []⟩ : Canvas).width, (⟨0, 0, []⟩ : Canvas).height⟩) ∧
      (encodeAPNG sampleGetImageData sampleEncode [⟨0, 0, []⟩, ⟨1, 1, [5, 6, 7, 8]⟩] 100 0).calls =
        [] ∧
      (encodeAPNG sampleGetImageData sampleEncode [⟨0, 0, []⟩, ⟨1, 1, [5, 6, 7, 8]⟩] 100 0).result =
        Outcome.raised JsError.indexSizeError) :=
  have h : List.Forall₂
      (fun c buf => sampleGetImageData c (⟨1, 1, [1, 2, 3, 4]⟩ : Canvas).width
        (⟨1, 1, [1, 2, 3, 4]⟩ : Canvas).height = Outcome.returned buf)
      [⟨1, 1, [1, 2, 3, 4]⟩, ⟨1, 1, [5, 6, 7, 8]⟩] [[1, 2, 3, 4], [5, 6, 7, 8]] :=
    List.Forall₂.cons (by decide) (List.Forall₂.cons (by decide) List.Forall₂.nil)
  ⟨h, by decide!,
    (encodeAPNG_empty_and_nonempty sampleGetImageData sampleEncode 100 0).2.1
      ⟨1, 1, [1, 2, 3, 4]⟩ [⟨1, 1, [5, 6, 7, 8]⟩] [[1, 2, 3, 4], [5, 6, 7, 8]] h,
    (encodeAPNG_empty_and_nonempty sampleGetImageData sampleEncode 100 0).2.2.1
      ⟨0, 0, []⟩ [⟨1, 1, [5, 6, 7, 8]⟩] [] ⟨0, 0, []⟩ [⟨1, 1, [5, 6, 7, 8]⟩]
      JsError.indexSizeError rfl (fun _ hc => absurd hc (List.not_mem_nil _)) (by decide)⟩

/-- C18, counterexample: a 2×2 frame followed by a 3×1 frame is passed to the
encoder, with width `2` and height `2`; a zero target width given to
`resizeCanvas` still produces a canvas and a draw call, and the function
returns. -/
theorem dimension_mismatch_not_rejected :
    (encodeAPNG sampleGetImageData sampleEncode [⟨2, 2, [1]⟩, ⟨3, 1, [2]⟩] 100 0).calls =
      [⟨[[1], [2]], 2, 2, 0, [100, 100]⟩] ∧
    (encodeAPNG sampleGetImageData sampleEncode [⟨2, 2, [1]⟩, ⟨3, 1, [2]⟩] 100 0).result =
      Outcome.returned (some ⟨[[1], [2]], 2, 2, 0, [100, 100]⟩) ∧
    resizeCanvas sampleDrawImage ⟨100, 50, []⟩ 0 270 =
      ⟨0, 270, [⟨⟨100, 50, []⟩, 0, 0, 100, 50,
        JsNum.fin 0, JsNum.fin 135, JsNum.fin 0, JsNum.fin 0⟩], Outcome.returned ()⟩ :=
  ⟨by decide!, by decide!, by decide!⟩

/-- C18, amended: neither function compares or validates dimensions itself; an
input is rejected only where a call into the platform or the encoder raises.
`encodeAPNG` returns `null` only for the empty sequence. For a non-empty
sequence every read is made at the first frame's width and height, whatever
the frame's own; when the reads return, all the buffers are passed to the
encoder with the first frame's dimensions; an exception of `encodeAPNG` is an
exception of a frame read or of the encoder; and when the first frame has a
zero width or height and the frame read raises `IndexSizeError` on a zero
size, the first read raises it and the encoder is not called. `resizeCanvas`,
for every source and target, zero dimensions included, creates the target
canvas and makes its draw call, and its outcome is that of the draw call: for
a source of zero width or height it raises `InvalidStateError` when the draw
call does. -/
theorem dimensions_are_not_checked {β : Type}
    (getImageData : Canvas → Nat → Nat → Outcome (List Nat)) (encode : EncodeCall → Outcome β)
    (drawImage : DrawImageCall → Outcome Unit)
    (first : Canvas) (rest : List Canvas) (delay : ℚ) (loop : Nat)
    (canvas : Canvas) (targetW targetH : Nat) :
    (encodeAPNG getImageData encode (first :: rest) delay loop).result ≠
      Outcome.returned none ∧
    (∀ r ∈ (encodeAPNG getImageData encode (first :: rest) delay loop).reads,
      r.width = first.width ∧ r.height = first.height) ∧
    ((∀ c ∈ first :: rest, ∃ buf,
        getImageData c first.width first.height = Outcome.returned buf) →
      ∃ call : EncodeCall,
        (encodeAPNG getImageData encode (first :: rest) delay loop).reads =
          (first :: rest).map (fun c => ⟨c, first.width, first.height⟩) ∧
        (encodeAPNG getImageData encode (first :: rest) delay loop).calls = [call] ∧
        call.width = first.width ∧ call.height = first.height ∧
        call.bufs.length = rest.length + 1 ∧
        (encodeAPNG getImageData encode (first :: rest) delay loop).result =
          Outcome.map some (encode call)) ∧
    (∀ e, (encodeAPNG getImageData encode (first :: rest) delay loop).result =
        Outcome.raised e →
      (∃ c ∈ first :: rest, getImageData c first.width first.height = Outcome.raised e) ∨
      (∃ call, (encodeAPNG getImageData encode (first :: rest) delay loop).calls = [call] ∧
        encode call = Outcome.raised e)) ∧
    (RaisesOnEmptyRead getImageData → first.width = 0 ∨ first.height = 0 →
      (encodeAPNG getImageData encode (first :: rest) delay loop).reads =
        [⟨first, first.width, first.height⟩] ∧
      (encodeAPNG getImageData encode (first :: rest) delay loop).calls = [] ∧
      (encodeAPNG getImageData encode (first :: rest) delay loop).result =
        Outcome.raised JsError.indexSizeError) ∧
    (resizeCanvas drawImage canvas targetW targetH).width = targetW ∧
    (resizeCanvas drawImage canvas targetW targetH).height = targetH ∧
    (∃ dx dy dw dh,
      (resizeCanvas drawImage canvas targetW targetH).draws =
        [⟨canvas, 0, 0, canvas.width, canvas.height, dx, dy, dw, dh⟩] ∧
      (resizeCanvas drawImage canvas targetW targetH).result =
        drawImage ⟨canvas, 0, 0, canvas.width, canvas.height, dx, dy, dw, dh⟩) ∧
    (RaisesOnEmptySource drawImage → canvas.width = 0 ∨ canvas.height = 0 →
      (resizeCanvas drawImage canvas targetW targetH).result =
        Outcome.raised JsError.invalidStateError) := by
  have hcases := readFrames_cases getImageData first.width first.height (first :: rest)
  refine ⟨?_, ?_, ?_, ?_, ?_, rfl, rfl, ⟨_, _, _, _, rfl, rfl⟩, ?_⟩
  · rcases hcases with ⟨bufs, hb⟩ | ⟨pre, c, post, e, h1, h2, h3⟩
    · rw [(encodeAPNG_of_returned getImageData encode delay loop first rest bufs hb).2.2]
      exact outcome_map_some_ne_none _
    · rw [(encodeAPNG_of_raised getImageData encode delay loop first rest pre c post e h1 h2
        h3).2.2]
      simp
  · intro r hr
    rcases hcases with ⟨bufs, hb⟩ | ⟨pre, c, post, e, h1, h2, h3⟩
    · rw [(encodeAPNG_of_returned getImageData encode delay loop first rest bufs hb).1] at hr
      obtain ⟨c, _, hc⟩ := List.mem_map.mp hr
      rw [← hc]
      exact ⟨rfl, rfl⟩
    · rw [(encodeAPNG_of_raised getImageData encode delay loop first rest pre c post e h1 h2
        h3).1] at hr
      obtain ⟨c, _, hc⟩ := List.mem_map.mp hr
      rw [← hc]
      exact ⟨rfl, rfl⟩
  · intro hall
    rcases hcases with ⟨bufs, hb⟩ | ⟨pre, c, post, e, h1, h2, h3⟩
    · obtain ⟨k1, k2, k3⟩ :=
        encodeAPNG_of_returned getImageData encode delay loop first rest bufs hb
      refine ⟨_, k1, k2, rfl, rfl, ?_, k3⟩
      have := hb.length_eq
      simp only [List.length_cons] at this
      exact this.symm
    · exfalso
      obtain ⟨buf, hbuf⟩ := hall c (by rw [h1]; simp)
      rw [hbuf] at h3
      exact absurd h3 (by simp)
  · intro e he
    rcases hcases with ⟨bufs, hb⟩ | ⟨pre, c, post, e', h1, h2, h3⟩
    · obtain ⟨_, k2, k3⟩ :=
        encodeAPNG_of_returned getImageData encode delay loop first rest bufs hb
      rw [k3] at he
      exact Or.inr ⟨_, k2, outcome_map_some_raised he⟩
    · obtain ⟨_, _, k3⟩ :=
        encodeAPNG_of_raised getImageData encode delay loop first rest pre c post e' h1 h2 h3
      rw [k3] at he
      have : e' = e := by
        simpa using he
      subst this
      exact Or.inl ⟨c, by rw [h1]; simp, h3⟩
  · intro hplat hzero
    have h3 := hplat first first.width first.height hzero
    have := encodeAPNG_of_raised getImageData encode delay loop first rest [] first rest
      JsError.indexSizeError rfl (fun _ h => absurd h (List.not_mem_nil _)) h3
    simpa using this
  · intro hplat hzero
    exact hplat _ hzero

/-- C18, amended, witness: a frame list whose reads return is passed to the
encoder whatever its dimensions; a 0×0 first frame and a 0×0 source are
rejected by the platform calls. -/
theorem dimensions_are_not_checked_witness :
    (∀ c ∈ [(⟨2, 2, [1]⟩ : Canvas), ⟨3, 1, [2]⟩], ∃ buf,
        sampleGetImageData c (⟨2, 2, [1]⟩ : Canvas).width (⟨2, 2, [1]⟩ : Canvas).height =
          Outcome.returned buf) ∧
    RaisesOnEmptyRead sampleGetImageData ∧ RaisesOnEmptySource sampleDrawImage ∧
    ((⟨0, 0, []⟩ : Canvas).width = 0 ∨ (⟨0, 0, []⟩ : Canvas).height = 0) ∧
    (∃ call : EncodeCall,
        (encodeAPNG sampleGetImageData sampleEncode [⟨2, 2, [1]⟩, ⟨3, 1, [2]⟩] 100 0).reads =
          [(⟨2, 2, [1]⟩ : Canvas), ⟨3, 1, [2]⟩].map
            (fun c => ⟨c, (⟨2, 2, [1]⟩ : Canvas).width, (⟨2, 2, [1]⟩ : Canvas).height⟩) ∧
        (encodeAPNG sampleGetImageData sampleEncode [⟨2, 2, [1]⟩, ⟨3, 1, [2]⟩] 100 0).calls =
          [call] ∧
        call.width = (⟨2, 2, [1]⟩ : Canvas).width ∧
        call.height = (⟨2, 2, [1]⟩ : Canvas).height ∧
        call.bufs.length = [(⟨3, 1, [2]⟩ : Canvas)].length + 1 ∧
        (encodeAPNG sampleGetImageData sampleEncode [⟨2, 2, [1]⟩, ⟨3, 1, [2]⟩] 100 0).result =
          Outcome.map some (sampleEncode call)) ∧
    ((encodeAPNG sampleGetImageData sampleEncode [⟨0, 0, []⟩, ⟨3, 1, [2]⟩] 100 0).reads =
        [⟨⟨0, 0, []⟩, (⟨0, 0, []⟩ : Canvas).width, (⟨0, 0, []⟩ : Canvas).height⟩] ∧
      (encodeAPNG sampleGetImageData sampleEncode [⟨0, 0, []⟩, ⟨3, 1, [2]⟩] 100 0).calls = [] ∧
      (encodeAPNG sampleGetImageData sampleEncode [⟨0, 0, []⟩, ⟨3, 1, [2]⟩] 100 0).result =
        Outcome.raised JsError.indexSizeError) ∧
    (resizeCanvas sampleDrawImage ⟨0, 0, []⟩ 320 270).result =
      Outcome.raised JsError.invalidStateError :=
  have hread : RaisesOnEmptyRead sampleGetImageData := by
    intro canvas sw sh h
    unfold sampleGetImageData
    rw [if_pos h]
  have hdraw : RaisesOnEmptySource sampleDrawImage := by
    intro call h
    unfold sampleDrawImage
    rw [if_pos h]
  have hall : ∀ c ∈ [(⟨2, 2, [1]⟩ : Canvas), ⟨3, 1, [2]⟩], ∃ buf,
      sampleGetImageData c (⟨2, 2, [1]⟩ : Canvas).width (⟨2, 2, [1]⟩ : Canvas).height =
        Outcome.returned buf := by
    intro c _
    exact ⟨c.pixels, by simp [sampleGetImageData]⟩
  ⟨hall, hread, hdraw, Or.inl rfl,
    (dimensions_are_not_checked sampleGetImageData sampleEncode sampleDrawImage
      ⟨2, 2, [1]⟩ [⟨3, 1, [2]⟩] 100 0 ⟨0, 0, []⟩ 320 270).2.2.1 hall,
    (dimensions_are_not_checked sampleGetImageData sampleEncode sampleDrawImage
      ⟨0, 0, []⟩ [⟨3, 1, [2]⟩] 100 0 ⟨0, 0, []⟩ 320 270).2.2.2.2.1 hread (Or.inl rfl),
    (dimensions_are_not_checked sampleGetImageData sampleEncode sampleDrawImage
      ⟨0, 0, []⟩ [⟨3, 1, [2]⟩] 100 0 ⟨0, 0, []⟩ 320 270).2.2.2.2.2.2.2.2 hdraw (Or.inl rfl)⟩

/-! ## removeColorGlobal pixel by pixel -/

theorem removeColorGlobalBody_eq (tR tG tB : Int) (tol : ℚ) (d : List Nat) (k : Nat) :
    removeColorGlobalBody tR tG tB tol d (4 * k) =
      if colorMatch (readAt d ((k : Int) * 4)) (readAt d ((k : Int) * 4 + 1))
          (readAt d ((k : Int) * 4 + 2)) (some tR) (some tG) (some tB) tol then
        writeAt d ((k : Int) * 4 + 3) 0
      else d := by
  unfold removeColorGlobalBody
  have h : ((4 * k : Nat) : Int) = (k : Int) * 4 := by push_cast; ring
  rw [h]

/-- After the first `m` iterations of the loop of `removeColorGlobal`, the
alpha of pixel number `k` is `0` when `k < m` and the pixel matches, and is
the original alpha otherwise. -/
theorem removeColorGlobal_foldl_alpha (img : ImageData) (tR tG tB : Int) (tol : ℚ) :
    ∀ m : Nat,
      AlphaCleared img.data ((List.range m).foldl
        (fun data k => removeColorGlobalBody tR tG tB tol data (4 * k)) img.data) ∧
      ∀ k : Nat, (k : Int) * 4 + 3 < img.data.length →
        ((k < m ∧ colorMatch (readAt img.data ((k : Int) * 4))
            (readAt img.data ((k : Int) * 4 + 1)) (readAt img.data ((k : Int) * 4 + 2))
            (some tR) (some tG) (some tB) tol = true) →
          readAt ((List.range m).foldl
            (fun data k => removeColorGlobalBody tR tG tB tol data (4 * k)) img.data)
            ((k : Int) * 4 + 3) = some 0) ∧
        (¬ (k < m ∧ colorMatch (readAt img.data ((k : Int) * 4))
            (readAt img.data ((k : Int) * 4 + 1)) (readAt img.data ((k : Int) * 4 + 2))
            (some tR) (some tG) (some tB) tol = true) →
          readAt ((List.range m).foldl
            (fun data k => removeColorGlobalBody tR tG tB tol data (4 * k)) img.data)
            ((k : Int) * 4 + 3) = readAt img.data ((k : Int) * 4 + 3)) := by
  intro m
  induction m with
  | zero =>
    refine ⟨alphaCleared_refl _, ?_⟩
    intro k _
    simp
  | succ m ih =>
    obtain ⟨hfr, hal⟩ := ih
    rw [List.range_succ, List.foldl_append]
    simp only [List.foldl_cons, List.foldl_nil]
    rw [removeColorGlobalBody_eq, colorMatch_frame hfr]
    by_cases hm : colorMatch (readAt img.data ((m : Int) * 4))
        (readAt img.data ((m : Int) * 4 + 1)) (readAt img.data ((m : Int) * 4 + 2))
        (some tR) (some tG) (some tB) tol = true
    · rw [if_pos hm]
      refine ⟨alphaCleared_trans hfr (alphaCleared_writeAt _ _), ?_⟩
      intro k hk
      by_cases hkm : k = m
      · subst hkm
        constructor
        · intro _
          exact readAt_writeAt_self (by omega) (by rw [hfr.1]; exact hk)
        · intro h
          exact absurd ⟨Nat.lt_succ_self _, hm⟩ h
      · have hne : (m : Int) * 4 + 3 ≠ (k : Int) * 4 + 3 := by omega
        rw [readAt_writeAt_ne hne]
        constructor
        · rintro ⟨h1, h2⟩
          exact (hal k hk).1 ⟨by omega, h2⟩
        · intro h
          exact (hal k hk).2 (fun ⟨h1, h2⟩ => h ⟨by omega, h2⟩)
    · rw [if_neg hm]
      refine ⟨hfr, ?_⟩
      intro k hk
      constructor
      · rintro ⟨h1, h2⟩
        have hkm : k ≠ m := by
          intro h; subst h; exact hm h2
        exact (hal k hk).1 ⟨by omega, h2⟩
      · intro h
        apply (hal k hk).2
        rintro ⟨h1, h2⟩
        exact h ⟨by omega, h2⟩

/-- On a well-formed buffer `removeColorGlobal` clears the alpha of exactly the
pixels that match the target colour. -/
theorem removeColorGlobal_alpha {img : ImageData} (hwf : img.WF) (tR tG tB : Int) (tol : ℚ)
    (p : Int × Int) (hp : InGrid img.width img.height p) :
    (pixelMatch img (some tR) (some tG) (some tB) tol p = true →
      alphaAt img.width (removeColorGlobal img tR tG tB tol).data p = some 0) ∧
    (¬ pixelMatch img (some tR) (some tG) (some tB) tol p = true →
      alphaAt img.width (removeColorGlobal img tR tG tB tol).data p =
        alphaAt img.width img.data p) := by
  have h0 := pixelIdx_nonneg hp
  have h1 := pixelIdx_lt hp
  have hlen := hwf.2.2.1
  obtain ⟨k, hk⟩ : ∃ k : Nat, pixelIdx img.width p = (k : Int) :=
    ⟨(pixelIdx img.width p).toNat, by omega⟩
  have hkl : k < img.width * img.height := by
    rw [hk] at h1
    exact_mod_cast h1
  have hm : (img.data.length + 3) / 4 = img.width * img.height := by omega
  have hspec := (removeColorGlobal_foldl_alpha img tR tG tB tol (img.width * img.height)).2 k
    (by rw [hlen]; push_cast; omega)
  unfold alphaAt pixelMatch removeColorGlobal
  simp only
  rw [hm, hk]
  constructor
  · intro h
    exact hspec.1 ⟨hkl, h⟩
  · intro h
    exact hspec.2 (fun ⟨_, h'⟩ => h h')

/-- A pixel that a region grower leaves with alpha `0` has alpha `0` after
`removeColorGlobal` with the seed's colour. -/
theorem cleared_within_global {img : ImageData} (hwf : img.WF) {seed : Int × Int}
    {cR cG cB : Nat} (hc : HasColor img seed cR cG cB) {tol : ℚ} {out : ImageData}
    (c : IsRegionCleared img seed tol out) (p : Int × Int)
    (hp : InGrid img.width img.height p) (h : alphaAt img.width out.data p = some 0) :
    alphaAt img.width (removeColorGlobal img cR cG cB tol).data p = some 0 := by
  have hg := removeColorGlobal_alpha hwf cR cG cB tol p hp
  by_cases hm : pixelMatch img (some (cR : Int)) (some (cG : Int)) (some (cB : Int)) tol p = true
  · exact hg.1 hm
  · rw [hg.2 hm]
    have hnr : ¬ Region img seed tol p := by
      intro hr
      have := reach_holds hr
      rw [nearSeed_of_hasColor hc] at this
      exact hm this
    rw [← (c.2.2.2 p hp).2 hnr]
    exact h

/-- C13, counterexample: on the 1×1 buffer of colour `(1, 1, 1)`, with target
black and the tolerance `Math.sqrt(3)`, a double whose square is less than
`3`, `removeColorGlobal` clears the pixel, although its distance `√3` from the
target is more than the tolerance. -/
theorem removeColorGlobal_clears_beyond_distance :
    img1x1Near.WF ∧ (0 : ℚ) ≤ sqrt3Double ∧ sqrtDouble 3 = sqrt3Double ∧
    roundDouble sqrt3Double = sqrt3Double ∧
    sqrt3Double * sqrt3Double < ((distSq (1 : Nat) (1 : Nat) (1 : Nat) 0 0 0 : Int) : ℚ) ∧
    withinTol (distSq (1 : Nat) (1 : Nat) (1 : Nat) 0 0 0) sqrt3Double = true ∧
    removeColorGlobal img1x1Near 0 0 0 sqrt3Double = ⟨1, 1, [1, 1, 1, 0]⟩ :=
  ⟨by decide, by decide!, by decide!, by decide!, by decide!, by decide!, by decide!⟩

/-- C13, amended: on a well-formed buffer, for every target colour and tolerance
and every pixel `p` of the grid with RGB `(r, g, b)`, the alpha of `p` after
`removeColorGlobal` is `0` when `(r, g, b)` passes the test
`Math.sqrt(...) <= tolerance` against the target as the code computes it, with
the square root rounded to a double, and is the alpha of `p` before the call
otherwise; so it is the same for any pixel of any well-formed buffer with the
same RGB and the same alpha. For a tolerance that is not negative the test
holds whenever the exact distance is at most the tolerance, and it holds only
when the exact distance is at most `tolerance * (1 + 2^-50)` (on the squares:
`d² ≤ tolerance² * (1 + 2^-50)`). -/
theorem removeColorGlobal_pointwise (img : ImageData) (targetR targetG targetB : Int)
    (tolerance : ℚ) (hwf : img.WF) (p : Int × Int) (hp : InGrid img.width img.height p)
    (r g b : Nat) (hc : HasColor img p r g b) :
    (withinTol (distSq r g b targetR targetG targetB) tolerance = true →
      alphaAt img.width (removeColorGlobal img targetR targetG targetB tolerance).data p =
        some 0) ∧
    (withinTol (distSq r g b targetR targetG targetB) tolerance = false →
      alphaAt img.width (removeColorGlobal img targetR targetG targetB tolerance).data p =
        alphaAt img.width img.data p) ∧
    (∀ (img' : ImageData) (p' : Int × Int), img'.WF → InGrid img'.width img'.height p' →
      HasColor img' p' r g b → alphaAt img'.width img'.data p' = alphaAt img.width img.data p →
      alphaAt img'.width (removeColorGlobal img' targetR targetG targetB tolerance).data p' =
        alphaAt img.width (removeColorGlobal img targetR targetG targetB tolerance).data p) ∧
    (0 ≤ tolerance → distSq r g b targetR targetG targetB < 2 ^ 106 →
      ((distSq r g b targetR targetG targetB : Int) : ℚ) ≤ tolerance * tolerance →
      withinTol (distSq r g b targetR targetG targetB) tolerance = true) ∧
    (0 ≤ tolerance → withinTol (distSq r g b targetR targetG targetB) tolerance = true →
      ((distSq r g b targetR targetG targetB : Int) : ℚ) ≤
        tolerance * tolerance * (1 + 1 / 2 ^ 50)) := by
  have hg := removeColorGlobal_alpha hwf targetR targetG targetB tolerance p hp
  rw [pixelMatch_of_hasColor hc] at hg
  have hd0 : 0 ≤ distSq r g b targetR targetG targetB := by
    unfold distSq
    positivity
  refine ⟨hg.1, ?_, ?_, fun h0 hlt hle => withinTol_of_le_sq hd0 hlt h0 hle,
    fun h0 h => le_sq_of_withinTol h0 h⟩
  · intro h
    exact hg.2 (by rw [h]; simp)
  · intro img' p' hwf' hp' hc' hα
    have hg' := removeColorGlobal_alpha hwf' targetR targetG targetB tolerance p' hp'
    rw [pixelMatch_of_hasColor hc'] at hg'
    by_cases hm : withinTol (distSq r g b targetR targetG targetB) tolerance = true
    · rw [hg.1 hm, hg'.1 hm]
    · rw [hg.2 hm, hg'.2 hm, hα]

/-- C13, amended, witness: on the 3×1 buffer black, grey, black with target black and
tolerance `10`, the two black pixels are cleared wherever they are and the
grey pixel keeps its alpha. -/
theorem removeColorGlobal_pointwise_witness :
    img3x1.WF ∧ InGrid img3x1.width img3x1.height (2, 0) ∧ HasColor img3x1 (2, 0) 0 0 0 ∧
    removeColorGlobal img3x1 0 0 0 10 = ⟨3, 1, [0, 0, 0, 0, 9, 9, 9, 255, 0, 0, 0, 0]⟩ ∧
    (withinTol (distSq (0 : Nat) (0 : Nat) (0 : Nat) 0 0 0) 10 = true →
      alphaAt img3x1.width (removeColorGlobal img3x1 0 0 0 10).data (2, 0) = some 0) :=
  ⟨by decide, by decide, by decide, by decide!,
    (removeColorGlobal_pointwise img3x1 0 0 0 10 (by decide) (2, 0) (by decide) 0 0 0
      (by decide)).1⟩

/-- C14: on a well-formed buffer with the seed inside the grid and of RGB `c`,
both region growers return, and every pixel with alpha `0` after
`removeBackground`, or after `floodFill`, has alpha `0` after
`removeColorGlobal` with target `c` and the same tolerance on the original
buffer. The inclusion can be strict: on the 3×1 buffer black, grey, black
with tolerance `10`, a grower seeded at the left pixel leaves the right pixel
opaque while `removeColorGlobal` clears both black pixels. -/
theorem regional_within_global (img : ImageData) (startX startY : Int) (tolerance : ℚ)
    (cR cG cB : Nat) (hwf : img.WF) (hseed : InGrid img.width img.height (startX, startY))
    (hc : HasColor img (startX, startY) cR cG cB) :
    ((∃ out, removeBackground (4 * (img.width * img.height) + 1) img startX startY tolerance =
        some out) ∧
      ∀ fuel out, removeBackground fuel img startX startY tolerance = some out →
        ∀ p, InGrid img.width img.height p → alphaAt img.width out.data p = some 0 →
          alphaAt img.width (removeColorGlobal img cR cG cB tolerance).data p = some 0) ∧
    ((∃ out, floodFill (4 * (img.width * img.height) + 1) img startX startY tolerance =
        some out) ∧
      ∀ fuel out, floodFill fuel img startX startY tolerance = some out →
        ∀ p, InGrid img.width img.height p → alphaAt img.width out.data p = some 0 →
          alphaAt img.width (removeColorGlobal img cR cG cB tolerance).data p = some 0) ∧
    (removeBackground 13 img3x1 0 0 10 = some ⟨3, 1, [0, 0, 0, 0, 9, 9, 9, 255, 0, 0, 0, 255]⟩ ∧
      floodFill 13 img3x1 0 0 10 = some ⟨3, 1, [0, 0, 0, 0, 9, 9, 9, 255, 0, 0, 0, 255]⟩ ∧
      removeColorGlobal img3x1 0 0 0 10 = ⟨3, 1, [0, 0, 0, 0, 9, 9, 9, 255, 0, 0, 0, 0]⟩) := by
  refine ⟨⟨removeBackground_returns hwf hseed tolerance _ (le_refl _), ?_⟩,
    ⟨floodFill_returns img startX startY tolerance _ (le_refl _), ?_⟩,
    by decide!, by decide!, by decide!⟩
  · intro fuel out h p hp h0
    exact cleared_within_global hwf hc (removeBackground_cleared hwf hseed h) p hp h0
  · intro fuel out h p hp h0
    by_cases hα : alphaAt img.width img.data (startX, startY) = some 0
    · have : out = img := floodFill_unique h (floodFill_transparent 0 img startX startY _ hα)
      subst this
      have hg := removeColorGlobal_alpha hwf cR cG cB tolerance p hp
      by_cases hm : pixelMatch out (some (cR : Int)) (some (cG : Int)) (some (cB : Int))
          tolerance p = true
      · exact hg.1 hm
      · rw [hg.2 hm]; exact h0
    · exact cleared_within_global hwf hc (floodFill_cleared hwf hα h) p hp h0

/-- C14, witness: the 3×1 buffer seeded at its left pixel, which is black. -/
theorem regional_within_global_witness :
    img3x1.WF ∧ InGrid img3x1.width img3x1.height (0, 0) ∧ HasColor img3x1 (0, 0) 0 0 0 ∧
    ∀ fuel out, removeBackground fuel img3x1 0 0 10 = some out →
      ∀ p, InGrid img3x1.width img3x1.height p → alphaAt img3x1.width out.data p = some 0 →
        alphaAt img3x1.width (removeColorGlobal img3x1 (0 : Nat) (0 : Nat) (0 : Nat) 10).data p =
          some 0 :=
  ⟨by decide, by decide, by decide,
    (regional_within_global img3x1 0 0 10 0 0 0 (by decide) (by decide) (by decide)).1.2⟩

/-! ## Counting iterations -/

/-- When every iteration keeps `P` and lowers the measure `μ`, the loop of
`removeBackground` makes at most `μ s` iterations. -/
theorem removeBackgroundLoopIters_le (width height : Nat) (tR tG tB : Option Int)
    (tol : ℚ) (P : FillState → Prop) (μ : FillState → Nat)
    (hstep : ∀ d v x y q, P ⟨d, v, (x, y) :: q⟩ →
      P (removeBackgroundBody width height tR tG tB tol x y d v q) ∧
      μ (removeBackgroundBody width height tR tG tB tol x y d v q) < μ ⟨d, v, (x, y) :: q⟩) :
    ∀ fuel s, P s → removeBackgroundLoopIters width height tR tG tB tol fuel s ≤ μ s := by
  intro fuel
  induction fuel with
  | zero =>
    intro s _
    obtain ⟨d, v, f⟩ := s
    cases f <;> simp [removeBackgroundLoopIters]
  | succ n ih =>
    intro s hP
    obtain ⟨d, v, f⟩ := s
    cases f with
    | nil => simp [removeBackgroundLoopIters]
    | cons c f =>
      obtain ⟨x, y⟩ := c
      simp only [removeBackgroundLoopIters]
      have h := hstep _ _ _ _ _ hP
      have := ih _ h.1
      omega

/-- When every iteration keeps `P` and lowers the measure `μ`, the loop of
`floodFill` makes at most `μ s` iterations. -/
theorem floodFillLoopIters_le (width height : Nat) (tR tG tB : Option Int)
    (tol : ℚ) (P : FillState → Prop) (μ : FillState → Nat)
    (hstep : ∀ d v x y q, P ⟨d, v, (x, y) :: q⟩ →
      P (floodFillBody width height tR tG tB tol x y d v q) ∧
      μ (floodFillBody width height tR tG tB tol x y d v q) < μ ⟨d, v, (x, y) :: q⟩) :
    ∀ fuel s, P s → floodFillLoopIters width height tR tG tB tol fuel s ≤ μ s := by
  intro fuel
  induction fuel with
  | zero =>
    intro s _
    obtain ⟨d, v, f⟩ := s
    cases f <;> simp [floodFillLoopIters]
  | succ n ih =>
    intro s hP
    obtain ⟨d, v, f⟩ := s
    cases f with
    | nil => simp [floodFillLoopIters]
    | cons c f =>
      obtain ⟨x, y⟩ := c
      simp only [floodFillLoopIters]
      have h := hstep _ _ _ _ _ hP
      have := ih _ h.1
      omega

/-- On a well-formed buffer with the seed inside the grid, `removeBackground`
makes at most `4 * width * height + 1` loop iterations. -/
theorem removeBackgroundIters_le {img : ImageData} (hwf : img.WF) {sx sy : Int}
    (hseed : InGrid img.width img.height (sx, sy)) (tol : ℚ) (fuel : Nat) :
    removeBackgroundIters fuel img sx sy tol ≤ 4 * (img.width * img.height) + 1 := by
  unfold removeBackgroundIters
  simp only
  have h := removeBackgroundLoopIters_le img.width img.height
    ((readAt img.data ((sy * img.width + sx) * 4)).map Int.ofNat)
    ((readAt img.data ((sy * img.width + sx) * 4 + 1)).map Int.ofNat)
    ((readAt img.data ((sy * img.width + sx) * 4 + 2)).map Int.ofNat) tol
    (fun s => FillInv img (fun p => pixelMatch img
        ((readAt img.data ((sy * img.width + sx) * 4)).map Int.ofNat)
        ((readAt img.data ((sy * img.width + sx) * 4 + 1)).map Int.ofNat)
        ((readAt img.data ((sy * img.width + sx) * 4 + 2)).map Int.ofNat) tol p = true)
        (sx, sy) s ∧ ∀ c ∈ s.frontier, InGrid img.width img.height c)
    (fun s => 4 * unvisited s.visited + s.frontier.length)
    (by
      intro d v x y q hP
      refine ⟨removeBackgroundBody_inv hwf _ _ _ tol (sx, sy) d v x y q hP.1 hP.2, ?_⟩
      exact (removeBackgroundBody_measure img.width img.height _ _ _ tol d v x y q
        hP.1.vlen (hP.2 _ (List.mem_cons_self _ _))).2)
    fuel (removeBackgroundInit img sx sy)
    ⟨fillInv_init img _ (sx, sy), by
      intro c hc
      rw [List.mem_singleton.mp hc]
      exact hseed⟩
  have hu : 4 * unvisited (removeBackgroundInit img sx sy).visited +
      (removeBackgroundInit img sx sy).frontier.length = 4 * (img.width * img.height) + 1 := by
    show 4 * unvisited (List.replicate (img.width * img.height) 0) + 1 = _
    rw [unvisited_replicate]
  rw [← hu]
  exact h

/-- On every input, `floodFill` makes at most `4 * width * height + 1` loop
iterations. -/
theorem floodFillIters_le (img : ImageData) (sx sy : Int) (tol : ℚ) (fuel : Nat) :
    floodFillIters fuel img sx sy tol ≤ 4 * (img.width * img.height) + 1 := by
  unfold floodFillIters
  simp only
  split
  · exact Nat.zero_le _
  · have h := floodFillLoopIters_le img.width img.height
      ((readAt img.data ((sy * img.width + sx) * 4)).map Int.ofNat)
      ((readAt img.data ((sy * img.width + sx) * 4 + 1)).map Int.ofNat)
      ((readAt img.data ((sy * img.width + sx) * 4 + 2)).map Int.ofNat) tol
      (fun s => s.visited.length = img.width * img.height)
      (fun s => 4 * unvisited s.visited + s.frontier.length)
      (fun d v x y q hP => floodFillBody_measure img.width img.height _ _ _ tol d v x y q hP)
      fuel (removeBackgroundInit img sx sy) (by simp [removeBackgroundInit])
    have hu : 4 * unvisited (removeBackgroundInit img sx sy).visited +
        (removeBackgroundInit img sx sy).frontier.length = 4 * (img.width * img.height) + 1 := by
      show 4 * unvisited (List.replicate (img.width * img.height) 0) + 1 = _
      rw [unvisited_replicate]
    rw [← hu]
    exact h

/-- C11, counterexample: on the 2×1 buffer of two black pixels, which has
`width * height = 2`, `removeBackground` seeded at the left pixel makes 3
loop iterations and `floodFill` seeded at the right pixel makes 9. -/
theorem dequeues_exceed_pixel_count :
    img2x1.WF ∧ InGrid img2x1.width img2x1.height (0, 0) ∧
    InGrid img2x1.width img2x1.height (1, 0) ∧
    removeBackground 9 img2x1 0 0 0 = some ⟨2, 1, [0, 0, 0, 0, 0, 0, 0, 0]⟩ ∧
    removeBackgroundIters 9 img2x1 0 0 0 = 3 ∧
    floodFill 9 img2x1 1 0 0 = some ⟨2, 1, [0, 0, 0, 0, 0, 0, 0, 0]⟩ ∧
    floodFillIters 9 img2x1 1 0 0 = 9 ∧
    ¬ (removeBackgroundIters 9 img2x1 0 0 0 ≤ img2x1.width * img2x1.height) ∧
    ¬ (floodFillIters 9 img2x1 1 0 0 ≤ img2x1.width * img2x1.height) :=
  ⟨by decide, by decide, by decide, by decide!, by decide!, by decide!, by decide!,
    by decide!, by decide!⟩

/-- C11, amended: on a well-formed buffer with the seed inside the grid, for
every tolerance, the number of coordinates removed from the frontier (loop
iterations) during a call of `removeBackground`, and during a call of
`floodFill`, is at most `4 * width * height + 1`; both calls return within
that many iterations. -/
theorem dequeues_at_most_four_per_pixel (img : ImageData) (startX startY : Int)
    (tolerance : ℚ) (hwf : img.WF) (hseed : InGrid img.width img.height (startX, startY)) :
    (∀ fuel, removeBackgroundIters fuel img startX startY tolerance ≤
      4 * (img.width * img.height) + 1) ∧
    (∀ fuel, floodFillIters fuel img startX startY tolerance ≤
      4 * (img.width * img.height) + 1) ∧
    (∃ out, removeBackground (4 * (img.width * img.height) + 1) img startX startY tolerance =
      some out) ∧
    (∃ out, floodFill (4 * (img.width * img.height) + 1) img startX startY tolerance =
      some out) :=
  ⟨fun fuel => removeBackgroundIters_le hwf hseed tolerance fuel,
    fun fuel => floodFillIters_le img startX startY tolerance fuel,
    removeBackground_returns hwf hseed tolerance _ (le_refl _),
    floodFill_returns img startX startY tolerance _ (le_refl _)⟩

/-- C11, amended, witness: the 2×1 buffer, where the bound is `9` and
`floodFill` reaches it. -/
theorem dequeues_at_most_four_per_pixel_witness :
    img2x1.WF ∧ InGrid img2x1.width img2x1.height (1, 0) ∧
    floodFillIters 9 img2x1 1 0 0 = 4 * (img2x1.width * img2x1.height) + 1 ∧
    (∀ fuel, removeBackgroundIters fuel img2x1 1 0 0 ≤
      4 * (img2x1.width * img2x1.height) + 1) ∧
    (∀ fuel, floodFillIters fuel img2x1 1 0 0 ≤ 4 * (img2x1.width * img2x1.height) + 1) :=
  ⟨by decide, by decide, by decide!,
    (dequeues_at_most_four_per_pixel img2x1 1 0 0 (by decide) (by decide)).1,
    (dequeues_at_most_four_per_pixel img2x1 1 0 0 (by decide) (by decide)).2.1⟩

/-! ## A seed outside the grid -/

theorem writeAt_out_of_range {v : List Nat} {i : Int} (a : Nat)
    (h : ¬ (0 ≤ i ∧ i < v.length)) : writeAt v i a = v := by
  unfold writeAt
  split
  · apply List.set_eq_of_length_le
    omega
  · rfl

theorem readAt_out_of_range {d : List Nat} {i : Int} (h : ¬ (0 ≤ i ∧ i < d.length)) :
    readAt d i = none := by
  unfold readAt
  split
  · apply List.getElem?_eq_none
    omega
  · rfl

/-- On arrays of the lengths of a well-formed buffer, every iteration of the
loop of `removeBackground` lowers `4 * unvisited + frontier length`, whatever
coordinate is popped. -/
theorem removeBackgroundBody_measure_any (width height : Nat) (tR tG tB : Option Int)
    (tol : ℚ) (d v : List Nat) (x y : Int) (q : List (Int × Int))
    (hd : d.length = width * height * 4) (hv : v.length = width * height) :
    ((removeBackgroundBody width height tR tG tB tol x y d v q).data.length =
        width * height * 4 ∧
      (removeBackgroundBody width height tR tG tB tol x y d v q).visited.length =
        width * height) ∧
    4 * unvisited (removeBackgroundBody width height tR tG tB tol x y d v q).visited +
        (removeBackgroundBody width height tR tG tB tol x y d v q).frontier.length <
      4 * unvisited v + ((x, y) :: q).length := by
  unfold removeBackgroundBody
  simp only
  by_cases hvis : truthy (readAt v (y * width + x)) = true
  · rw [if_pos hvis]
    simp [hv, hd]
  · rw [if_neg hvis]
    by_cases hin : 0 ≤ y * (width : Int) + x ∧ y * (width : Int) + x < (v.length : Int)
    · have hu := unvisited_writeAt hin.1 hin.2 (by simpa using hvis)
      split
      · refine ⟨⟨by simp only [length_writeAt]; exact hd,
          by simp only [length_writeAt]; exact hv⟩, ?_⟩
        simp only [List.length_cons]
        have l1 := length_ite_cons (x > 0) (x - 1, y) q
        have l2 := length_ite_cons (x < (width : Int) - 1) (x + 1, y)
          (if x > 0 then (x - 1, y) :: q else q)
        have l3 := length_ite_cons (y > 0) (x, y - 1)
          (if x < (width : Int) - 1 then (x + 1, y) :: (if x > 0 then (x - 1, y) :: q else q)
            else (if x > 0 then (x - 1, y) :: q else q))
        have l4 := length_ite_cons (y < (height : Int) - 1) (x, y + 1)
          (if y > 0 then (x, y - 1) ::
            (if x < (width : Int) - 1 then (x + 1, y) :: (if x > 0 then (x - 1, y) :: q else q)
              else (if x > 0 then (x - 1, y) :: q else q))
            else (if x < (width : Int) - 1 then
              (x + 1, y) :: (if x > 0 then (x - 1, y) :: q else q)
              else (if x > 0 then (x - 1, y) :: q else q)))
        omega
      · refine ⟨⟨hd, by simp only [length_writeAt]; exact hv⟩, ?_⟩
        simp only [List.length_cons]
        omega
    · have hr : readAt d ((y * (width : Int) + x) * 4) = none := by
        apply readAt_out_of_range
        rw [hd]
        rw [hv] at hin
        push_cast at hin ⊢
        omega
      rw [hr, writeAt_out_of_range 1 hin]
      have hcm : colorMatch none (readAt d ((y * (width : Int) + x) * 4 + 1))
          (readAt d ((y * (width : Int) + x) * 4 + 2)) tR tG tB tol = false := by
        simp [colorMatch]
      rw [hcm]
      simp [hd, hv]

/-- On a well-formed buffer `removeBackground` returns under every budget of at
least `4 * width * height + 1` iterations, wherever the seed is. -/
theorem removeBackground_returns_any {img : ImageData} (hwf : img.WF) (sx sy : Int) (tol : ℚ)
    (fuel : Nat) (hfuel : 4 * (img.width * img.height) + 1 ≤ fuel) :
    ∃ out, removeBackground fuel img sx sy tol = some out := by
  unfold removeBackground
  simp only
  obtain ⟨s', hs'⟩ := removeBackgroundLoop_terminates img.width img.height
    ((readAt img.data ((sy * img.width + sx) * 4)).map Int.ofNat)
    ((readAt img.data ((sy * img.width + sx) * 4 + 1)).map Int.ofNat)
    ((readAt img.data ((sy * img.width + sx) * 4 + 2)).map Int.ofNat) tol
    (fun s => s.data.length = img.width * img.height * 4 ∧
      s.visited.length = img.width * img.height)
    (fun s => 4 * unvisited s.visited + s.frontier.length)
    (fun d v x y q hP =>
      removeBackgroundBody_measure_any img.width img.height _ _ _ tol d v x y q hP.1 hP.2)
    fuel (removeBackgroundInit img sx sy)
    ⟨hwf.2.2.1, by simp [removeBackgroundInit]⟩
    (by
      show 4 * unvisited (List.replicate (img.width * img.height) 0) + 1 ≤ _
      rw [unvisited_replicate]
      exact hfuel)
  exact ⟨_, by rw [hs']; rfl⟩

/-- With the seed outside the grid, `floodFill` returns its argument after at
most one loop iteration. -/
theorem floodFill_seed_outside (img : ImageData) (sx sy : Int) (tol : ℚ)
    (hout : ¬ InGrid img.width img.height (sx, sy)) (fuel : Nat) (hfuel : 1 ≤ fuel) :
    floodFill fuel img sx sy tol = some img := by
  have hcond : sx < 0 ∨ sx ≥ img.width ∨ sy < 0 ∨ sy ≥ img.height := by
    by_contra hc
    apply hout
    refine ⟨?_, ?_, ?_, ?_⟩ <;> simp only <;> omega
  unfold floodFill
  simp only
  split
  · rfl
  · obtain ⟨n, rfl⟩ : ∃ n, fuel = n + 1 := ⟨fuel - 1, by omega⟩
    simp only [removeBackgroundInit, floodFillLoop, floodFillBody, if_pos hcond]
    cases n <;> simp [floodFillLoop]

/-- With the seed outside the grid, the only array accesses of `floodFill` are
the four reads at the flat offset of the seed. -/
theorem floodFillAccesses_seed_outside (img : ImageData) (sx sy : Int) (tol : ℚ)
    (hout : ¬ InGrid img.width img.height (sx, sy)) (fuel : Nat) :
    floodFillAccesses fuel img sx sy tol =
      [Access.data ((sy * img.width + sx) * 4), Access.data ((sy * img.width + sx) * 4 + 1),
        Access.data ((sy * img.width + sx) * 4 + 2),
        Access.data ((sy * img.width + sx) * 4 + 3)] := by
  have hcond : sx < 0 ∨ sx ≥ img.width ∨ sy < 0 ∨ sy ≥ img.height := by
    by_contra hc
    apply hout
    refine ⟨?_, ?_, ?_, ?_⟩ <;> simp only <;> omega
  unfold floodFillAccesses
  simp only
  split
  · rfl
  · cases fuel with
    | zero => simp [removeBackgroundInit, floodFillLoopAccesses]
    | succ n =>
      simp only [removeBackgroundInit, floodFillLoopAccesses, floodFillBodyAccesses,
        floodFillBody, if_pos hcond]
      cases n <;> simp [floodFillLoopAccesses]

/-- C12, counterexample: on the 1×2 black buffer with the seed `(1, 0)`, which
is outside the grid, both functions return a buffer, after reading the bytes
at flat offset `(0 * 1 + 1) * 4 = 4`, which belong to the pixel `(0, 1)`;
`removeBackground` clears the alpha of both pixels and `floodFill` returns the
buffer unchanged. -/
theorem invalid_seed_not_rejected :
    img1x2.WF ∧ ¬ InGrid img1x2.width img1x2.height (1, 0) ∧
    removeBackground 9 img1x2 1 0 0 = some ⟨1, 2, [0, 0, 0, 0, 0, 0, 0, 0]⟩ ∧
    (removeBackgroundAccesses 9 img1x2 1 0 0).take 3 =
      [Access.data 4, Access.data 5, Access.data 6] ∧
    floodFill 9 img1x2 1 0 0 = some img1x2 ∧
    floodFillAccesses 9 img1x2 1 0 0 =
      [Access.data 4, Access.data 5, Access.data 6, Access.data 7] :=
  ⟨by decide, by decide, by decide!, by decide!, by decide!, by decide!⟩

/-- C12, amended: neither function checks the seed or signals an error. On a
well-formed buffer with the seed outside the grid, each function first reads
the buffer at the flat offset `(startY * width + startX) * 4` and then
returns a buffer; `floodFill` makes no other array access and returns the
buffer it was given, every byte unchanged. -/
theorem invalid_seed_is_not_checked (img : ImageData) (startX startY : Int) (tolerance : ℚ)
    (hwf : img.WF) (hout : ¬ InGrid img.width img.height (startX, startY)) :
    (∀ fuel, 1 ≤ fuel → floodFill fuel img startX startY tolerance = some img) ∧
    (∀ fuel, floodFillAccesses fuel img startX startY tolerance =
      [Access.data ((startY * img.width + startX) * 4),
        Access.data ((startY * img.width + startX) * 4 + 1),
        Access.data ((startY * img.width + startX) * 4 + 2),
        Access.data ((startY * img.width + startX) * 4 + 3)]) ∧
    (∀ fuel, 4 * (img.width * img.height) + 1 ≤ fuel →
      ∃ out, removeBackground fuel img startX startY tolerance = some out) ∧
    (∀ fuel, ∃ rest, removeBackgroundAccesses fuel img startX startY tolerance =
      Access.data ((startY * img.width + startX) * 4) ::
        Access.data ((startY * img.width + startX) * 4 + 1) ::
        Access.data ((startY * img.width + startX) * 4 + 2) :: rest) :=
  ⟨fun fuel hfuel => floodFill_seed_outside img startX startY tolerance hout fuel hfuel,
    fun fuel => floodFillAccesses_seed_outside img startX startY tolerance hout fuel,
    fun fuel hfuel => removeBackground_returns_any hwf startX startY tolerance fuel hfuel,
    fun _ => ⟨_, rfl⟩⟩

/-- C12, amended, witness: the 1×2 buffer with the seed `(1, 0)`. -/
theorem invalid_seed_is_not_checked_witness :
    img1x2.WF ∧ ¬ InGrid img1x2.width img1x2.height (1, 0) ∧
    (∀ fuel, 1 ≤ fuel → floodFill fuel img1x2 1 0 0 = some img1x2) ∧
    (∀ fuel, 4 * (img1x2.width * img1x2.height) + 1 ≤ fuel →
      ∃ out, removeBackground fuel img1x2 1 0 0 = some out) :=
  ⟨by decide, by decide,
    (invalid_seed_is_not_checked img1x2 1 0 0 (by decide) (by decide)).1,
    (invalid_seed_is_not_checked img1x2 1 0 0 (by decide) (by decide)).2.2.1⟩

/-! ## Expansions: each pixel of the region exactly once -/

theorem floodFillBody_cases {img : ImageData} (tR tG tB : Option Int) (tol : ℚ)
    (d v : List Nat) (x y : Int) (f : List (Int × Int)) (hfr : AlphaCleared img.data d) :
    (floodFillBodyExpands img.width img.height tR tG tB tol x y d v = false ∧
      floodFillBody img.width img.height tR tG tB tol x y d v f = ⟨d, v, f⟩) ∨
    (floodFillBodyExpands img.width img.height tR tG tB tol x y d v = true ∧
      InGrid img.width img.height (x, y) ∧
      truthy (readAt v (pixelIdx img.width (x, y))) = false ∧
      pixelMatch img tR tG tB tol (x, y) = true ∧
      floodFillBody img.width img.height tR tG tB tol x y d v f =
        ⟨writeAt d (pixelIdx img.width (x, y) * 4 + 3) 0,
          writeAt v (pixelIdx img.width (x, y)) 1,
          (x, y - 1) :: (x, y + 1) :: (x - 1, y) :: (x + 1, y) :: f⟩) := by
  have hcm := colorMatch_frame hfr (y * img.width + x) tR tG tB tol
  unfold floodFillBodyExpands floodFillBody
  simp only
  by_cases hout : x < 0 ∨ x ≥ img.width ∨ y < 0 ∨ y ≥ img.height
  · left
    rw [if_pos hout, if_pos hout]
    exact ⟨rfl, rfl⟩
  · rw [if_neg hout, if_neg hout]
    have hc : InGrid img.width img.height (x, y) := by
      refine ⟨?_, ?_, ?_, ?_⟩ <;> simp only <;> omega
    by_cases hvis : truthy (readAt v (y * img.width + x)) = true
    · left
      rw [if_pos hvis, if_pos hvis]
      exact ⟨rfl, rfl⟩
    · rw [if_neg hvis, if_neg hvis]
      by_cases hm : colorMatch (readAt d ((y * img.width + x) * 4))
          (readAt d ((y * img.width + x) * 4 + 1)) (readAt d ((y * img.width + x) * 4 + 2))
          tR tG tB tol = true
      · right
        rw [if_pos hm]
        refine ⟨hm, hc, by simpa using hvis, ?_, rfl⟩
        unfold pixelMatch pixelIdx
        rw [← hcm]; exact hm
      · left
        rw [if_neg hm]
        exact ⟨by simpa using hm, rfl⟩

theorem removeBackgroundBody_cases {img : ImageData} (tR tG tB : Option Int) (tol : ℚ)
    (d v : List Nat) (x y : Int) (f : List (Int × Int)) (hfr : AlphaCleared img.data d) :
    (removeBackgroundBodyExpands img.width tR tG tB tol x y d v = false ∧
      (removeBackgroundBody img.width img.height tR tG tB tol x y d v f).frontier = f ∧
      ((removeBackgroundBody img.width img.height tR tG tB tol x y d v f).visited = v ∨
        ((removeBackgroundBody img.width img.height tR tG tB tol x y d v f).visited =
            writeAt v (pixelIdx img.width (x, y)) 1 ∧
          ¬ pixelMatch img tR tG tB tol (x, y) = true))) ∨
    (removeBackgroundBodyExpands img.width tR tG tB tol x y d v = true ∧
      truthy (readAt v (pixelIdx img.width (x, y))) = false ∧
      pixelMatch img tR tG tB tol (x, y) = true ∧
      (removeBackgroundBody img.width img.height tR tG tB tol x y d v f).visited =
        writeAt v (pixelIdx img.width (x, y)) 1 ∧
      (removeBackgroundBody img.width img.height tR tG tB tol x y d v f).frontier.length ≤
        f.length + 4) := by
  have hcm := colorMatch_frame hfr (y * img.width + x) tR tG tB tol
  unfold removeBackgroundBodyExpands removeBackgroundBody
  simp only
  by_cases hvis : truthy (readAt v (y * img.width + x)) = true
  · left
    rw [if_pos hvis, if_pos hvis]
    exact ⟨rfl, rfl, Or.inl rfl⟩
  · rw [if_neg hvis, if_neg hvis]
    by_cases hm : colorMatch (readAt d ((y * img.width + x) * 4))
        (readAt d ((y * img.width + x) * 4 + 1)) (readAt d ((y * img.width + x) * 4 + 2))
        tR tG tB tol = true
    · right
      rw [if_pos hm]
      refine ⟨hm, by simpa using hvis, ?_, rfl, ?_⟩
      · unfold pixelMatch pixelIdx
        rw [← hcm]; exact hm
      · simp only
        have l1 := length_ite_cons (x > 0) (x - 1, y) f
        have l2 := length_ite_cons (x < (img.width : Int) - 1) (x + 1, y)
          (if x > 0 then (x - 1, y) :: f else f)
        have l3 := length_ite_cons (y > 0) (x, y - 1)
          (if x < (img.width : Int) - 1 then (x + 1, y) :: (if x > 0 then (x - 1, y) :: f else f)
            else (if x > 0 then (x - 1, y) :: f else f))
        have l4 := length_ite_cons (y < (img.height : Int) - 1) (x, y + 1)
          (if y > 0 then (x, y - 1) ::
            (if x < (img.width : Int) - 1 then
              (x + 1, y) :: (if x > 0 then (x - 1, y) :: f else f)
              else (if x > 0 then (x - 1, y) :: f else f))
            else (if x < (img.width : Int) - 1 then
              (x + 1, y) :: (if x > 0 then (x - 1, y) :: f else f)
              else (if x > 0 then (x - 1, y) :: f else f)))
        omega
    · left
      rw [if_neg hm]
      refine ⟨by simpa using hm, rfl, Or.inr ⟨rfl, ?_⟩⟩
      unfold pixelMatch pixelIdx
      rw [← hcm]; exact hm

/-- From a state that satisfies the invariant, a run of the loop of `floodFill`
that exits makes `frontier length + 4 * expansions` iterations; it expands no
pixel twice, only pixels of the grid not yet done, and the pixels done at exit
are those done before together with those expanded. -/
theorem floodFillLoop_work {img : ImageData} (hwf : img.WF) (tR tG tB : Option Int)
    (tol : ℚ) (seed : Int × Int) :
    ∀ (fuel : Nat) (s s' : FillState),
      FillInv img (fun p => pixelMatch img tR tG tB tol p = true) seed s →
      floodFillLoop img.width img.height tR tG tB tol fuel s = some s' →
      floodFillLoopIters img.width img.height tR tG tB tol fuel s =
        s.frontier.length +
          4 * (floodFillLoopExpanded img.width img.height tR tG tB tol fuel s).length ∧
      (floodFillLoopExpanded img.width img.height tR tG tB tol fuel s).Nodup ∧
      (∀ p ∈ floodFillLoopExpanded img.width img.height tR tG tB tol fuel s,
        InGrid img.width img.height p ∧
        ¬ Done img.width (fun p => pixelMatch img tR tG tB tol p = true) s.visited p) ∧
      (∀ p, InGrid img.width img.height p →
        (Done img.width (fun p => pixelMatch img tR tG tB tol p = true) s'.visited p ↔
          Done img.width (fun p => pixelMatch img tR tG tB tol p = true) s.visited p ∨
          p ∈ floodFillLoopExpanded img.width img.height tR tG tB tol fuel s)) := by
  intro fuel
  induction fuel with
  | zero =>
    intro s s' hI h
    obtain ⟨d, v, f⟩ := s
    cases f with
    | nil =>
      simp only [floodFillLoop, Option.some.injEq] at h
      subst h
      simp [floodFillLoopIters, floodFillLoopExpanded]
    | cons c f => simp [floodFillLoop] at h
  | succ n ih =>
    intro s s' hI h
    obtain ⟨d, v, f⟩ := s
    cases f with
    | nil =>
      simp only [floodFillLoop, Option.some.injEq] at h
      subst h
      simp [floodFillLoopIters, floodFillLoopExpanded]
    | cons c f =>
      obtain ⟨x, y⟩ := c
      simp only [floodFillLoop] at h
      simp only [floodFillLoopIters, floodFillLoopExpanded]
      have hI1 := floodFillBody_inv hwf tR tG tB tol seed d v x y f hI
      have ih1 := ih _ s' hI1 h
      rcases floodFillBody_cases tR tG tB tol d v x y f hI.frame with
        ⟨hexp, hbody⟩ | ⟨hexp, hc, hnv, hm, hbody⟩
      · rw [hexp]
        rw [hbody] at ih1 ⊢
        simp only [Bool.false_eq_true, if_false, List.nil_append]
        obtain ⟨i1, i2, i3, i4⟩ := ih1
        refine ⟨?_, i2, i3, i4⟩
        simp only [List.length_cons] at i1 ⊢
        omega
      · rw [hexp]
        rw [hbody] at ih1 ⊢
        simp only [if_true, List.singleton_append]
        obtain ⟨i1, i2, i3, i4⟩ := ih1
        have hv : v.length = img.width * img.height := hI.vlen
        have hD : ∀ p, InGrid img.width img.height p →
            (Done img.width (fun p => pixelMatch img tR tG tB tol p = true)
                (writeAt v (pixelIdx img.width (x, y)) 1) p ↔
              p = (x, y) ∨
              Done img.width (fun p => pixelMatch img tR tG tB tol p = true) v p) := by
          intro p hp
          rw [done_visited_write hv hc hp]
          constructor
          · rintro (⟨h1, _⟩ | h1)
            · exact Or.inl h1
            · exact Or.inr h1
          · rintro (h1 | h1)
            · exact Or.inl ⟨h1, hm⟩
            · exact Or.inr h1
        refine ⟨?_, ?_, ?_, ?_⟩
        · simp only [List.length_cons] at i1 ⊢
          omega
        · refine List.nodup_cons.mpr ⟨?_, i2⟩
          intro hmem
          exact (i3 _ hmem).2 ((hD (x, y) hc).mpr (Or.inl rfl))
        · intro p hp
          rcases List.mem_cons.mp hp with h1 | h1
          · subst h1
            refine ⟨hc, fun hd => ?_⟩
            have := hd.1
            rw [hnv] at this
            exact absurd this (by simp)
          · exact ⟨(i3 p h1).1, fun hd => (i3 p h1).2 ((hD p (i3 p h1).1).mpr (Or.inr hd))⟩
        · intro p hp
          rw [i4 p hp, hD p hp, List.mem_cons]
          constructor
          · rintro ((h1 | h1) | h1)
            · exact Or.inr (Or.inl h1)
            · exact Or.inl h1
            · exact Or.inr (Or.inr h1)
          · rintro (h1 | h1 | h1)
            · exact Or.inl (Or.inr h1)
            · exact Or.inl (Or.inl h1)
            · exact Or.inr h1

/-- From a state that satisfies the invariant and whose frontier is inside the
grid, a run of the loop of `removeBackground` that exits makes at most
`frontier length + 4 * expansions` iterations; it expands no pixel twice, only
pixels of the grid not yet done, and the pixels done at exit are those done
before together with those expanded. -/
theorem removeBackgroundLoop_work {img : ImageData} (hwf : img.WF) (tR tG tB : Option Int)
    (tol : ℚ) (seed : Int × Int) :
    ∀ (fuel : Nat) (s s' : FillState),
      FillInv img (fun p => pixelMatch img tR tG tB tol p = true) seed s →
      (∀ c ∈ s.frontier, InGrid img.width img.height c) →
      removeBackgroundLoop img.width img.height tR tG tB tol fuel s = some s' →
      removeBackgroundLoopIters img.width img.height tR tG tB tol fuel s ≤
        s.frontier.length +
          4 * (removeBackgroundLoopExpanded img.width img.height tR tG tB tol fuel s).length ∧
      (removeBackgroundLoopExpanded img.width img.height tR tG tB tol fuel s).Nodup ∧
      (∀ p ∈ removeBackgroundLoopExpanded img.width img.height tR tG tB tol fuel s,
        InGrid img.width img.height p ∧
        ¬ Done img.width (fun p => pixelMatch img tR tG tB tol p = true) s.visited p) ∧
      (∀ p, InGrid img.width img.height p →
        (Done img.width (fun p => pixelMatch img tR tG tB tol p = true) s'.visited p ↔
          Done img.width (fun p => pixelMatch img tR tG tB tol p = true) s.visited p ∨
          p ∈ removeBackgroundLoopExpanded img.width img.height tR tG tB tol fuel s)) := by
  intro fuel
  induction fuel with
  | zero =>
    intro s s' hI _ h
    obtain ⟨d, v, f⟩ := s
    cases f with
    | nil =>
      simp only [removeBackgroundLoop, Option.some.injEq] at h
      subst h
      simp [removeBackgroundLoopIters, removeBackgroundLoopExpanded]
    | cons c f => simp [removeBackgroundLoop] at h
  | succ n ih =>
    intro s s' hI hg h
    obtain ⟨d, v, f⟩ := s
    cases f with
    | nil =>
      simp only [removeBackgroundLoop, Option.some.injEq] at h
      subst h
      simp [removeBackgroundLoopIters, removeBackgroundLoopExpanded]
    | cons c f =>
      obtain ⟨x, y⟩ := c
      simp only [removeBackgroundLoop] at h
      simp only [removeBackgroundLoopIters, removeBackgroundLoopExpanded]
      have hc : InGrid img.width img.height (x, y) := hg _ (List.mem_cons_self _ _)
      have hstep := removeBackgroundBody_inv hwf tR tG tB tol seed d v x y f hI hg
      have ih1 := ih _ s' hstep.1 hstep.2 h
      have hv : v.length = img.width * img.height := hI.vlen
      obtain ⟨i1, i2, i3, i4⟩ := ih1
      rcases @removeBackgroundBody_cases img tR tG tB tol d v x y f hI.frame with
        ⟨hexp, hfront, hvis⟩ | ⟨hexp, hnv, hm, hvis, hlen⟩
      · rw [hexp]
        simp only [Bool.false_eq_true, if_false, List.nil_append]
        have hD : ∀ p, InGrid img.width img.height p →
            (Done img.width (fun p => pixelMatch img tR tG tB tol p = true)
                (removeBackgroundBody img.width img.height tR tG tB tol x y d v f).visited p ↔
              Done img.width (fun p => pixelMatch img tR tG tB tol p = true) v p) := by
          intro p hp
          rcases hvis with h1 | ⟨h1, h2⟩
          · rw [h1]
          · rw [h1, done_visited_write hv hc hp]
            constructor
            · rintro (⟨_, h3⟩ | h3)
              · exact absurd h3 h2
              · exact h3
            · exact Or.inr
        refine ⟨?_, i2, ?_, ?_⟩
        · rw [hfront] at i1
          simp only [List.length_cons]
          omega
        · intro p hp
          exact ⟨(i3 p hp).1, fun hd => (i3 p hp).2 ((hD p (i3 p hp).1).mpr hd)⟩
        · intro p hp
          rw [i4 p hp, hD p hp]
      · rw [hexp]
        simp only [if_true, List.singleton_append]
        have hD : ∀ p, InGrid img.width img.height p →
            (Done img.width (fun p => pixelMatch img tR tG tB tol p = true)
                (removeBackgroundBody img.width img.height tR tG tB tol x y d v f).visited p ↔
              p = (x, y) ∨
              Done img.width (fun p => pixelMatch img tR tG tB tol p = true) v p) := by
          intro p hp
          rw [hvis, done_visited_write hv hc hp]
          constructor
          · rintro (⟨h1, _⟩ | h1)
            · exact Or.inl h1
            · exact Or.inr h1
          · rintro (h1 | h1)
            · exact Or.inl ⟨h1, hm⟩
            · exact Or.inr h1
        refine ⟨?_, ?_, ?_, ?_⟩
        · simp only [List.length_cons]
          omega
        · refine List.nodup_cons.mpr ⟨?_, i2⟩
          intro hmem
          exact (i3 _ hmem).2 ((hD (x, y) hc).mpr (Or.inl rfl))
        · intro p hp
          rcases List.mem_cons.mp hp with h1 | h1
          · subst h1
            refine ⟨hc, fun hd => ?_⟩
            have := hd.1
            rw [hnv] at this
            exact absurd this (by simp)
          · exact ⟨(i3 p h1).1, fun hd => (i3 p h1).2 ((hD p (i3 p h1).1).mpr (Or.inr hd))⟩
        · intro p hp
          rw [i4 p hp, hD p hp, List.mem_cons]
          constructor
          · rintro ((h1 | h1) | h1)
            · exact Or.inr (Or.inl h1)
            · exact Or.inl h1
            · exact Or.inr (Or.inr h1)
          · rintro (h1 | h1 | h1)
            · exact Or.inl (Or.inr h1)
            · exact Or.inl (Or.inl h1)
            · exact Or.inr h1

theorem not_done_replicate (width : Nat) (M : Int × Int → Prop) (n : Nat) (p : Int × Int) :
    ¬ Done width M (List.replicate n 0) p := by
  intro hd
  have h := hd.1
  unfold readAt at h
  split at h
  · rw [List.getElem?_replicate] at h
    split at h <;> simp [truthy] at h
  · simp [truthy] at h

/-- On a well-formed buffer with a seed that is not transparent, a call of
`floodFill` that returns has made `1 + 4 * M` loop iterations, where the `M`
expanded coordinates are, without repetition, the pixels of the seed's region. -/
theorem floodFill_work {img : ImageData} (hwf : img.WF) {sx sy : Int}
    (hα : alphaAt img.width img.data (sx, sy) ≠ some 0) {tol : ℚ} {fuel : Nat}
    {out : ImageData} (h : floodFill fuel img sx sy tol = some out) :
    floodFillIters fuel img sx sy tol =
      1 + 4 * (floodFillExpanded fuel img sx sy tol).length ∧
    (floodFillExpanded fuel img sx sy tol).Nodup ∧
    ∀ p, p ∈ floodFillExpanded fuel img sx sy tol ↔ Region img (sx, sy) tol p := by
  have hα' : ¬ readAt img.data ((sy * img.width + sx) * 4 + 3) = some 0 := hα
  unfold floodFill at h
  unfold floodFillIters floodFillExpanded
  simp only at h ⊢
  rw [if_neg hα'] at h ⊢
  rw [if_neg hα']
  simp only [Option.map_eq_some'] at h
  obtain ⟨s', hs', _⟩ := h
  have hinit := fillInv_init img (fun p => pixelMatch img
      ((readAt img.data ((sy * img.width + sx) * 4)).map Int.ofNat)
      ((readAt img.data ((sy * img.width + sx) * 4 + 1)).map Int.ofNat)
      ((readAt img.data ((sy * img.width + sx) * 4 + 2)).map Int.ofNat) tol p = true) (sx, sy)
  have hfin := floodFillLoop_inv img.width img.height _ _ _ tol
    (fun s => FillInv img (fun p => pixelMatch img
        ((readAt img.data ((sy * img.width + sx) * 4)).map Int.ofNat)
        ((readAt img.data ((sy * img.width + sx) * 4 + 1)).map Int.ofNat)
        ((readAt img.data ((sy * img.width + sx) * 4 + 2)).map Int.ofNat) tol p = true)
        (sx, sy) s)
    (fun d v x y q hP => floodFillBody_inv hwf _ _ _ tol (sx, sy) d v x y q hP)
    fuel _ s' hs' hinit
  obtain ⟨i1, i2, i3, i4⟩ := floodFillLoop_work hwf _ _ _ tol (sx, sy) fuel
    (removeBackgroundInit img sx sy) s' hinit hs'
  refine ⟨?_, i2, ?_⟩
  · rw [i1]
    simp [removeBackgroundInit]
  · intro p
    obtain ⟨d', v', f'⟩ := s'
    obtain ⟨hI', hf'⟩ := hfin
    simp only at hf'
    subst hf'
    constructor
    · intro hp
      have hg := (i3 p hp).1
      exact (hI'.alpha_done p hg ((i4 p hg).mpr (Or.inr hp))).1
    · intro hr
      have hg : InGrid img.width img.height p := reach_inGrid hr
      rcases (i4 p hg).mp (fillInv_complete hI' hr) with hd | hm
      · exact absurd hd (not_done_replicate _ _ _ _)
      · exact hm

/-- On a well-formed buffer with the seed inside the grid, a call of
`removeBackground` that returns has made at most `1 + 4 * M` loop iterations,
where the `M` expanded coordinates are, without repetition, the pixels of the
seed's region. -/
theorem removeBackground_work {img : ImageData} (hwf : img.WF) {sx sy : Int}
    (hseed : InGrid img.width img.height (sx, sy)) {tol : ℚ} {fuel : Nat}
    {out : ImageData} (h : removeBackground fuel img sx sy tol = some out) :
    removeBackgroundIters fuel img sx sy tol ≤
      1 + 4 * (removeBackgroundExpanded fuel img sx sy tol).length ∧
    (removeBackgroundExpanded fuel img sx sy tol).Nodup ∧
    ∀ p, p ∈ removeBackgroundExpanded fuel img sx sy tol ↔ Region img (sx, sy) tol p := by
  unfold removeBackground at h
  unfold removeBackgroundIters removeBackgroundExpanded
  simp only at h ⊢
  simp only [Option.map_eq_some'] at h
  obtain ⟨s', hs', _⟩ := h
  have hinit := fillInv_init img (fun p => pixelMatch img
      ((readAt img.data ((sy * img.width + sx) * 4)).map Int.ofNat)
      ((readAt img.data ((sy * img.width + sx) * 4 + 1)).map Int.ofNat)
      ((readAt img.data ((sy * img.width + sx) * 4 + 2)).map Int.ofNat) tol p = true) (sx, sy)
  have hgrid : ∀ c ∈ (removeBackgroundInit img sx sy).frontier,
      InGrid img.width img.height c := by
    intro c hc
    rw [List.mem_singleton.mp hc]
    exact hseed
  have hfin := removeBackgroundLoop_inv img.width img.height _ _ _ tol
    (fun s => FillInv img (fun p => pixelMatch img
        ((readAt img.data ((sy * img.width + sx) * 4)).map Int.ofNat)
        ((readAt img.data ((sy * img.width + sx) * 4 + 1)).map Int.ofNat)
        ((readAt img.data ((sy * img.width + sx) * 4 + 2)).map Int.ofNat) tol p = true)
        (sx, sy) s ∧ ∀ c ∈ s.frontier, InGrid img.width img.height c)
    (fun d v x y q hP => removeBackgroundBody_inv hwf _ _ _ tol (sx, sy) d v x y q hP.1 hP.2)
    fuel _ s' hs' ⟨hinit, hgrid⟩
  obtain ⟨i1, i2, i3, i4⟩ := removeBackgroundLoop_work hwf _ _ _ tol (sx, sy) fuel
    (removeBackgroundInit img sx sy) s' hinit hgrid hs'
  refine ⟨?_, i2, ?_⟩
  · refine le_trans i1 ?_
    simp [removeBackgroundInit]
  · intro p
    obtain ⟨d', v', f'⟩ := s'
    obtain ⟨⟨hI', _⟩, hf'⟩ := hfin
    simp only at hf'
    subst hf'
    constructor
    · intro hp
      have hg := (i3 p hp).1
      exact (hI'.alpha_done p hg ((i4 p hg).mpr (Or.inr hp))).1
    · intro hr
      have hg : InGrid img.width img.height p := reach_inGrid hr
      rcases (i4 p hg).mp (fillInv_complete hI' hr) with hd | hm
      · exact absurd hd (not_done_replicate _ _ _ _)
      · exact hm

/-- C19: on a well-formed buffer with the seed inside the grid, both calls
return, and in a call that returns the coordinates at which the branch
`distance <= tolerance` runs (alpha set to `0`, neighbours pushed) are the
pixels of the seed's region, each exactly once. With `M` their number,
`removeBackground` makes at most `1 + 4 * M` loop iterations and `floodFill`,
when the seed is not transparent, exactly `1 + 4 * M`; in both cases at most
`1 + 4 * width * height`. -/
theorem frontier_work_bound (img : ImageData) (startX startY : Int) (tolerance : ℚ)
    (hwf : img.WF) (hseed : InGrid img.width img.height (startX, startY)) :
    ((∃ out, removeBackground (4 * (img.width * img.height) + 1) img startX startY tolerance =
        some out) ∧
      ∀ fuel out, removeBackground fuel img startX startY tolerance = some out →
        (removeBackgroundExpanded fuel img startX startY tolerance).Nodup ∧
        (∀ p, p ∈ removeBackgroundExpanded fuel img startX startY tolerance ↔
          Connected img (startX, startY) tolerance p) ∧
        removeBackgroundIters fuel img startX startY tolerance ≤
          1 + 4 * (removeBackgroundExpanded fuel img startX startY tolerance).length ∧
        removeBackgroundIters fuel img startX startY tolerance ≤
          1 + 4 * (img.width * img.height)) ∧
    ((∃ out, floodFill (4 * (img.width * img.height) + 1) img startX startY tolerance =
        some out) ∧
      (alphaAt img.width img.data (startX, startY) ≠ some 0 →
        ∀ fuel out, floodFill fuel img startX startY tolerance = some out →
          (floodFillExpanded fuel img startX startY tolerance).Nodup ∧
          (∀ p, p ∈ floodFillExpanded fuel img startX startY tolerance ↔
            Connected img (startX, startY) tolerance p) ∧
          floodFillIters fuel img startX startY tolerance =
            1 + 4 * (floodFillExpanded fuel img startX startY tolerance).length ∧
          floodFillIters fuel img startX startY tolerance ≤
            1 + 4 * (img.width * img.height))) := by
  refine ⟨⟨removeBackground_returns hwf hseed tolerance _ (le_refl _), ?_⟩,
    ⟨floodFill_returns img startX startY tolerance _ (le_refl _), ?_⟩⟩
  · intro fuel out h
    obtain ⟨w1, w2, w3⟩ := removeBackground_work hwf hseed h
    refine ⟨w2, ?_, w1, ?_⟩
    · intro p
      rw [w3 p]
      exact region_iff_connected img (startX, startY) tolerance p
    · have := removeBackgroundIters_le hwf hseed tolerance fuel
      omega
  · intro hα fuel out h
    obtain ⟨w1, w2, w3⟩ := floodFill_work hwf hα h
    refine ⟨w2, ?_, w1, ?_⟩
    · intro p
      rw [w3 p]
      exact region_iff_connected img (startX, startY) tolerance p
    · have := floodFillIters_le img startX startY tolerance fuel
      omega

/-- C19, witness: on the 3×3 example the region has 8 pixels;
`removeBackground` makes 21 iterations and `floodFill` makes 33. -/
theorem frontier_work_bound_witness :
    img3x3.WF ∧ InGrid img3x3.width img3x3.height (0, 0) ∧
    removeBackgroundIters 37 img3x3 0 0 10 = 21 ∧
    (removeBackgroundExpanded 37 img3x3 0 0 10).length = 8 ∧
    floodFillIters 37 img3x3 0 0 10 = 33 ∧
    (floodFillExpanded 37 img3x3 0 0 10).length = 8 ∧
    (∀ fuel out, removeBackground fuel img3x3 0 0 10 = some out →
        (removeBackgroundExpanded fuel img3x3 0 0 10).Nodup ∧
        (∀ p, p ∈ removeBackgroundExpanded fuel img3x3 0 0 10 ↔
          Connected img3x3 (0, 0) 10 p) ∧
        removeBackgroundIters fuel img3x3 0 0 10 ≤
          1 + 4 * (removeBackgroundExpanded fuel img3x3 0 0 10).length ∧
        removeBackgroundIters fuel img3x3 0 0 10 ≤
          1 + 4 * (img3x3.width * img3x3.height)) :=
  ⟨by decide, by decide, by decide!, by decide!, by decide!, by decide!,
    (frontier_work_bound img3x3 0 0 10 (by decide) (by decide)).1.2⟩

end ImageProcess
